import Mathlib

/-!
# Hopscotch-hashing dictionary (`tp3.c`)

A shallow embedding of the dictionary of `tp3.c` and a verification of its
specification.

Modelling conventions.

* A C string key is the list of its bytes without the terminator
  (`Key = List Nat`); `strcmp(a, b) == 0` is equality of the lists and a
  `NULL` key pointer of a slot is `none`.
* A `void *` value is a natural number, `0` being `NULL`.
* `uint32_t` values are naturals below `2 ^ 32`; every operation that can
  leave that range is reduced modulo `2 ^ 32`.
* `size_t` values are naturals; `size` is reduced modulo `2 ^ 64` where it is
  incremented or decremented and `capacity` where it is doubled.
* The two arrays `elements` and `bitmap` are functions on indices; the code
  only ever indexes them below `capacity`.
* `malloc` / `calloc` results are taken from an oracle, and destructor calls
  are logged, both in the `World` that every operation threads through.
* The recursion `dictionary_put_with_hashvalue` -> `rehash` ->
  `dictionary_put_with_hashvalue` carries a fuel argument; running out of
  fuel is the result `none`.
-/

namespace Hopscotch

/-! ## Constants and 32-bit helpers -/

def INITIAL_CAPACITY : Nat := 1024
def HOP_RANGE : Nat := 32
def BIT_RANGE : Nat := 0xFFFFFFFF
def SEED : Nat := 42

/-- Truncation to `uint32_t`. -/
def u32 (x : Nat) : Nat := x % 2 ^ 32

/-- Truncation to a 64-bit `size_t`. -/
def u64 (x : Nat) : Nat := x % 2 ^ 64

/-- Unary minus on `uint32_t`. -/
def neg32 (x : Nat) : Nat := (2 ^ 32 - x) % 2 ^ 32

/-- Bitwise complement `~x` on `uint32_t`. -/
def not32 (x : Nat) : Nat := x ^^^ BIT_RANGE

/-- The macro `ROTL32(x, r)` applied to a `uint32_t`. -/
def ROTL32 (x r : Nat) : Nat := u32 (x <<< r) ||| (x >>> (32 - r))

/-- Counts the zero bits above the highest set bit among bits `n-1 .. 0`. -/
def clzAux (x : Nat) : Nat → Nat
  | 0 => 0
  | n + 1 => if x.testBit n then 0 else clzAux x n + 1

/-- The builtin `__builtin_clz` on a non-zero `uint32_t`. -/
def clz32 (x : Nat) : Nat := clzAux x 32

/-! ## The hash function -/

/-- A C string key: its bytes, terminator excluded. -/
abbrev Key := List Nat

/-- The block loop of `murmur_hash`: one round per complete 4-byte block
(read little-endian); returns `h1` and the remaining tail bytes. -/
def murmur_blocks : Nat → List Nat → Nat × List Nat
  | h1, b0 :: b1 :: b2 :: b3 :: rest =>
    let k1 := b0 + b1 * 2 ^ 8 + b2 * 2 ^ 16 + b3 * 2 ^ 24
    let k1 := u32 (k1 * 0xcc9e2d51)
    let k1 := ROTL32 k1 15
    let k1 := u32 (k1 * 0x1b873593)
    let h1 := h1 ^^^ k1
    let h1 := ROTL32 h1 13
    let h1 := u32 (h1 * 5 + 0xe6546b64)
    murmur_blocks h1 rest
  | h1, tail => (h1, tail)

/-- The `switch (len & 3)` of `murmur_hash` with its fall-through cases. -/
def murmur_tail (h1 : Nat) (tail : List Nat) : Nat :=
  match tail with
  | [] => h1
  | t0 :: rest =>
    let k1 : Nat := 0
    let k1 := match rest with
      | _ :: t2 :: _ => k1 ^^^ (t2 <<< 16)
      | _ => k1
    let k1 := match rest with
      | t1 :: _ => k1 ^^^ (t1 <<< 8)
      | _ => k1
    let k1 := k1 ^^^ t0
    let k1 := u32 (k1 * 0xcc9e2d51)
    let k1 := ROTL32 k1 15
    let k1 := u32 (k1 * 0x1b873593)
    h1 ^^^ k1

/-- The body of `murmur_hash` on `len` bytes of data. -/
def murmur3_32 (data : List Nat) (seed : Nat) : Nat :=
  let len := data.length
  let (h1, tail) := murmur_blocks (u32 seed) data
  let h1 := murmur_tail h1 tail
  let h1 := h1 ^^^ u32 len
  let h1 := h1 ^^^ (h1 >>> 16)
  let h1 := u32 (h1 * 0x85ebca6b)
  let h1 := h1 ^^^ (h1 >>> 13)
  let h1 := u32 (h1 * 0xc2b2ae35)
  let h1 := h1 ^^^ (h1 >>> 16)
  h1

/-- The function `murmur_hash`: the hashed bytes are the key and its
terminator (`len = strlen(key) + 1`). -/
def murmur_hash (key : Key) (seed : Nat) : Nat :=
  murmur3_32 (key ++ [0]) seed

/-! ## Data model -/

/-- The struct `Element`: a slot of the table. -/
structure Element where
  /-- Owned copy of the key, `none` being the `NULL` of an empty slot. -/
  key : Option Key
  value : Nat
  hashvalue : Nat

/-- A zeroed slot, as `calloc` returns it. -/
def Element.zero : Element := ⟨none, 0, 0⟩

/-- The struct `dictionary`. The field `destroy` records whether a
destructor was configured. -/
structure dictionary_t where
  elements : Nat → Element
  size : Nat
  capacity : Nat
  destroy : Bool
  bitmap : Nat → Nat

/-- The dictionary together with the environment its operations act on:
`allocs` holds the outcomes of the coming `malloc` / `calloc` calls (an
exhausted list means success), `failures` counts the allocations that have
failed so far and `destroyed` lists the arguments of the destructor calls,
most recent first. -/
structure World where
  dic : dictionary_t
  allocs : List Bool
  failures : Nat
  destroyed : List Nat

/-- Array store `a[i] = v`. -/
def store {α : Type} (a : Nat → α) (i : Nat) (v : α) : Nat → α :=
  fun j => if j = i then v else a j

/-- One call of `malloc`: takes the next oracle answer. -/
def World.malloc (w : World) : Bool × World :=
  match w.allocs with
  | [] => (true, w)
  | true :: rest => (true, { w with allocs := rest })
  | false :: rest => (false, { w with allocs := rest, failures := w.failures + 1 })

/-- One call of `calloc(nmemb, size)`: fails when `nmemb * size` does not fit
a `size_t`, and takes the next oracle answer otherwise. -/
def World.calloc (w : World) (nmemb size : Nat) : Bool × World :=
  if 2 ^ 64 ≤ nmemb * size then (false, { w with failures := w.failures + 1 })
  else w.malloc

/-- Size in bytes of `Element` (two pointers and a `size_t`). -/
def sizeof_Element : Nat := 24

/-- Size in bytes of `uint32_t`. -/
def sizeof_uint32 : Nat := 4

/-! ## Bitmap and neighbourhood scans -/

def neighborhood_is_full (bitmap : Nat) : Bool := bitmap == BIT_RANGE

/-- The function `update_bitmap` on a non-null bitmap array: sets or clears
bit `31 - neighbor` of `bitmap[position]`. -/
def update_bitmap (bitmap : Nat → Nat) (position neighbor : Nat) (update : Bool) : Nat → Nat :=
  let change := u32 (1 <<< (31 - neighbor))
  if update then store bitmap position (bitmap position ||| change)
  else store bitmap position (bitmap position &&& not32 change)

/-- The `while (inverted != 0)` loop of `return_free_index_in_neighborhood`;
the first argument bounds the number of rounds. -/
def return_free_loop (d : dictionary_t) (pos : Nat) : Nat → Nat → Nat
  | 0, _ => d.capacity
  | fuel + 1, inverted =>
    if inverted = 0 then d.capacity
    else
      let first_free := inverted &&& neg32 inverted
      if first_free = 0 then d.capacity
      else
        let neighbor := clz32 first_free
        let index := (pos + neighbor) % d.capacity
        if (d.elements index).key = none then neighbor
        else return_free_loop d pos fuel (inverted &&& not32 first_free)

def return_free_index_in_neighborhood (d : dictionary_t) (pos : Nat) : Nat :=
  let bitmap := d.bitmap pos
  let inverted := not32 bitmap
  if inverted = 0 then d.capacity
  else return_free_loop d pos 32 inverted

/-- The `for` loop of `find_first_free_element`: `n` rounds from index `i`. -/
def find_first_free_loop (d : dictionary_t) (pos : Nat) : Nat → Nat → Nat
  | 0, _ => d.capacity
  | n + 1, i =>
    let index := (pos + i) % d.capacity
    if (d.elements index).key = none then index
    else find_first_free_loop d pos n (i + 1)

def find_first_free_element (d : dictionary_t) (pos : Nat) : Nat :=
  find_first_free_loop d pos (d.capacity - HOP_RANGE) HOP_RANGE

/-- The `while (bitmap != 0)` loop of
`get_keys_matching_index_in_neighborhood`; the first argument bounds the
number of rounds. -/
def get_keys_loop (d : dictionary_t) (key : Key) (pos : Nat) : Nat → Nat → Nat
  | 0, _ => d.capacity
  | fuel + 1, bitmap =>
    if bitmap = 0 then d.capacity
    else
      let first_occupied := bitmap &&& neg32 bitmap
      if first_occupied = 0 then d.capacity
      else
        let neighbor := clz32 first_occupied
        let index := (pos + neighbor) % d.capacity
        if (d.elements index).key = some key then index
        else get_keys_loop d key pos fuel (bitmap &&& not32 first_occupied)

def get_keys_matching_index_in_neighborhood (d : dictionary_t) (key : Key) (pos : Nat) : Nat :=
  get_keys_loop d key pos 32 (d.bitmap pos)

/-! ## Displacement -/

/-- The inner `for (int i = HOP_RANGE - 1; i >= 0; i--)` loop of
`displace_keys`, entered with `n = i + 1`: the first eligible occupant is
moved to `current_free`; returns its old index and the updated dictionary,
or `none` when `found` stays `0`. -/
def displace_scan (d : dictionary_t) (current_free : Nat) : Nat → Option (Nat × dictionary_t)
  | 0 => none
  | i + 1 =>
    let capacity := d.capacity
    let idx := (current_free + capacity - i) % capacity
    let elem := d.elements idx
    if elem.key = none then displace_scan d current_free i
    else
      let elem_bucket := elem.hashvalue % capacity
      if (current_free + capacity - elem_bucket) % capacity < HOP_RANGE then
        let elements1 := store d.elements current_free elem
        let elements2 := store elements1 idx { elements1 idx with key := none, value := 0 }
        let old_offset := (idx + capacity - elem_bucket) % capacity
        let new_offset := (current_free + capacity - elem_bucket) % capacity
        let bitmap1 := store d.bitmap elem_bucket
          (d.bitmap elem_bucket &&& not32 (u32 (1 <<< old_offset)))
        let bitmap2 := store bitmap1 elem_bucket
          (bitmap1 elem_bucket ||| u32 (1 <<< new_offset))
        some (idx, { d with elements := elements2, bitmap := bitmap2 })
      else displace_scan d current_free i

/-- The `while` loop of `displace_keys`; the first argument bounds the number
of rounds and `none` is returned when it is used up. -/
def displace_loop (pos : Nat) : Nat → dictionary_t → Nat → Option (Nat × dictionary_t)
  | 0, _, _ => none
  | fuel + 1, d, current_free =>
    if HOP_RANGE ≤ (current_free + d.capacity - pos) % d.capacity then
      match displace_scan d current_free HOP_RANGE with
      | none => some (d.capacity, d)
      | some (idx, d1) => displace_loop pos fuel d1 idx
    else some (current_free, d)

/-- The function `displace_keys`: the returned index (the capacity on
failure) and the dictionary as the moves left it. -/
def displace_keys (d : dictionary_t) (pos : Nat) : Option (Nat × dictionary_t) :=
  let current_free := find_first_free_element d pos
  if d.capacity ≤ current_free then some (d.capacity, d)
  else displace_loop pos (d.capacity + 1) d current_free

/-! ## Insertion, growth and the public interface -/

def insert_element (w : World) (pos hashvalue value : Nat) (key : Key) : Bool × World :=
  let d := w.dic
  if d.capacity ≤ pos then (false, w)
  else
    let bucket_index := hashvalue % d.capacity
    let neighbor := (pos + d.capacity - bucket_index) % d.capacity
    if HOP_RANGE ≤ neighbor then (false, w)
    else
      match w.malloc with
      | (false, w1) => (false, w1)
      | (true, w1) =>
        (true, { w1 with dic :=
          { d with
            bitmap := update_bitmap d.bitmap bucket_index neighbor true
            elements := store d.elements pos ⟨some key, value, hashvalue⟩
            size := u64 (d.size + 1) } })

/-- The reinsertion loop of `rehash`: `n` rounds from index `i` of the old
slot array, `put` being `dictionary_put_with_hashvalue`. -/
def rehash_loop (put : World → Key → Nat → Nat → Option (Bool × World))
    (old_elements : Nat → Element) : Nat → Nat → World → Option (Bool × World)
  | 0, _, w => some (true, w)
  | n + 1, i, w =>
    match (old_elements i).key with
    | none => rehash_loop put old_elements n (i + 1) w
    | some k =>
      match put w k (old_elements i).value (old_elements i).hashvalue with
      | none => none
      | some (false, w1) => some (false, w1)
      | some (true, w1) => rehash_loop put old_elements n (i + 1) w1

/-- The function `rehash`, `put` being `dictionary_put_with_hashvalue`. -/
def rehash (put : World → Key → Nat → Nat → Option (Bool × World)) (w : World) :
    Option (Bool × World) :=
  let d := w.dic
  let old_elements := d.elements
  let old_bitmap := d.bitmap
  let old_capacity := d.capacity
  let d1 := { d with capacity := u64 (old_capacity * 2), size := 0 }
  match w.calloc d1.capacity sizeof_Element with
  | (false, w1) =>
    some (false, { w1 with dic := { d1 with elements := old_elements, capacity := old_capacity } })
  | (true, w1) =>
    let d2 := { d1 with elements := fun _ => Element.zero }
    match w1.calloc d2.capacity sizeof_uint32 with
    | (false, w2) =>
      some (false, { w2 with dic :=
        { d2 with elements := old_elements, bitmap := old_bitmap, capacity := old_capacity } })
    | (true, w2) =>
      let d3 := { d2 with bitmap := fun _ => 0 }
      match rehash_loop put old_elements old_capacity 0 { w2 with dic := d3 } with
      | none => none
      | some (false, w3) =>
        some (false, { w3 with dic :=
          { w3.dic with elements := old_elements, bitmap := old_bitmap, capacity := old_capacity } })
      | some (true, w3) => some (true, w3)

/-- The function `dictionary_put_with_hashvalue`; the first argument bounds
the depth of the recursion through `rehash`. -/
def dictionary_put_with_hashvalue :
    Nat → World → Key → Nat → Nat → Option (Bool × World)
  | 0, _, _, _, _ => none
  | fuel + 1, w, key, value, hash_value =>
    let d := w.dic
    let capacity := d.capacity
    let pos := hash_value % capacity
    let existing_index := get_keys_matching_index_in_neighborhood d key pos
    if existing_index ≠ d.capacity then
      let old := (d.elements existing_index).value
      let w1 := if d.destroy = true ∧ old ≠ 0 then { w with destroyed := old :: w.destroyed } else w
      some (true, { w1 with dic :=
        { d with elements :=
            store d.elements existing_index { d.elements existing_index with value := value } } })
    else
      let free_element := return_free_index_in_neighborhood d pos
      if free_element ≠ capacity then
        some (insert_element w ((pos + free_element) % capacity) hash_value value key)
      else
        match displace_keys d pos with
        | none => none
        | some (free_element, d1) =>
          let w1 := { w with dic := d1 }
          if free_element ≠ capacity then
            some (insert_element w1 free_element hash_value value key)
          else
            match rehash (dictionary_put_with_hashvalue fuel) w1 with
            | none => none
            | some (false, w2) => some (false, w2)
            | some (true, w2) => dictionary_put_with_hashvalue fuel w2 key value hash_value

def dictionary_create (destroy : Bool) (allocs : List Bool) : Option World :=
  let w0 : World :=
    { dic := ⟨fun _ => Element.zero, 0, INITIAL_CAPACITY, destroy, fun _ => 0⟩
      allocs := allocs, failures := 0, destroyed := [] }
  match w0.malloc with
  | (false, _) => none
  | (true, w1) =>
    match w1.calloc INITIAL_CAPACITY sizeof_Element with
    | (false, _) => none
    | (true, w2) =>
      match w2.calloc INITIAL_CAPACITY sizeof_uint32 with
      | (false, _) => none
      | (true, w3) => some w3

def dictionary_put (fuel : Nat) (w : World) (key : Key) (value : Nat) : Option (Bool × World) :=
  dictionary_put_with_hashvalue fuel w key value (murmur_hash key SEED)

/-- The function `dictionary_get`: the returned pointer and `*err`. -/
def dictionary_get (d : dictionary_t) (key : Key) : Nat × Bool :=
  let pos := murmur_hash key SEED % d.capacity
  let index := get_keys_matching_index_in_neighborhood d key pos
  if index = d.capacity then (0, true)
  else ((d.elements index).value, false)

/-- The function `dictionary_pop`: the returned pointer, `*err` and the
world after the call. -/
def dictionary_pop (w : World) (key : Key) : (Nat × Bool) × World :=
  let d := w.dic
  let pos := murmur_hash key SEED % d.capacity
  let index := get_keys_matching_index_in_neighborhood d key pos
  if index = d.capacity then ((0, true), w)
  else
    let value := (d.elements index).value
    let elements := store d.elements index { d.elements index with key := none, value := 0 }
    let neighbor := (index + d.capacity - pos) % d.capacity
    let bitmap := update_bitmap d.bitmap pos neighbor false
    ((value, false),
      { w with dic := { d with elements := elements, bitmap := bitmap, size := u64 (d.size + 2 ^ 64 - 1) } })

def dictionary_delete (w : World) (key : Key) : Bool × World :=
  match dictionary_pop w key with
  | ((_, true), w1) => (false, w1)
  | ((value, false), w1) =>
    if w1.dic.destroy = true ∧ value ≠ 0 then (true, { w1 with destroyed := value :: w1.destroyed })
    else (true, w1)

def dictionary_contains (d : dictionary_t) (key : Key) : Bool :=
  let pos := murmur_hash key SEED % d.capacity
  let index := get_keys_matching_index_in_neighborhood d key pos
  if index = d.capacity then false else true

def dictionary_size (d : dictionary_t) : Nat := d.size

/-! ## Auxiliary definitions used in the statements -/

/-- Common shape of the two bitmap scans: visits the set bits of `x` from the
lowest one up and returns the first offset `clz32 bit` that `Q` accepts. -/
def scan_loop (Q : Nat → Bool) : Nat → Nat → Option Nat
  | 0, _ => none
  | fuel + 1, x =>
    if x = 0 then none
    else
      let first := x &&& neg32 x
      if first = 0 then none
      else
        let neighbor := clz32 first
        if Q neighbor then some neighbor
        else scan_loop Q fuel (x &&& not32 first)

/-- Bit `31 - n` of `bitmap[pos]` is set: bucket `pos` claims offset `n`. -/
def claimed (d : dictionary_t) (pos n : Nat) : Prop :=
  (d.bitmap pos).testBit (31 - n) = true

instance (d : dictionary_t) (pos n : Nat) : Decidable (claimed d pos n) := by
  unfold claimed; infer_instance

/-- The key stored in slot `(pos + n) % capacity`. -/
def key_at (d : dictionary_t) (pos n : Nat) : Option Key :=
  (d.elements ((pos + n) % d.capacity)).key

/-- What the C types guarantee of a dictionary: the table has at least one
neighbourhood of slots, its slot array fits the address space, and bitmap
words are 32-bit. -/
structure TypeOK (d : dictionary_t) : Prop where
  cap_ge : HOP_RANGE ≤ d.capacity
  cap_lt : d.capacity * sizeof_Element < 2 ^ 64
  bitmap_lt : ∀ b, d.bitmap b < 2 ^ 32

/-- Offset `n` of bucket `pos` is reported free: its bit is clear and its
slot is empty. -/
def free_at (d : dictionary_t) (pos n : Nat) : Prop :=
  ¬ claimed d pos n ∧ key_at d pos n = none

/-- The neighbourhood range invariant: every occupied slot lies within
`HOP_RANGE` of the home bucket of its cached hash. -/
def Range (d : dictionary_t) : Prop :=
  ∀ i, i < d.capacity → (d.elements i).key ≠ none →
    (i + d.capacity - (d.elements i).hashvalue % d.capacity) % d.capacity < HOP_RANGE

/-- The cached hash of every occupied slot is the hash of its key. -/
def HashOK (d : dictionary_t) : Prop :=
  ∀ i k, i < d.capacity → (d.elements i).key = some k →
    (d.elements i).hashvalue = murmur_hash k SEED

/-- Some slot of the table holds the key. -/
def holds (d : dictionary_t) (k : Key) : Prop :=
  ∃ i, i < d.capacity ∧ (d.elements i).key = some k

/-- The triple stored in a slot, if the slot is occupied. -/
def Element.entry (e : Element) : Multiset (Key × Nat × Nat) :=
  match e.key with
  | none => 0
  | some k => {(k, e.value, e.hashvalue)}

/-- The `(key, value, hashvalue)` triples of the occupied slots below `n`. -/
def entries_below (elements : Nat → Element) : Nat → Multiset (Key × Nat × Nat)
  | 0 => 0
  | n + 1 => entries_below elements n + (elements n).entry

/-- The `(key, value, hashvalue)` triples held in the occupied slots. -/
def entries (d : dictionary_t) : Multiset (Key × Nat × Nat) :=
  entries_below d.elements d.capacity

/-- The number of slots below `n` whose key is non-empty. -/
def count_below (elements : Nat → Element) : Nat → Nat
  | 0 => 0
  | n + 1 => count_below elements n + (if (elements n).key = none then 0 else 1)

/-- The number of slots whose key is non-empty. -/
def count_occupied (d : dictionary_t) : Nat := count_below d.elements d.capacity

/-- The relocation block of `displace_keys`: the occupant of slot `idx` is
moved to the free slot `current_free` and two bits of the bitmap word of its
home bucket are updated. -/
def relocate (d : dictionary_t) (current_free idx : Nat) : dictionary_t :=
  let capacity := d.capacity
  let elem := d.elements idx
  let elem_bucket := elem.hashvalue % capacity
  let elements1 := store d.elements current_free elem
  let elements2 := store elements1 idx { elements1 idx with key := none, value := 0 }
  let old_offset := (idx + capacity - elem_bucket) % capacity
  let new_offset := (current_free + capacity - elem_bucket) % capacity
  let bitmap1 := store d.bitmap elem_bucket
    (d.bitmap elem_bucket &&& not32 (u32 (1 <<< old_offset)))
  let bitmap2 := store bitmap1 elem_bucket
    (bitmap1 elem_bucket ||| u32 (1 <<< new_offset))
  { d with elements := elements2, bitmap := bitmap2 }

/-- What a run of `displace_keys` for bucket `pos` keeps of a dictionary. -/
structure Disp (pos : Nat) (d d1 : dictionary_t) : Prop where
  capacity : d1.capacity = d.capacity
  size : d1.size = d.size
  destroy : d1.destroy = d.destroy
  bitmap_lt : (∀ b, d.bitmap b < 2 ^ 32) → ∀ b, d1.bitmap b < 2 ^ 32
  bitmap_pos : d1.bitmap pos = d.bitmap pos
  range : Range d → Range d1
  hashok : HashOK d → HashOK d1
  entries : entries d1 = entries d
  home : ∀ i, i < d.capacity → (d1.elements i).key ≠ none →
    (d1.elements i).hashvalue % d.capacity = pos → d1.elements i = d.elements i

/-- Distance of a slot from a bucket, going forward around the table. -/
def dist (d : dictionary_t) (i pos : Nat) : Nat := (i + d.capacity - pos) % d.capacity

/-- The world after the overwrite branch of `dictionary_put_with_hashvalue`. -/
def overwritten (w : World) (idx value : Nat) : World :=
  let d := w.dic
  let old := (d.elements idx).value
  let w1 := if d.destroy = true ∧ old ≠ 0 then { w with destroyed := old :: w.destroyed } else w
  { w1 with dic :=
    { d with elements := store d.elements idx { d.elements idx with value := value } } }

/-- The table `rehash` starts from once both arrays are allocated. -/
def fresh (d : dictionary_t) : dictionary_t :=
  { d with capacity := u64 (d.capacity * 2), size := 0, elements := fun _ => Element.zero,
           bitmap := fun _ => 0 }

/-- What every call of `dictionary_put_with_hashvalue` that returns `b`
keeps or guarantees. -/
structure Basic (w w1 : World) (b : Bool) : Prop where
  typeok : TypeOK w1.dic
  range : Range w1.dic
  destroy : w1.dic.destroy = w.dic.destroy
  cap : ∃ j, w1.dic.capacity = w.dic.capacity * 2 ^ j
  fail_le : w.failures ≤ w1.failures
  fail_lt : b = false → w.failures < w1.failures

/-- The dictionary after a `dictionary_pop` that found the key in slot
`index`. -/
def popped (d : dictionary_t) (pos index : Nat) : dictionary_t :=
  { d with
    elements := store d.elements index { d.elements index with key := none, value := 0 }
    bitmap := update_bitmap d.bitmap pos ((index + d.capacity - pos) % d.capacity) false
    size := u64 (d.size + 2 ^ 64 - 1) }

/-- The dictionary after a successful `insert_element`. -/
def inserted (d : dictionary_t) (pos hashvalue value : Nat) (key : Key) : dictionary_t :=
  { d with
    bitmap := update_bitmap d.bitmap (hashvalue % d.capacity)
      ((pos + d.capacity - hashvalue % d.capacity) % d.capacity) true
    elements := store d.elements pos ⟨some key, value, hashvalue⟩
    size := u64 (d.size + 1) }

/-- The size field is the number of non-empty slots. -/
def SizeOK (d : dictionary_t) : Prop := d.size = count_occupied d

/-- What a put that returned `true` guarantees: the key is found with the
value put, no key is lost, and the size stays the number of occupied
slots. -/
structure Success (w w1 : World) (key : Key) (value pos1 : Nat) : Prop where
  found : get_keys_matching_index_in_neighborhood w1.dic key pos1 ≠ w1.dic.capacity
  value : (w1.dic.elements (get_keys_matching_index_in_neighborhood w1.dic key pos1)).value
    = value
  keeps : ∀ k, holds w.dic k → holds w1.dic k
  size : SizeOK w.dic → SizeOK w1.dic

/-- The invariant of the tables built by puts alone: besides the typing, the
range invariant and the cached hashes, the bitmap says exactly which slots
hold a key of which home bucket, every slot of a neighbourhood above an
occupant of that bucket is occupied, and no key is held twice. -/
structure Compact (d : dictionary_t) : Prop where
  typeok : TypeOK d
  cap64 : 64 ≤ d.capacity
  range : Range d
  hashok : HashOK d
  bits : ∀ b n, b < d.capacity → n < 32 →
    (claimed d b n ↔
      (key_at d b n ≠ none ∧ (d.elements ((b + n) % d.capacity)).hashvalue % d.capacity = b))
  packed : ∀ i, i < d.capacity → (d.elements i).key ≠ none →
    ∀ m, (i + d.capacity - (d.elements i).hashvalue % d.capacity) % d.capacity < m → m < 32 →
      key_at d ((d.elements i).hashvalue % d.capacity) m ≠ none
  unique : ∀ i j, i < d.capacity → j < d.capacity → (d.elements i).key ≠ none →
    (d.elements i).key = (d.elements j).key → i = j

/-- A call of the public interface that changes the dictionary. -/
inductive Op where
  | put (key : Key) (value : Nat)
  | pop (key : Key)
  | delete (key : Key)

/-- The world after one call; `none` when a put runs out of fuel. -/
def step (fuel : Nat) (w : World) : Op → Option World
  | .put k v => (dictionary_put fuel w k v).map (fun r => r.2)
  | .pop k => some (dictionary_pop w k).2
  | .delete k => some (dictionary_delete w k).2

/-- The world after a sequence of calls. -/
def run (fuel : Nat) : List Op → World → Option World
  | [], w => some w
  | op :: ops, w => (step fuel w op).bind (run fuel ops)

/-- The worlds reachable from `dictionary_create` by calls of
`dictionary_put`, `dictionary_pop` and `dictionary_delete`, the environment
being free to choose the outcome of every allocation. A reachable world with
`failures = 0` is one in whose history no allocation failed. -/
inductive Reachable : World → Prop
  | create (destroy : Bool) (allocs : List Bool) (w : World) :
      dictionary_create destroy allocs = some w → Reachable w
  | put (w : World) (fuel : Nat) (key : Key) (value : Nat) (b : Bool) (w1 : World) :
      Reachable w → dictionary_put fuel w key value = some (b, w1) → Reachable w1
  | pop (w : World) (key : Key) : Reachable w → Reachable (dictionary_pop w key).2
  | delete (w : World) (key : Key) : Reachable w → Reachable (dictionary_delete w key).2
  | oracle (w : World) (allocs : List Bool) : Reachable w → Reachable { w with allocs := allocs }

/-- The world of a run that returned; a world with an empty table stands for
a run that did not. -/
def world_of (o : Option World) : World :=
  match o with
  | some w => w
  | none => ⟨⟨fun _ => Element.zero, 0, 0, false, fun _ => 0⟩, [], 0, []⟩

/-- The world after `ops`, run on a dictionary fresh from
`dictionary_create` with a destructor, no allocation failing. -/
def after (fuel : Nat) (ops : List Op) : Option World :=
  (dictionary_create true []).bind (run fuel ops)

/-- A small reachable world: the key `"a"` was put with value `5`. -/
def demo : World := world_of (after 1 [Op.put [97] 5])

/-! ## Concrete histories

Keys are given by their bytes; the comments give them as text. All of them
were chosen by their `murmur_hash` modulo 1024. -/

/-- Thirty-one keys of home bucket 0 in a table of 1024 slots: `a3`, `qw`,
`a2v`, `a4i`, `bn8`, `b08`, `cj6`, `c42`, `f0e`, `gcg`, `gv9`, `gxc`, `i1t`,
`msj`, `mx5`, `m96`, `npy`, `nq2`, `ovk`, `o4r`, `rb8`, `r6i`, `tiv`, `uo9`,
`v94`, `xk6`, `0nm`, `5bu`, `5cp`, `533`, `6bd`. -/
def keys_bucket0 : List Key :=
  [[97, 51], [113, 119], [97, 50, 118], [97, 52, 105], [98, 110, 56], [98, 48, 56],
   [99, 106, 54], [99, 52, 50], [102, 48, 101], [103, 99, 103], [103, 118, 57],
   [103, 120, 99], [105, 49, 116], [109, 115, 106], [109, 120, 53], [109, 57, 54],
   [110, 112, 121], [110, 113, 50], [111, 118, 107], [111, 52, 114], [114, 98, 56],
   [114, 54, 105], [116, 105, 118], [117, 111, 57], [118, 57, 52], [120, 107, 54],
   [48, 110, 109], [53, 98, 117], [53, 99, 112], [53, 51, 51], [54, 98, 100]]

/-- A history in which a put displaces a key. The keys `y1` and `1n` have
home bucket 1 and go to slots 32 and 31; `y1` is popped; the 31 keys of
`keys_bucket0` fill slots 30 down to 0; the put of `6in` (home bucket 0) then
finds its neighbourhood full and `displace_keys` moves `1n` from slot 31 to
the free slot 32. -/
def scen_displace : List Op :=
  [Op.put [121, 49] 1, Op.put [49, 110] 2, Op.pop [121, 49]]
    ++ keys_bucket0.map (fun k => Op.put k 7) ++ [Op.put [54, 105, 110] 99]

/-- The history `scen_displace` followed by the removal of `xk6` (slot 5) and
a second put of `1n`. -/
def scen_duplicate : List Op :=
  scen_displace ++ [Op.delete [120, 107, 54], Op.put [49, 110] 3]

/-- A history with two displacements after which the key `b2f` (home bucket
40) is held twice, in slot 70 with value 3 and in slot 41 with value 6, both
copies being found through the bitmap word of bucket 40. -/
def scen_two_copies : List Op :=
  [Op.put [109, 118] 1,
    Op.put [97, 105, 119] 2,
    Op.put [98, 50, 102] 3,
    Op.delete [97, 105, 119],
    Op.put [99, 121, 97] 4,
    Op.put [100, 119, 103] 4,
    Op.put [100, 120, 107] 4,
    Op.put [101, 101, 55] 4,
    Op.put [102, 108, 101] 4,
    Op.put [102, 119, 120] 4,
    Op.put [102, 48, 52] 4,
    Op.put [103, 98, 114] 4,
    Op.put [103, 101, 50] 4,
    Op.put [105, 97, 109] 4,
    Op.put [105, 111, 51] 4,
    Op.put [106, 108, 97] 4,
    Op.put [108, 101, 115] 4,
    Op.put [108, 113, 97] 4,
    Op.put [109, 120, 102] 4,
    Op.put [109, 55, 108] 4,
    Op.put [113, 101, 48] 4,
    Op.put [114, 108, 122] 4,
    Op.put [116, 111, 107] 4,
    Op.put [117, 115, 120] 4,
    Op.put [118, 102, 52] 4,
    Op.put [118, 52, 118] 4,
    Op.put [119, 104, 103] 4,
    Op.put [119, 112, 115] 4,
    Op.put [119, 51, 103] 4,
    Op.put [120, 51, 57] 4,
    Op.put [120, 53, 106] 4,
    Op.put [121, 117, 116] 4,
    Op.put [122, 118, 98] 4,
    Op.put [48, 110, 107] 4,
    Op.put [50, 111, 121] 4,
    Op.put [51, 109, 111] 5,
    Op.delete [122, 118, 98],
    Op.put [98, 50, 102] 6,
    Op.delete [50, 111, 121],
    Op.delete [48, 110, 107],
    Op.delete [121, 117, 116],
    Op.put [111, 107] 8,
    Op.put [97, 97, 118] 8,
    Op.put [100, 99, 116] 8,
    Op.put [100, 118, 53] 8,
    Op.put [101, 109, 99] 8,
    Op.put [101, 112, 108] 8,
    Op.put [101, 120, 111] 8,
    Op.put [101, 120, 115] 8,
    Op.put [102, 97, 48] 8,
    Op.put [102, 117, 117] 8,
    Op.put [102, 56, 103] 8,
    Op.put [102, 56, 108] 8,
    Op.put [104, 114, 55] 8,
    Op.put [105, 100, 99] 8,
    Op.put [105, 113, 109] 8,
    Op.put [105, 119, 97] 8,
    Op.put [105, 55, 103] 8,
    Op.put [106, 104, 120] 8,
    Op.put [106, 49, 119] 8,
    Op.put [107, 57, 111] 8,
    Op.put [110, 50, 49] 8,
    Op.put [111, 105, 115] 8,
    Op.put [112, 98, 103] 8,
    Op.put [112, 49, 101] 8,
    Op.put [113, 122, 104] 8,
    Op.put [113, 56, 122] 8,
    Op.put [114, 115, 122] 8,
    Op.put [115, 99, 102] 8,
    Op.put [115, 121, 103] 8,
    Op.put [115, 121, 109] 8,
    Op.put [117, 98, 112] 8,
    Op.put [118, 122, 98] 9]

/-- Thirty-two puts of keys of home bucket 0, which fill its neighbourhood. -/
def scen_fill : List Op :=
  (keys_bucket0 ++ [[54, 105, 110]]).map (fun k => Op.put k 7)

/-- The world after `ops`, run on a dictionary fresh from
`dictionary_create` with a destructor, the allocations having the outcomes
`allocs`. -/
def after_allocs (allocs : List Bool) (fuel : Nat) (ops : List Op) : Option World :=
  (dictionary_create true allocs).bind (run fuel ops)

/-- The distinct keys `k` for which `dictionary_contains` returns `true`
(such a key is held by some slot). -/
def contained_keys (d : dictionary_t) : List Key :=
  (((List.range d.capacity).filterMap (fun i => (d.elements i).key)).dedup).filter
    (fun k => dictionary_contains d k)

/-- What a put into a compact table guarantees: the table stays compact,
and a put of a key that no slot holds, if it returns `true`, adds exactly
its triple to the stored triples. -/
def CompactPut (w w1 : World) (key : Key) (value h : Nat) (b : Bool) : Prop :=
  Compact w1.dic ∧
    (b = true → ¬ holds w.dic key → entries w1.dic = entries w.dic + {(key, value, h)})

/-- The worlds met in a history of `dictionary_put` calls on a dictionary
from `dictionary_create`: the worlds between the calls and, inside a call
that grows the table, the empty table that `rehash` allocates (`grow`) and
the worlds between its reinsertions, each of which is a put of a stored key
with its cached hash. The environment chooses the outcome of every
allocation. -/
inductive PutReachable : World → Prop
  | create (destroy : Bool) (allocs : List Bool) (w : World) :
      dictionary_create destroy allocs = some w → PutReachable w
  | put (w : World) (fuel : Nat) (key : Key) (value : Nat) (b : Bool) (w1 : World) :
      PutReachable w → dictionary_put fuel w key value = some (b, w1) → PutReachable w1
  | grow (w w2 : World) : PutReachable w →
      u64 (w.dic.capacity * 2) * sizeof_Element < 2 ^ 64 → w2.dic = fresh w.dic →
      PutReachable w2
  | oracle (w : World) (allocs : List Bool) :
      PutReachable w → PutReachable { w with allocs := allocs }

/-- The puts of the pairs of a list, in order; `none` when one of them runs
out of fuel or returns `false`. -/
def put_all (fuel : Nat) : List (Key × Nat) → World → Option World
  | [], w => some w
  | kv :: kvs, w =>
    match dictionary_put fuel w kv.1 kv.2 with
    | some (true, w1) => put_all fuel kvs w1
    | _ => none

/-- Thirty-three pairs whose keys have home bucket 0 in the table of 1024
slots, so that the last put grows the table. -/
def pairs_grow : List (Key × Nat) :=
  (keys_bucket0 ++ [[54, 105, 110], [54, 112, 109]]).map (fun k => (k, k.headD 0))

/-- Thirty-two keys of eight characters whose `murmur_hash` with seed 42 is
1816094488, as is that of `hopscotc`. -/
def keys_collide : List Key :=
  [[97, 97, 113, 121, 108, 104, 109, 108], [97, 99, 107, 100, 106, 50, 57, 50],
   [97, 99, 114, 115, 115, 57, 98, 56], [97, 101, 57, 100, 97, 98, 50, 112],
   [97, 102, 48, 116, 99, 56, 102, 49], [97, 103, 119, 111, 50, 52, 57, 111],
   [97, 108, 114, 105, 102, 111, 102, 52], [97, 109, 99, 119, 111, 99, 119, 107],
   [97, 111, 99, 56, 106, 55, 110, 103], [97, 111, 53, 111, 100, 117, 121, 113],
   [97, 115, 121, 118, 115, 103, 120, 54], [97, 116, 97, 111, 50, 48, 104, 56],
   [97, 117, 50, 111, 49, 112, 103, 106], [97, 122, 97, 110, 112, 118, 49, 56],
   [97, 122, 52, 51, 110, 109, 115, 98], [97, 48, 57, 112, 55, 101, 111, 48],
   [97, 53, 97, 106, 110, 101, 109, 108], [97, 57, 107, 106, 105, 48, 117, 106],
   [98, 98, 109, 51, 113, 49, 121, 106], [98, 100, 53, 104, 108, 120, 122, 116],
   [98, 101, 98, 48, 102, 55, 103, 53], [98, 102, 107, 103, 118, 109, 118, 52],
   [98, 103, 107, 49, 99, 111, 109, 54], [98, 104, 51, 48, 113, 104, 52, 57],
   [98, 105, 116, 118, 122, 105, 111, 56], [98, 109, 52, 109, 106, 108, 107, 56],
   [98, 109, 57, 117, 48, 116, 97, 122], [98, 115, 107, 48, 109, 111, 99, 102],
   [98, 117, 53, 55, 110, 52, 108, 118], [98, 118, 110, 57, 118, 102, 102, 100],
   [98, 122, 102, 106, 114, 100, 110, 101], [98, 51, 48, 101, 112, 116, 97, 111]]

/-- The world after the 32 keys of `keys_collide` were put with value 7 into
a dictionary fresh from `dictionary_create`, no allocation failing. -/
def crowded : World := world_of (after 1 (keys_collide.map (fun k => Op.put k 7)))

/-- The first 34 calls of `scen_displace`: the neighbourhood of bucket 0 is
full, slot 31 holds `1n` (home bucket 1) and slot 32 is free. -/
def scen_before_displace : List Op :=
  [Op.put [121, 49] 1, Op.put [49, 110] 2, Op.pop [121, 49]]
    ++ keys_bucket0.map (fun k => Op.put k 7)

/-- The world after `scen_before_displace`, on which `displace_keys` for
bucket 0 relocates a key. -/
def before_displace : World := world_of (after 1 scen_before_displace)

theorem testBit_BIT_RANGE (i : Nat) : BIT_RANGE.testBit i = decide (i < 32) := by
  have h : BIT_RANGE = 2 ^ 32 - 1 := by decide
  rw [h, Nat.testBit_two_pow_sub_one]

theorem testBit_not32 (x i : Nat) : (not32 x).testBit i = (x.testBit i ^^ decide (i < 32)) := by
  unfold not32
  rw [Nat.testBit_xor, testBit_BIT_RANGE]

theorem not32_lt (x : Nat) (hx : x < 2 ^ 32) : not32 x < 2 ^ 32 := by
  apply Nat.lt_pow_two_of_testBit
  intro i hi
  rw [testBit_not32, Nat.testBit_lt_two_pow (Nat.lt_of_lt_of_le hx (Nat.pow_le_pow_right (by decide) hi))]
  simp
  omega

theorem lt_of_testBit {x i n : Nat} (hx : x < 2 ^ n) (h : x.testBit i = true) : i < n := by
  by_contra hc
  have : x.testBit i = false :=
    Nat.testBit_lt_two_pow (Nat.lt_of_lt_of_le hx (Nat.pow_le_pow_right (by decide) (by omega)))
  simp [this] at h

/-- The remainder modulo `2 ^ (t + 1)` of a number whose lowest set bit is `t`. -/
theorem mod_of_lowest (x t : Nat) (ht : x.testBit t = true)
    (hlow : ∀ i, i < t → x.testBit i = false) : x % 2 ^ (t + 1) = 2 ^ t := by
  apply Nat.eq_of_testBit_eq
  intro i
  rw [Nat.testBit_mod_two_pow, Nat.testBit_two_pow]
  rcases Nat.lt_trichotomy i t with h | h | h
  · simp [hlow i h]; omega
  · subst h; simp [ht]
  · have h1 : ¬ i < t + 1 := by omega
    have h2 : ¬ t = i := by omega
    simp [h1, h2]

theorem testBit_pred (x t : Nat) (ht : x.testBit t = true)
    (hlow : ∀ i, i < t → x.testBit i = false) (i : Nat) :
    (x - 1).testBit i = if i < t then true else if i = t then false else x.testBit i := by
  have hmod := mod_of_lowest x t ht hlow
  have hx : x = 2 ^ (t + 1) * (x / 2 ^ (t + 1)) + 2 ^ t := by
    have := Nat.div_add_mod x (2 ^ (t + 1))
    omega
  have hpos : 0 < 2 ^ t := Nat.two_pow_pos t
  have hlt : 2 ^ t < 2 ^ (t + 1) := Nat.pow_lt_pow_right (by decide) (by omega)
  have hx1 : x - 1 = 2 ^ (t + 1) * (x / 2 ^ (t + 1)) + (2 ^ t - 1) := by omega
  have e1 := Nat.testBit_mul_pow_two_add (x / 2 ^ (t + 1)) (show 2 ^ t - 1 < 2 ^ (t + 1) by omega) i
  have e2 := Nat.testBit_mul_pow_two_add (x / 2 ^ (t + 1)) hlt i
  rw [← hx1] at e1
  rw [← hx] at e2
  rw [e1]
  by_cases h1 : i < t
  · have : i < t + 1 := by omega
    simp [h1, this, Nat.testBit_two_pow_sub_one]
  · by_cases h2 : i = t
    · subst h2
      simp [Nat.testBit_two_pow_sub_one]
    · have : ¬ i < t + 1 := by omega
      rw [e2]
      simp [h1, h2, this]

/-- The expression `x & -x` isolates the lowest set bit. -/
theorem and_neg32 (x t : Nat) (hx : x < 2 ^ 32) (ht : x.testBit t = true)
    (hlow : ∀ i, i < t → x.testBit i = false) : x &&& neg32 x = 2 ^ t := by
  have ht32 : t < 32 := lt_of_testBit hx ht
  have hge := Nat.testBit_implies_ge ht
  have hpos : 0 < 2 ^ t := Nat.two_pow_pos t
  have hneg : neg32 x = 2 ^ 32 - (x - 1 + 1) := by
    unfold neg32
    rw [Nat.mod_eq_of_lt (by omega)]
    omega
  apply Nat.eq_of_testBit_eq
  intro i
  rw [Nat.testBit_and, hneg, Nat.testBit_two_pow_sub_succ (by omega), testBit_pred x t ht hlow,
    Nat.testBit_two_pow]
  rcases Nat.lt_trichotomy i t with h | h | h
  · have : ¬ t = i := by omega
    simp [hlow i h, this]
  · subst h; simp [ht, ht32]
  · have h1 : ¬ i < t := by omega
    have h2 : ¬ i = t := by omega
    have h3 : ¬ t = i := by omega
    cases hb : x.testBit i <;> simp [h1, h2, h3]

theorem clz32_two_pow (t : Nat) (ht : t < 32) : clz32 (2 ^ t) = 31 - t := by
  interval_cases t <;> decide

/-- Clearing the isolated bit `2 ^ t`. -/
theorem testBit_and_not32_two_pow (x t i : Nat) (hx : x < 2 ^ 32) :
    (x &&& not32 (2 ^ t)).testBit i = (x.testBit i && decide (i ≠ t)) := by
  rw [Nat.testBit_and, testBit_not32, Nat.testBit_two_pow]
  by_cases h : x.testBit i = true
  · have := lt_of_testBit hx h
    by_cases h2 : t = i
    · subst h2; simp [this]
    · have h3 : ¬ i = t := fun h => h2 h.symm
      simp [h, this, h2, h3]
  · simp at h; simp [h]

theorem and_not32_lt (x y : Nat) (hx : x < 2 ^ 32) : x &&& not32 y < 2 ^ 32 :=
  Nat.lt_of_le_of_lt Nat.and_le_left hx

/-- Every non-zero number has a lowest set bit. -/
theorem exists_lowest (x : Nat) (hx : x ≠ 0) :
    ∃ t, x.testBit t = true ∧ ∀ i, i < t → x.testBit i = false := by
  classical
  have hex := Nat.ne_zero_implies_bit_true hx
  refine ⟨Nat.find hex, Nat.find_spec hex, ?_⟩
  intro i hi
  have := Nat.find_min hex hi
  simpa using this

/-! ## The bitmap scans -/

theorem get_keys_loop_eq (d : dictionary_t) (key : Key) (pos : Nat) :
    ∀ fuel x, get_keys_loop d key pos fuel x =
      match scan_loop (fun n => decide (key_at d pos n = some key)) fuel x with
      | some n => (pos + n) % d.capacity
      | none => d.capacity := by
  intro fuel
  induction fuel with
  | zero => intro x; rfl
  | succ fuel ih =>
    intro x
    unfold get_keys_loop scan_loop
    by_cases h0 : x = 0
    · simp [h0]
    · by_cases h1 : x &&& neg32 x = 0
      · simp [h0, h1]
      · by_cases h2 : key_at d pos (clz32 (x &&& neg32 x)) = some key
        · have h2' := h2
          unfold key_at at h2'
          simp [h0, h1, h2, h2']
        · have h2' := h2
          unfold key_at at h2'
          simp [h0, h1, h2, h2', ih]

theorem return_free_loop_eq (d : dictionary_t) (pos : Nat) :
    ∀ fuel x, return_free_loop d pos fuel x =
      match scan_loop (fun n => decide (key_at d pos n = none)) fuel x with
      | some n => n
      | none => d.capacity := by
  intro fuel
  induction fuel with
  | zero => intro x; rfl
  | succ fuel ih =>
    intro x
    unfold return_free_loop scan_loop
    by_cases h0 : x = 0
    · simp [h0]
    · by_cases h1 : x &&& neg32 x = 0
      · simp [h0, h1]
      · by_cases h2 : key_at d pos (clz32 (x &&& neg32 x)) = none
        · have h2' := h2
          unfold key_at at h2'
          simp [h0, h1, h2, h2']
        · have h2' := h2
          unfold key_at at h2'
          simp [h0, h1, h2, h2', ih]

/-- One round of the scan on a non-zero word whose lowest set bit is `t`. -/
theorem scan_loop_step (Q : Nat → Bool) (fuel x t : Nat) (hx : x < 2 ^ 32)
    (ht : x.testBit t = true) (hlow : ∀ i, i < t → x.testBit i = false) :
    scan_loop Q (fuel + 1) x =
      if Q (31 - t) then some (31 - t) else scan_loop Q fuel (x &&& not32 (2 ^ t)) := by
  have ht32 : t < 32 := lt_of_testBit hx ht
  have hne : x ≠ 0 := by
    intro h; subst h; simp at ht
  have hfirst := and_neg32 x t hx ht hlow
  have hpos : (2 : Nat) ^ t ≠ 0 := Nat.pos_iff_ne_zero.mp (Nat.two_pow_pos t)
  conv => lhs; unfold scan_loop
  simp only [hne, hfirst, hpos, if_false, clz32_two_pow t ht32]

/-- The scan, started with enough rounds for the set bits of `x`, returns
the largest claimed offset that `Q` accepts. -/
theorem scan_loop_spec (Q : Nat → Bool) :
    ∀ fuel x, x < 2 ^ 32 → (∀ i, x.testBit i = true → 32 ≤ fuel + i) →
      match scan_loop Q fuel x with
      | none => ∀ n, n < 32 → x.testBit (31 - n) = true → Q n = false
      | some n => n < 32 ∧ x.testBit (31 - n) = true ∧ Q n = true ∧
          ∀ m, n < m → m < 32 → x.testBit (31 - m) = true → Q m = false := by
  intro fuel
  induction fuel with
  | zero =>
    intro x hx hb
    simp only [scan_loop]
    intro n _ hn
    have h1 := hb _ hn
    have h2 := lt_of_testBit hx hn
    omega
  | succ fuel ih =>
    intro x hx hb
    by_cases h0 : x = 0
    · subst h0
      simp [scan_loop]
    · obtain ⟨t, ht, hlow⟩ := exists_lowest x h0
      have ht32 : t < 32 := lt_of_testBit hx ht
      rw [scan_loop_step Q fuel x t hx ht hlow]
      by_cases hq : Q (31 - t) = true
      · rw [if_pos hq]
        refine ⟨by omega, ?_, hq, ?_⟩
        · have : 31 - (31 - t) = t := by omega
          rw [this]; exact ht
        · intro m hm hm32 hbit
          have : 31 - m < t := by omega
          rw [hlow _ this] at hbit
          simp at hbit
      · rw [if_neg hq]
        have hbits : ∀ i, (x &&& not32 (2 ^ t)).testBit i = (x.testBit i && decide (i ≠ t)) :=
          fun i => testBit_and_not32_two_pow x t i hx
        have hx' : x &&& not32 (2 ^ t) < 2 ^ 32 := and_not32_lt x _ hx
        have hb' : ∀ i, (x &&& not32 (2 ^ t)).testBit i = true → 32 ≤ fuel + i := by
          intro i hi
          rw [hbits] at hi
          simp at hi
          have h1 := hb t ht
          have h2 : t ≤ i := by
            by_contra hc
            have := hlow i (by omega)
            rw [this] at hi
            simp at hi
          omega
        have := ih (x &&& not32 (2 ^ t)) hx' hb'
        have hqf : Q (31 - t) = false := by simpa using hq
        cases hres : scan_loop Q fuel (x &&& not32 (2 ^ t)) with
        | none =>
          rw [hres] at this
          simp only at this ⊢
          intro n hn hbit
          by_cases hnt : 31 - n = t
          · have : n = 31 - t := by omega
            rw [this]; exact hqf
          · apply this n hn
            rw [hbits]; simp [hbit, hnt]
        | some r =>
          rw [hres] at this
          simp only at this ⊢
          obtain ⟨h1, h2, h3, h4⟩ := this
          rw [hbits] at h2
          simp at h2
          refine ⟨h1, h2.1, h3, ?_⟩
          intro m hm hm32 hbit
          by_cases hmt : 31 - m = t
          · have : m = 31 - t := by omega
            rw [this]; exact hqf
          · apply h4 m hm hm32
            rw [hbits]; simp [hbit, hmt]

theorem scan_loop_32 (Q : Nat → Bool) (x : Nat) (hx : x < 2 ^ 32) :
    match scan_loop Q 32 x with
    | none => ∀ n, n < 32 → x.testBit (31 - n) = true → Q n = false
    | some n => n < 32 ∧ x.testBit (31 - n) = true ∧ Q n = true ∧
        ∀ m, n < m → m < 32 → x.testBit (31 - m) = true → Q m = false :=
  scan_loop_spec Q 32 x hx (fun i _ => by omega)

/-! ## Specification of the two neighbourhood queries -/

theorem lookup_spec (d : dictionary_t) (key : Key) (pos : Nat) (hb : d.bitmap pos < 2 ^ 32) :
    (get_keys_matching_index_in_neighborhood d key pos = d.capacity ∧
      ∀ n, n < 32 → claimed d pos n → key_at d pos n ≠ some key) ∨
    (∃ n, n < 32 ∧ get_keys_matching_index_in_neighborhood d key pos = (pos + n) % d.capacity ∧
      claimed d pos n ∧ key_at d pos n = some key ∧
      ∀ m, n < m → m < 32 → claimed d pos m → key_at d pos m ≠ some key) := by
  unfold get_keys_matching_index_in_neighborhood
  rw [get_keys_loop_eq]
  have h := scan_loop_32 (fun n => decide (key_at d pos n = some key)) (d.bitmap pos) hb
  cases hres : scan_loop (fun n => decide (key_at d pos n = some key)) 32 (d.bitmap pos) with
  | none =>
    rw [hres] at h
    left
    refine ⟨rfl, ?_⟩
    intro n hn hc
    have := h n hn hc
    simpa using this
  | some n =>
    rw [hres] at h
    right
    obtain ⟨h1, h2, h3, h4⟩ := h
    refine ⟨n, h1, rfl, h2, by simpa using h3, ?_⟩
    intro m hm hm32 hc
    have := h4 m hm hm32 hc
    simpa using this

theorem lookup_lt (d : dictionary_t) (key : Key) (pos : Nat) (hb : d.bitmap pos < 2 ^ 32)
    (hcap : 0 < d.capacity)
    (h : get_keys_matching_index_in_neighborhood d key pos ≠ d.capacity) :
    get_keys_matching_index_in_neighborhood d key pos < d.capacity := by
  rcases lookup_spec d key pos hb with ⟨h1, _⟩ | ⟨n, _, h2, _⟩
  · exact absurd h1 h
  · rw [h2]; exact Nat.mod_lt _ hcap

/-- A successful lookup returns a slot that holds the key. -/
theorem lookup_key (d : dictionary_t) (key : Key) (pos : Nat) :
    get_keys_matching_index_in_neighborhood d key pos ≠ d.capacity →
    (d.elements (get_keys_matching_index_in_neighborhood d key pos)).key = some key := by
  unfold get_keys_matching_index_in_neighborhood
  generalize d.bitmap pos = x
  generalize (32 : Nat) = fuel
  induction fuel generalizing x with
  | zero => intro h; exact absurd rfl h
  | succ fuel ih =>
    unfold get_keys_loop
    by_cases h0 : x = 0
    · simp [h0]
    · by_cases h1 : x &&& neg32 x = 0
      · simp [h0, h1]
      · by_cases h2 : (d.elements ((pos + clz32 (x &&& neg32 x)) % d.capacity)).key = some key
        · simp [h0, h1, h2]
        · simp only [h0, h1, h2, if_false]
          exact ih _

theorem lookup_none (d : dictionary_t) (key : Key) (pos : Nat) (hb : d.bitmap pos < 2 ^ 32)
    (hcap : 0 < d.capacity)
    (h : get_keys_matching_index_in_neighborhood d key pos = d.capacity) :
    ∀ n, n < 32 → claimed d pos n → key_at d pos n ≠ some key := by
  rcases lookup_spec d key pos hb with ⟨_, h2⟩ | ⟨n, _, h2, _⟩
  · exact h2
  · rw [h2] at h
    have := Nat.mod_lt (pos + n) hcap
    omega

theorem lookup_some (d : dictionary_t) (key : Key) (pos : Nat) (hb : d.bitmap pos < 2 ^ 32)
    (h : get_keys_matching_index_in_neighborhood d key pos ≠ d.capacity) :
    ∃ n, n < 32 ∧ get_keys_matching_index_in_neighborhood d key pos = (pos + n) % d.capacity ∧
      claimed d pos n ∧ key_at d pos n = some key ∧
      ∀ m, n < m → m < 32 → claimed d pos m → key_at d pos m ≠ some key := by
  rcases lookup_spec d key pos hb with ⟨h1, _⟩ | h2
  · exact absurd h1 h
  · exact h2

theorem lookup_found (d : dictionary_t) (key : Key) (pos : Nat) (hb : d.bitmap pos < 2 ^ 32)
    (hcap : 0 < d.capacity) (n : Nat) (hn : n < 32) (hc : claimed d pos n)
    (hk : key_at d pos n = some key) :
    get_keys_matching_index_in_neighborhood d key pos ≠ d.capacity := by
  intro h
  exact lookup_none d key pos hb hcap h n hn hc hk

/-- The lookup depends only on the claimed offsets that hold the key. -/
theorem lookup_congr (d d1 : dictionary_t) (key : Key) (pos : Nat)
    (hb : d.bitmap pos < 2 ^ 32) (hb1 : d1.bitmap pos < 2 ^ 32)
    (hcap : d1.capacity = d.capacity) (hpos : 0 < d.capacity)
    (h : ∀ n, n < 32 → ((claimed d pos n ∧ key_at d pos n = some key) ↔
      (claimed d1 pos n ∧ key_at d1 pos n = some key))) :
    get_keys_matching_index_in_neighborhood d1 key pos =
      get_keys_matching_index_in_neighborhood d key pos := by
  rcases lookup_spec d key pos hb with ⟨h1, h2⟩ | ⟨n, hn, h1, h2, h3, h4⟩
  · rcases lookup_spec d1 key pos hb1 with ⟨g1, _⟩ | ⟨m, hm, _, g2, g3, _⟩
    · rw [h1, g1, hcap]
    · exact absurd ((h m hm).mpr ⟨g2, g3⟩).2 (h2 m hm ((h m hm).mpr ⟨g2, g3⟩).1)
  · rcases lookup_spec d1 key pos hb1 with ⟨_, g2⟩ | ⟨m, hm, g1, g2, g3, g4⟩
    · exact absurd ((h n hn).mp ⟨h2, h3⟩).2 (g2 n hn ((h n hn).mp ⟨h2, h3⟩).1)
    · have hnm : n = m := by
        rcases Nat.lt_trichotomy n m with hlt | heq | hgt
        · exact absurd ((h m hm).mpr ⟨g2, g3⟩).2 (h4 m hlt hm ((h m hm).mpr ⟨g2, g3⟩).1)
        · exact heq
        · exact absurd ((h n hn).mp ⟨h2, h3⟩).2 (g4 n hgt hn ((h n hn).mp ⟨h2, h3⟩).1)
      rw [h1, g1, hnm, hcap]

theorem testBit_not32_low (b t : Nat) (ht : t < 32) :
    (not32 b).testBit t = !b.testBit t := by
  rw [testBit_not32]; simp [ht]

theorem not32_eq_zero (b : Nat) (h : not32 b = 0) (t : Nat) (ht : t < 32) :
    b.testBit t = true := by
  have := testBit_not32_low b t ht
  rw [h] at this
  simpa using this.symm

theorem free_spec (d : dictionary_t) (pos : Nat) (hb : d.bitmap pos < 2 ^ 32) :
    (return_free_index_in_neighborhood d pos = d.capacity ∧
      ∀ n, n < 32 → ¬ free_at d pos n) ∨
    (return_free_index_in_neighborhood d pos < 32 ∧
      free_at d pos (return_free_index_in_neighborhood d pos) ∧
      ∀ m, return_free_index_in_neighborhood d pos < m → m < 32 → ¬ free_at d pos m) := by
  unfold return_free_index_in_neighborhood
  simp only
  by_cases h0 : not32 (d.bitmap pos) = 0
  · left
    simp only [h0, if_true, true_and]
    intro n hn hf
    apply hf.1
    unfold claimed
    exact not32_eq_zero _ h0 _ (by omega)
  · simp only [h0, if_false]
    rw [return_free_loop_eq]
    have h := scan_loop_32 (fun n => decide (key_at d pos n = none)) (not32 (d.bitmap pos))
      (not32_lt _ hb)
    cases hres : scan_loop (fun n => decide (key_at d pos n = none)) 32 (not32 (d.bitmap pos)) with
    | none =>
      rw [hres] at h
      left
      refine ⟨rfl, ?_⟩
      intro n hn hf
      have h1 : (not32 (d.bitmap pos)).testBit (31 - n) = true := by
        rw [testBit_not32_low _ _ (by omega)]
        have := hf.1
        unfold claimed at this
        simpa using this
      have := h n hn h1
      simp [hf.2] at this
    | some r =>
      rw [hres] at h
      right
      obtain ⟨h1, h2, h3, h4⟩ := h
      rw [testBit_not32_low _ _ (by omega)] at h2
      refine ⟨h1, ⟨?_, by simpa using h3⟩, ?_⟩
      · unfold claimed; simpa using h2
      · intro m hm hm32 hf
        have h5 : (not32 (d.bitmap pos)).testBit (31 - m) = true := by
          rw [testBit_not32_low _ _ (by omega)]
          have := hf.1
          unfold claimed at this
          simpa using this
        have := h4 m hm hm32 h5
        simp [hf.2] at this

/-! ## Arrays, index arithmetic and slot counting -/

@[simp] theorem store_same {α : Type} (a : Nat → α) (i : Nat) (v : α) : store a i v i = v := by
  simp [store]

theorem store_other {α : Type} (a : Nat → α) (i j : Nat) (v : α) (h : j ≠ i) :
    store a i v j = a j := by
  simp [store, h]

theorem mod_lt2 (x c : Nat) (h : x < 2 * c) : x % c = if x < c then x else x - c := by
  by_cases hx : x < c
  · simp [hx, Nat.mod_eq_of_lt hx]
  · simp only [hx, if_false]
    rw [Nat.mod_eq_sub_mod (by omega), Nat.mod_eq_of_lt (by omega)]

/-- The offset of slot `(pos + n) % capacity` from bucket `pos`. -/
theorem offset_of_slot (pos n c : Nat) (hp : pos < c) (hn : n < c) :
    ((pos + n) % c + c - pos) % c = n := by
  rw [mod_lt2 (pos + n) c (by omega)]
  by_cases h : pos + n < c
  · simp only [h, if_true]
    rw [mod_lt2 _ c (by omega)]
    have : ¬ pos + n + c - pos < c := by omega
    simp only [this, if_false]; omega
  · simp only [h, if_false]
    rw [mod_lt2 _ c (by omega)]
    have : pos + n - c + c - pos < c := by omega
    simp only [this, if_true]; omega

/-- A slot is the one at its offset from a bucket. -/
theorem slot_of_offset (i b c : Nat) (hi : i < c) (hb : b < c) :
    (b + (i + c - b) % c) % c = i := by
  rw [mod_lt2 (i + c - b) c (by omega)]
  by_cases h : i + c - b < c
  · simp only [h, if_true]
    rw [mod_lt2 _ c (by omega)]
    have : ¬ b + (i + c - b) < c := by omega
    simp only [this, if_false]; omega
  · simp only [h, if_false]
    rw [mod_lt2 _ c (by omega)]
    have : b + (i + c - b - c) < c := by omega
    simp only [this, if_true]; omega

/-- Distinct offsets of a bucket are distinct slots. -/
theorem slot_inj (pos n m c : Nat) (hp : pos < c) (hn : n < c) (hm : m < c)
    (h : (pos + n) % c = (pos + m) % c) : n = m := by
  have h1 := offset_of_slot pos n c hp hn
  have h2 := offset_of_slot pos m c hp hm
  rw [h] at h1
  omega

theorem Element.entry_none (e : Element) (h : e.key = none) : e.entry = 0 := by
  unfold Element.entry; rw [h]

theorem Element.entry_some (e : Element) (k : Key) (h : e.key = some k) :
    e.entry = {(k, e.value, e.hashvalue)} := by
  unfold Element.entry; rw [h]

theorem Element.card_entry (e : Element) :
    Multiset.card e.entry = if e.key = none then 0 else 1 := by
  unfold Element.entry
  cases h : e.key <;> simp

theorem count_below_eq_card (f : Nat → Element) (n : Nat) :
    count_below f n = Multiset.card (entries_below f n) := by
  induction n with
  | zero => simp [count_below, entries_below]
  | succ n ih =>
    simp only [count_below, entries_below, Multiset.card_add, ih, Element.card_entry]

theorem count_occupied_eq_card (d : dictionary_t) :
    count_occupied d = Multiset.card (entries d) :=
  count_below_eq_card _ _

theorem count_below_le (f : Nat → Element) (n : Nat) : count_below f n ≤ n := by
  induction n with
  | zero => simp [count_below]
  | succ n ih =>
    simp only [count_below]
    split <;> omega

theorem entries_below_store_ge (f : Nat → Element) (i : Nat) (v : Element) (n : Nat)
    (h : n ≤ i) : entries_below (store f i v) n = entries_below f n := by
  induction n with
  | zero => rfl
  | succ n ih =>
    simp only [entries_below]
    rw [ih (by omega), store_other _ _ _ _ (by omega)]

/-- Writing slot `i` exchanges its old triple for the new one. -/
theorem entries_below_store (f : Nat → Element) (i : Nat) (v : Element) (n : Nat)
    (h : i < n) :
    entries_below (store f i v) n + (f i).entry = entries_below f n + v.entry := by
  induction n with
  | zero => omega
  | succ n ih =>
    simp only [entries_below]
    by_cases hi : i = n
    · subst hi
      rw [entries_below_store_ge _ _ _ _ (Nat.le_refl _), store_same]
      abel
    · rw [store_other _ _ _ _ (fun h => hi h.symm)]
      have := ih (by omega)
      calc entries_below (store f i v) n + (f n).entry + (f i).entry
          = (entries_below (store f i v) n + (f i).entry) + (f n).entry := by abel
        _ = (entries_below f n + v.entry) + (f n).entry := by rw [this]
        _ = entries_below f n + (f n).entry + v.entry := by abel

theorem mem_entries_below (f : Nat → Element) (n : Nat) (t : Key × Nat × Nat) :
    t ∈ entries_below f n ↔
      ∃ i, i < n ∧ (f i).key = some t.1 ∧ (f i).value = t.2.1 ∧ (f i).hashvalue = t.2.2 := by
  induction n with
  | zero => simp [entries_below]
  | succ n ih =>
    simp only [entries_below, Multiset.mem_add, ih]
    constructor
    · rintro (⟨i, hi, h⟩ | h)
      · exact ⟨i, by omega, h⟩
      · cases hk : (f n).key with
        | none => rw [Element.entry_none _ hk] at h; simp at h
        | some k =>
          rw [Element.entry_some _ k hk] at h
          simp at h
          subst h
          exact ⟨n, by omega, by simpa using hk, rfl, rfl⟩
    · rintro ⟨i, hi, h1, h2, h3⟩
      by_cases hin : i = n
      · subst hin
        right
        rw [Element.entry_some _ _ h1, h2, h3]
        simp
      · left; exact ⟨i, by omega, h1, h2, h3⟩

/-! ## Bitmap words -/

theorem u32_one_shiftLeft (t : Nat) (ht : t < 32) : u32 (1 <<< t) = 2 ^ t := by
  unfold u32
  rw [Nat.one_shiftLeft]
  exact Nat.mod_eq_of_lt (Nat.pow_lt_pow_right (by decide) ht)

theorem u32_lt (x : Nat) : u32 x < 2 ^ 32 := Nat.mod_lt _ (by decide)

theorem or_u32_lt (x y : Nat) (hx : x < 2 ^ 32) : x ||| u32 y < 2 ^ 32 :=
  Nat.or_lt_two_pow hx (u32_lt y)

theorem update_bitmap_lt (bitmap : Nat → Nat) (position neighbor : Nat) (update : Bool)
    (h : ∀ b, bitmap b < 2 ^ 32) : ∀ b, update_bitmap bitmap position neighbor update b < 2 ^ 32 := by
  intro b
  unfold update_bitmap
  cases update
  · simp only [Bool.false_eq_true, if_false]
    by_cases hb : b = position
    · subst hb; rw [store_same]; exact and_not32_lt _ _ (h _)
    · rw [store_other _ _ _ _ hb]; exact h b
  · simp only [if_true]
    by_cases hb : b = position
    · subst hb; rw [store_same]; exact or_u32_lt _ _ (h _)
    · rw [store_other _ _ _ _ hb]; exact h b

/-- Bits of a word of the bitmap after `update_bitmap` set the bit of
offset `neighbor`. -/
theorem update_bitmap_set_testBit (bitmap : Nat → Nat) (position neighbor t : Nat) :
    (update_bitmap bitmap position neighbor true position).testBit t =
      ((bitmap position).testBit t || decide (t = 31 - neighbor)) := by
  unfold update_bitmap
  simp only [if_true, store_same]
  rw [Nat.testBit_or, u32_one_shiftLeft _ (by omega), Nat.testBit_two_pow]
  by_cases h : 31 - neighbor = t
  · simp [h]
  · have : ¬ t = 31 - neighbor := fun h1 => h h1.symm
    simp [h, this]

theorem update_bitmap_clear_testBit (bitmap : Nat → Nat) (position neighbor t : Nat)
    (h : bitmap position < 2 ^ 32) :
    (update_bitmap bitmap position neighbor false position).testBit t =
      ((bitmap position).testBit t && decide (t ≠ 31 - neighbor)) := by
  unfold update_bitmap
  simp only [Bool.false_eq_true, if_false, store_same]
  rw [u32_one_shiftLeft _ (by omega), testBit_and_not32_two_pow _ _ _ h]

theorem update_bitmap_other (bitmap : Nat → Nat) (position neighbor : Nat) (update : Bool)
    (b : Nat) (h : b ≠ position) : update_bitmap bitmap position neighbor update b = bitmap b := by
  unfold update_bitmap
  cases update <;> simp [store_other _ _ _ _ h]

/-! ## The displacement engine -/

theorem displace_scan_some (d : dictionary_t) (cf : Nat) :
    ∀ n idx d1, displace_scan d cf n = some (idx, d1) →
      ∃ i, i < n ∧ idx = (cf + d.capacity - i) % d.capacity ∧
        (d.elements idx).key ≠ none ∧
        (cf + d.capacity - (d.elements idx).hashvalue % d.capacity) % d.capacity < HOP_RANGE ∧
        d1 = relocate d cf idx := by
  intro n
  induction n with
  | zero => intro idx d1 h; simp [displace_scan] at h
  | succ n ih =>
    intro idx d1 h
    unfold displace_scan at h
    simp only at h
    by_cases hk : (d.elements ((cf + d.capacity - n) % d.capacity)).key = none
    · rw [if_pos hk] at h
      obtain ⟨i, hi, rest⟩ := ih idx d1 h
      exact ⟨i, by omega, rest⟩
    · rw [if_neg hk] at h
      by_cases he : (cf + d.capacity -
          (d.elements ((cf + d.capacity - n) % d.capacity)).hashvalue % d.capacity) % d.capacity
            < HOP_RANGE
      · rw [if_pos he] at h
        simp only [Option.some.injEq, Prod.mk.injEq] at h
        obtain ⟨h1, h2⟩ := h
        subst h1
        exact ⟨n, by omega, rfl, hk, he, h2.symm⟩
      · rw [if_neg he] at h
        obtain ⟨i, hi, rest⟩ := ih idx d1 h
        exact ⟨i, by omega, rest⟩

/-- The scan fails exactly when no occupant of the window can be moved. -/
theorem displace_scan_none (d : dictionary_t) (cf : Nat) :
    ∀ n, (∀ i, i < n → (d.elements ((cf + d.capacity - i) % d.capacity)).key ≠ none →
        ¬ (cf + d.capacity - (d.elements ((cf + d.capacity - i) % d.capacity)).hashvalue
          % d.capacity) % d.capacity < HOP_RANGE) →
      displace_scan d cf n = none := by
  intro n
  induction n with
  | zero => intro _; rfl
  | succ n ih =>
    intro h
    unfold displace_scan
    simp only
    by_cases hk : (d.elements ((cf + d.capacity - n) % d.capacity)).key = none
    · rw [if_pos hk]; exact ih (fun i hi => h i (by omega))
    · rw [if_neg hk, if_neg (h n (by omega) hk)]
      exact ih (fun i hi => h i (by omega))

theorem Disp_refl (pos : Nat) (d : dictionary_t) : Disp pos d d :=
  ⟨rfl, rfl, rfl, fun h => h, rfl, fun h => h, fun h => h, rfl, fun _ _ _ _ => rfl⟩

theorem Disp_trans {pos : Nat} {d d1 d2 : dictionary_t} (h1 : Disp pos d d1)
    (h2 : Disp pos d1 d2) : Disp pos d d2 where
  capacity := by rw [h2.capacity, h1.capacity]
  size := by rw [h2.size, h1.size]
  destroy := by rw [h2.destroy, h1.destroy]
  bitmap_lt := fun h => h2.bitmap_lt (h1.bitmap_lt h)
  bitmap_pos := by rw [h2.bitmap_pos, h1.bitmap_pos]
  range := fun h => h2.range (h1.range h)
  hashok := fun h => h2.hashok (h1.hashok h)
  entries := by rw [h2.entries, h1.entries]
  home := by
    intro i hi hk hh
    have e2 := h2.home i (by rw [h1.capacity]; exact hi) hk (by rw [h1.capacity]; exact hh)
    rw [e2] at hk hh ⊢
    exact h1.home i hi hk hh

theorem relocate_elements (d : dictionary_t) (cf idx j : Nat) (hne : idx ≠ cf) :
    (relocate d cf idx).elements j =
      if j = idx then { d.elements idx with key := none, value := 0 }
      else if j = cf then d.elements idx else d.elements j := by
  unfold relocate
  simp only
  by_cases h1 : j = idx
  · subst h1
    rw [store_same, store_other _ _ _ _ hne]
    simp
  · rw [store_other _ _ _ _ h1]
    by_cases h2 : j = cf
    · subst h2; rw [store_same]; simp [h1]
    · rw [store_other _ _ _ _ h2]; simp [h1, h2]

theorem relocate_bitmap_other (d : dictionary_t) (cf idx b : Nat)
    (h : b ≠ (d.elements idx).hashvalue % d.capacity) :
    (relocate d cf idx).bitmap b = d.bitmap b := by
  unfold relocate
  simp only
  rw [store_other _ _ _ _ h, store_other _ _ _ _ h]

theorem relocate_bitmap_lt (d : dictionary_t) (cf idx : Nat) (h : ∀ b, d.bitmap b < 2 ^ 32) :
    ∀ b, (relocate d cf idx).bitmap b < 2 ^ 32 := by
  intro b
  by_cases hb : b = (d.elements idx).hashvalue % d.capacity
  · unfold relocate
    simp only
    rw [hb, store_same, store_same]
    exact or_u32_lt _ _ (and_not32_lt _ _ (h _))
  · rw [relocate_bitmap_other d cf idx b hb]; exact h b

/-- One relocation, made while the free slot is still out of range of bucket
`pos`, keeps what `Disp` records. -/
theorem relocate_disp (d : dictionary_t) (pos cf idx : Nat)
    (hcf : cf < d.capacity) (hidx : idx < d.capacity)
    (hfree : (d.elements cf).key = none) (hocc : (d.elements idx).key ≠ none)
    (helig : (cf + d.capacity - (d.elements idx).hashvalue % d.capacity) % d.capacity
      < HOP_RANGE)
    (hfar : HOP_RANGE ≤ (cf + d.capacity - pos) % d.capacity) :
    Disp pos d (relocate d cf idx) := by
  have hne : idx ≠ cf := by
    intro h; rw [h] at hocc; exact hocc hfree
  have hbucket : pos ≠ (d.elements idx).hashvalue % d.capacity := by
    intro h; rw [← h] at helig; omega
  have hel := relocate_elements d cf idx
  refine ⟨rfl, rfl, rfl, relocate_bitmap_lt d cf idx, relocate_bitmap_other d cf idx pos hbucket,
    ?_, ?_, ?_, ?_⟩
  · intro hr i hi hk
    have hcap : (relocate d cf idx).capacity = d.capacity := rfl
    rw [hcap] at hi ⊢
    rw [hel i hne] at hk ⊢
    by_cases h1 : i = idx
    · simp [h1] at hk
    · simp only [h1, if_false] at hk ⊢
      by_cases h2 : i = cf
      · simp only [h2, if_true] at hk ⊢
        exact helig
      · simp only [h2, if_false] at hk ⊢
        exact hr i hi hk
  · intro hh i k hi hk
    have hcap : (relocate d cf idx).capacity = d.capacity := rfl
    rw [hcap] at hi
    rw [hel i hne] at hk ⊢
    by_cases h1 : i = idx
    · simp [h1] at hk
    · simp only [h1, if_false] at hk ⊢
      by_cases h2 : i = cf
      · simp only [h2, if_true] at hk ⊢
        exact hh idx k hidx hk
      · simp only [h2, if_false] at hk ⊢
        exact hh i k hi hk
  · unfold entries
    have hcap : (relocate d cf idx).capacity = d.capacity := rfl
    rw [hcap]
    have e1 := entries_below_store d.elements cf (d.elements idx) d.capacity hcf
    have e2 := entries_below_store (store d.elements cf (d.elements idx)) idx
      { store d.elements cf (d.elements idx) idx with key := none, value := 0 } d.capacity hidx
    rw [Element.entry_none _ hfree, add_zero] at e1
    rw [store_other _ _ _ _ hne] at e2
    rw [Element.entry_none { d.elements idx with key := none, value := 0 } rfl, add_zero,
      e1] at e2
    have : (relocate d cf idx).elements =
        store (store d.elements cf (d.elements idx)) idx
          { d.elements idx with key := none, value := 0 } := by
      unfold relocate
      simp only
      rw [store_other _ _ _ _ hne]
    rw [this]
    exact add_right_cancel e2
  · intro i hi hk hh
    rw [hel i hne] at hk hh ⊢
    by_cases h1 : i = idx
    · simp [h1] at hk
    · simp only [h1, if_false] at hk hh ⊢
      by_cases h2 : i = cf
      · simp only [h2, if_true] at hk hh ⊢
        exact absurd hh.symm hbucket
      · simp only [h2, if_false]

theorem relocate_free (d : dictionary_t) (cf idx : Nat) (hne : idx ≠ cf) :
    ((relocate d cf idx).elements idx).key = none := by
  rw [relocate_elements d cf idx idx hne]; simp

/-- The slot a relocation vacates is closer to the bucket than the slot it
fills. -/
theorem dist_decrease (c pos cf i : Nat) (hc : 32 ≤ c) (hp : pos < c) (hcf : cf < c)
    (hi : i < 32) (hne : (cf + c - i) % c ≠ cf) (hfar : 32 ≤ (cf + c - pos) % c) :
    ((cf + c - i) % c + c - pos) % c < (cf + c - pos) % c := by
  rw [mod_lt2 (cf + c - pos) c (by omega)] at hfar ⊢
  rw [mod_lt2 (cf + c - i) c (by omega)] at hne ⊢
  have h0 : i ≠ 0 := by
    intro h; subst h
    simp at hne
  by_cases h1 : cf + c - i < c
  · simp only [h1, if_true] at hne ⊢
    rw [mod_lt2 _ c (by omega)]
    by_cases h2 : cf + c - pos < c
    · simp only [h2, if_true] at hfar ⊢
      split <;> omega
    · simp only [h2, if_false] at hfar ⊢
      split <;> omega
  · simp only [h1, if_false] at hne ⊢
    rw [mod_lt2 _ c (by omega)]
    by_cases h2 : cf + c - pos < c
    · simp only [h2, if_true] at hfar ⊢
      split <;> omega
    · simp only [h2, if_false] at hfar ⊢
      split <;> omega

/-- The loop of `displace_keys` terminates, and what it returns is the
sentinel or a free slot in range of the bucket. -/
theorem displace_loop_spec (pos : Nat) :
    ∀ fuel d cf, 32 ≤ d.capacity → pos < d.capacity → cf < d.capacity →
      (d.elements cf).key = none → (cf + d.capacity - pos) % d.capacity < fuel →
      ∃ r d1, displace_loop pos fuel d cf = some (r, d1) ∧ Disp pos d d1 ∧
        (r = d1.capacity ∨
          (r < d1.capacity ∧ (r + d1.capacity - pos) % d1.capacity < HOP_RANGE ∧
            (d1.elements r).key = none)) := by
  intro fuel
  induction fuel with
  | zero => intro d cf _ _ _ _ h; omega
  | succ fuel ih =>
    intro d cf hc hp hcf hfree hfuel
    unfold displace_loop
    by_cases hfar : HOP_RANGE ≤ (cf + d.capacity - pos) % d.capacity
    · rw [if_pos hfar]
      cases hs : displace_scan d cf HOP_RANGE with
      | none => exact ⟨d.capacity, d, rfl, Disp_refl pos d, Or.inl rfl⟩
      | some res =>
        obtain ⟨idx, d1⟩ := res
        obtain ⟨i, hi, hidx, hocc, helig, hd1⟩ := displace_scan_some d cf _ idx d1 hs
        have hidx_lt : idx < d.capacity := by
          rw [hidx]; exact Nat.mod_lt _ (by omega)
        have hne : idx ≠ cf := by
          intro h; rw [h] at hocc; exact hocc hfree
        have hdisp : Disp pos d d1 := by
          rw [hd1]; exact relocate_disp d pos cf idx hcf hidx_lt hfree hocc helig hfar
        have hdec : (idx + d.capacity - pos) % d.capacity < (cf + d.capacity - pos) % d.capacity := by
          have := dist_decrease d.capacity pos cf i hc hp hcf hi (by rw [← hidx]; exact hne)
            hfar
          rw [← hidx] at this
          exact this
        have hcap1 : d1.capacity = d.capacity := hdisp.capacity
        have hfree1 : (d1.elements idx).key = none := by
          rw [hd1]; exact relocate_free d cf idx hne
        obtain ⟨r, d2, hr, hd2, hpost⟩ := ih d1 idx (by omega) (by omega) (by omega) hfree1
          (by rw [hcap1]; omega)
        exact ⟨r, d2, hr, Disp_trans hdisp hd2, hpost⟩
    · rw [if_neg hfar]
      exact ⟨cf, d, rfl, Disp_refl pos d, Or.inr ⟨hcf, by omega, hfree⟩⟩

theorem find_first_free_loop_spec (d : dictionary_t) (pos : Nat) (hc : 0 < d.capacity) :
    ∀ n i, find_first_free_loop d pos n i = d.capacity ∨
      (find_first_free_loop d pos n i < d.capacity ∧
        (d.elements (find_first_free_loop d pos n i)).key = none) := by
  intro n
  induction n with
  | zero => intro i; left; rfl
  | succ n ih =>
    intro i
    unfold find_first_free_loop
    simp only
    by_cases hk : (d.elements ((pos + i) % d.capacity)).key = none
    · rw [if_pos hk]
      right
      exact ⟨Nat.mod_lt _ hc, hk⟩
    · rw [if_neg hk]
      exact ih (i + 1)

/-- The function `displace_keys` terminates, and what it returns is the
sentinel or a free slot in range of the bucket. -/
theorem displace_keys_spec (d : dictionary_t) (pos : Nat) (hc : 32 ≤ d.capacity)
    (hp : pos < d.capacity) :
    ∃ r d1, displace_keys d pos = some (r, d1) ∧ Disp pos d d1 ∧
      (r = d1.capacity ∨
        (r < d1.capacity ∧ (r + d1.capacity - pos) % d1.capacity < HOP_RANGE ∧
          (d1.elements r).key = none)) := by
  unfold displace_keys
  simp only
  by_cases h : d.capacity ≤ find_first_free_element d pos
  · rw [if_pos h]
    exact ⟨d.capacity, d, rfl, Disp_refl pos d, Or.inl rfl⟩
  · rw [if_neg h]
    rcases find_first_free_loop_spec d pos (by omega) (d.capacity - HOP_RANGE) HOP_RANGE with
      h1 | ⟨h1, h2⟩
    · unfold find_first_free_element at h; omega
    · exact displace_loop_spec pos (d.capacity + 1) d _ hc hp h1 h2
        (Nat.lt_succ_of_lt (Nat.mod_lt _ (by omega)))

/-! ## Allocation and the insertion primitive -/

theorem malloc_spec (w : World) :
    (w.malloc).2.dic = w.dic ∧ (w.malloc).2.destroyed = w.destroyed ∧
      (w.malloc).2.failures = if (w.malloc).1 = true then w.failures else w.failures + 1 := by
  unfold World.malloc
  cases h : w.allocs with
  | nil => simp
  | cons a rest => cases a <;> simp

theorem calloc_spec (w : World) (nmemb size : Nat) :
    (w.calloc nmemb size).2.dic = w.dic ∧ (w.calloc nmemb size).2.destroyed = w.destroyed ∧
      (w.calloc nmemb size).2.failures =
        (if (w.calloc nmemb size).1 = true then w.failures else w.failures + 1) ∧
      ((w.calloc nmemb size).1 = true → nmemb * size < 2 ^ 64) := by
  unfold World.calloc
  by_cases h : 2 ^ 64 ≤ nmemb * size
  · rw [if_pos h]; simp
  · rw [if_neg h]
    have := malloc_spec w
    exact ⟨this.1, this.2.1, this.2.2, fun _ => by omega⟩

/-- The dictionary after a successful `insert_element`. -/
theorem insert_element_spec (w : World) (pos hashvalue value : Nat) (key : Key)
    (hpos : pos < w.dic.capacity)
    (hn : (pos + w.dic.capacity - hashvalue % w.dic.capacity) % w.dic.capacity < HOP_RANGE) :
    ((insert_element w pos hashvalue value key).1 = false ∧
      (insert_element w pos hashvalue value key).2.dic = w.dic ∧
      (insert_element w pos hashvalue value key).2.destroyed = w.destroyed ∧
      (insert_element w pos hashvalue value key).2.failures = w.failures + 1) ∨
    ((insert_element w pos hashvalue value key).1 = true ∧
      (insert_element w pos hashvalue value key).2.dic =
        { w.dic with
          bitmap := update_bitmap w.dic.bitmap (hashvalue % w.dic.capacity)
            ((pos + w.dic.capacity - hashvalue % w.dic.capacity) % w.dic.capacity) true
          elements := store w.dic.elements pos ⟨some key, value, hashvalue⟩
          size := u64 (w.dic.size + 1) } ∧
      (insert_element w pos hashvalue value key).2.destroyed = w.destroyed ∧
      (insert_element w pos hashvalue value key).2.failures = w.failures) := by
  unfold insert_element
  simp only
  rw [if_neg (by omega), if_neg (by omega)]
  have hm := malloc_spec w
  cases hres : w.malloc with
  | mk b w1 =>
    rw [hres] at hm
    cases b
    · left
      simp at hm ⊢
      exact hm
    · right
      simp at hm ⊢
      exact ⟨hm.2.1, hm.2.2⟩

/-! ## Case analysis of `dictionary_put_with_hashvalue` and `rehash` -/

theorem put_cases (fuel : Nat) (w : World) (key : Key) (value h : Nat) (b : Bool) (w1 : World)
    (hput : dictionary_put_with_hashvalue (fuel + 1) w key value h = some (b, w1)) :
    (get_keys_matching_index_in_neighborhood w.dic key (h % w.dic.capacity) ≠ w.dic.capacity ∧
      b = true ∧
      w1 = overwritten w
        (get_keys_matching_index_in_neighborhood w.dic key (h % w.dic.capacity)) value) ∨
    (get_keys_matching_index_in_neighborhood w.dic key (h % w.dic.capacity) = w.dic.capacity ∧
      return_free_index_in_neighborhood w.dic (h % w.dic.capacity) ≠ w.dic.capacity ∧
      (b, w1) = insert_element w
        ((h % w.dic.capacity + return_free_index_in_neighborhood w.dic (h % w.dic.capacity))
          % w.dic.capacity) h value key) ∨
    (get_keys_matching_index_in_neighborhood w.dic key (h % w.dic.capacity) = w.dic.capacity ∧
      return_free_index_in_neighborhood w.dic (h % w.dic.capacity) = w.dic.capacity ∧
      ∃ r d1, displace_keys w.dic (h % w.dic.capacity) = some (r, d1) ∧
        ((r ≠ w.dic.capacity ∧ (b, w1) = insert_element { w with dic := d1 } r h value key) ∨
         (r = w.dic.capacity ∧
            ((b = false ∧
              rehash (dictionary_put_with_hashvalue fuel) { w with dic := d1 } = some (false, w1)) ∨
             (∃ w2, rehash (dictionary_put_with_hashvalue fuel) { w with dic := d1 }
                  = some (true, w2) ∧
                dictionary_put_with_hashvalue fuel w2 key value h = some (b, w1)))))) := by
  unfold dictionary_put_with_hashvalue at hput
  simp only at hput
  by_cases h1 : get_keys_matching_index_in_neighborhood w.dic key (h % w.dic.capacity)
      ≠ w.dic.capacity
  · rw [if_pos h1] at hput
    simp only [Option.some.injEq, Prod.mk.injEq] at hput
    left
    exact ⟨h1, hput.1.symm, hput.2.symm⟩
  · rw [if_neg h1] at hput
    right
    have h1' : get_keys_matching_index_in_neighborhood w.dic key (h % w.dic.capacity)
        = w.dic.capacity := by
      by_contra hc; exact h1 hc
    by_cases h2 : return_free_index_in_neighborhood w.dic (h % w.dic.capacity) ≠ w.dic.capacity
    · rw [if_pos h2] at hput
      left
      simp only [Option.some.injEq] at hput
      exact ⟨h1', h2, hput.symm⟩
    · rw [if_neg h2] at hput
      right
      have h2' : return_free_index_in_neighborhood w.dic (h % w.dic.capacity)
          = w.dic.capacity := by
        by_contra hc; exact h2 hc
      refine ⟨h1', h2', ?_⟩
      cases hd : displace_keys w.dic (h % w.dic.capacity) with
      | none => rw [hd] at hput; simp at hput
      | some res =>
        obtain ⟨r, d1⟩ := res
        rw [hd] at hput
        simp only at hput
        refine ⟨r, d1, rfl, ?_⟩
        by_cases h3 : r ≠ w.dic.capacity
        · rw [if_pos h3] at hput
          left
          simp only [Option.some.injEq] at hput
          exact ⟨h3, hput.symm⟩
        · rw [if_neg h3] at hput
          right
          have h3' : r = w.dic.capacity := by
            by_contra hc; exact h3 hc
          refine ⟨h3', ?_⟩
          cases hr : rehash (dictionary_put_with_hashvalue fuel) { w with dic := d1 } with
          | none => rw [hr] at hput; simp at hput
          | some res2 =>
            obtain ⟨b2, w2⟩ := res2
            rw [hr] at hput
            cases b2
            · simp only [Option.some.injEq, Prod.mk.injEq] at hput
              left
              rw [← hput.2]
              exact ⟨hput.1.symm, rfl⟩
            · simp only at hput
              right
              exact ⟨w2, rfl, hput⟩

theorem rehash_cases (put : World → Key → Nat → Nat → Option (Bool × World)) (w : World)
    (b : Bool) (w1 : World) (hr : rehash put w = some (b, w1)) :
    (b = false ∧ w1.dic = { w.dic with size := 0 } ∧ w1.failures = w.failures + 1 ∧
      w1.destroyed = w.destroyed) ∨
    (u64 (w.dic.capacity * 2) * sizeof_Element < 2 ^ 64 ∧
      ∃ w2 w3, w2.dic = fresh w.dic ∧ w2.failures = w.failures ∧ w2.destroyed = w.destroyed ∧
        ((b = false ∧
          rehash_loop put w.dic.elements w.dic.capacity 0 w2 = some (false, w3) ∧
          w1 = { w3 with dic := { w3.dic with elements := w.dic.elements,
                                              bitmap := w.dic.bitmap,
                                              capacity := w.dic.capacity } }) ∨
         (b = true ∧
          rehash_loop put w.dic.elements w.dic.capacity 0 w2 = some (true, w1)))) := by
  unfold rehash at hr
  simp only at hr
  have c1 := calloc_spec w (u64 (w.dic.capacity * 2)) sizeof_Element
  cases hc1 : w.calloc (u64 (w.dic.capacity * 2)) sizeof_Element with
  | mk b1 wa =>
    rw [hc1] at hr c1
    cases b1
    · simp only [Option.some.injEq, Prod.mk.injEq] at hr
      left
      simp at c1
      obtain ⟨hb, hw⟩ := hr
      subst hw
      exact ⟨hb.symm, rfl, c1.2.2, c1.2.1⟩
    · simp only at hr
      simp at c1
      have c2 := calloc_spec wa (u64 (w.dic.capacity * 2)) sizeof_uint32
      cases hc2 : wa.calloc (u64 (w.dic.capacity * 2)) sizeof_uint32 with
      | mk b2 wb =>
        rw [hc2] at hr c2
        cases b2
        · simp only [Option.some.injEq, Prod.mk.injEq] at hr
          left
          simp at c2
          obtain ⟨hb, hw⟩ := hr
          subst hw
          refine ⟨hb.symm, rfl, ?_, ?_⟩
          · simp only; rw [c2.2.2, c1.2.2.1]
          · simp only; rw [c2.2.1, c1.2.1]
        · simp only at hr
          simp at c2
          right
          refine ⟨c1.2.2.2, ?_⟩
          split at hr
          · simp at hr
          · rename_i w3 hl
            simp only [Option.some.injEq, Prod.mk.injEq] at hr
            refine ⟨{ wb with dic := fresh w.dic }, w3, rfl, ?_, ?_,
              Or.inl ⟨hr.1.symm, hl, hr.2.symm⟩⟩
            · simp only; rw [c2.2.2.1, c1.2.2.1]
            · simp only; rw [c2.2.1, c1.2.1]
          · rename_i w3 hl
            simp only [Option.some.injEq, Prod.mk.injEq] at hr
            refine ⟨{ wb with dic := fresh w.dic }, w3, rfl, ?_, ?_, Or.inr ⟨hr.1.symm, ?_⟩⟩
            · simp only; rw [c2.2.2.1, c1.2.2.1]
            · simp only; rw [c2.2.1, c1.2.1]
            · rw [← hr.2]; exact hl

/-- Induction along the reinsertion loop of `rehash`. -/
theorem rehash_loop_ind (put : World → Key → Nat → Nat → Option (Bool × World))
    (old : Nat → Element) (N : Nat) (J : Nat → World → Prop) (F : World → Prop)
    (hskip : ∀ i w, i < N → J i w → (old i).key = none → J (i + 1) w)
    (hput : ∀ i w k w1, i < N → J i w → (old i).key = some k →
      put w k (old i).value (old i).hashvalue = some (true, w1) → J (i + 1) w1)
    (hfail : ∀ i w k w1, i < N → J i w → (old i).key = some k →
      put w k (old i).value (old i).hashvalue = some (false, w1) → F w1) :
    ∀ n i w b w1, i + n ≤ N → J i w → rehash_loop put old n i w = some (b, w1) →
      (b = true → J (i + n) w1) ∧ (b = false → F w1) := by
  intro n
  induction n with
  | zero =>
    intro i w b w1 _ hJ h
    simp only [rehash_loop, Option.some.injEq, Prod.mk.injEq] at h
    obtain ⟨hb, hw⟩ := h
    subst hb; subst hw
    exact ⟨fun _ => hJ, fun h => by simp at h⟩
  | succ n ih =>
    intro i w b w1 hN hJ h
    unfold rehash_loop at h
    cases hk : (old i).key with
    | none =>
      rw [hk] at h
      simp only at h
      have := ih (i + 1) w b w1 (by omega) (hskip i w (by omega) hJ hk) h
      rw [show i + (n + 1) = i + 1 + n by omega]
      exact this
    | some k =>
      rw [hk] at h
      simp only at h
      cases hp : put w k (old i).value (old i).hashvalue with
      | none => rw [hp] at h; simp at h
      | some res =>
        obtain ⟨b2, w2⟩ := res
        rw [hp] at h
        cases b2
        · simp only [Option.some.injEq, Prod.mk.injEq] at h
          obtain ⟨hb, hw⟩ := h
          subst hb; subst hw
          exact ⟨fun h => by simp at h, fun _ => hfail i w k w2 (by omega) hJ hk hp⟩
        · simp only at h
          have := ih (i + 1) w2 b w1 (by omega) (hput i w k w2 (by omega) hJ hk hp) h
          rw [show i + (n + 1) = i + 1 + n by omega]
          exact this

/-! ## What every put keeps -/

theorem Range_congr (d d1 : dictionary_t) (hcap : d1.capacity = d.capacity)
    (hel : d1.elements = d.elements) (h : Range d) : Range d1 := by
  intro i hi hk
  rw [hcap] at hi ⊢
  rw [hel] at hk ⊢
  exact h i hi hk

theorem HashOK_congr (d d1 : dictionary_t) (hcap : d1.capacity = d.capacity)
    (hel : d1.elements = d.elements) (h : HashOK d) : HashOK d1 := by
  intro i k hi hk
  rw [hcap] at hi
  rw [hel] at hk ⊢
  exact h i k hi hk

theorem Range_store (d d1 : dictionary_t) (i : Nat) (e : Element)
    (hcap : d1.capacity = d.capacity) (hel : d1.elements = store d.elements i e)
    (he : e.key ≠ none → (i + d.capacity - e.hashvalue % d.capacity) % d.capacity < HOP_RANGE)
    (h : Range d) : Range d1 := by
  intro j hj hk
  rw [hcap] at hj ⊢
  rw [hel] at hk ⊢
  by_cases hji : j = i
  · subst hji
    rw [store_same] at hk ⊢
    exact he hk
  · rw [store_other _ _ _ _ hji] at hk ⊢
    exact h j hj hk

theorem HashOK_store (d d1 : dictionary_t) (i : Nat) (e : Element)
    (hcap : d1.capacity = d.capacity) (hel : d1.elements = store d.elements i e)
    (he : ∀ k, e.key = some k → e.hashvalue = murmur_hash k SEED)
    (h : HashOK d) : HashOK d1 := by
  intro j k hj hk
  rw [hcap] at hj
  rw [hel] at hk ⊢
  by_cases hji : j = i
  · subst hji
    rw [store_same] at hk ⊢
    exact he k hk
  · rw [store_other _ _ _ _ hji] at hk ⊢
    exact h j k hj hk

theorem TypeOK_of (d d1 : dictionary_t) (hcap : d1.capacity = d.capacity)
    (hbm : ∀ b, d1.bitmap b < 2 ^ 32) (h : TypeOK d) : TypeOK d1 :=
  ⟨by rw [hcap]; exact h.cap_ge, by rw [hcap]; exact h.cap_lt, hbm⟩

theorem TypeOK_pos {d : dictionary_t} (h : TypeOK d) : 0 < d.capacity := by
  have := h.cap_ge
  unfold HOP_RANGE at this
  omega

theorem TypeOK_ge {d : dictionary_t} (h : TypeOK d) : 32 ≤ d.capacity := h.cap_ge

theorem Range_fresh (d : dictionary_t) : Range (fresh d) := by
  intro i _ hk
  exact absurd rfl hk

theorem HashOK_fresh (d : dictionary_t) : HashOK (fresh d) := by
  intro i k _ hk
  simp [fresh, Element.zero] at hk

theorem fresh_capacity (d : dictionary_t) (h : TypeOK d) :
    (fresh d).capacity = d.capacity * 2 := by
  have := h.cap_lt
  unfold sizeof_Element at this
  show u64 (d.capacity * 2) = d.capacity * 2
  unfold u64
  exact Nat.mod_eq_of_lt (by omega)

theorem TypeOK_fresh (d : dictionary_t) (h : TypeOK d)
    (hc : u64 (d.capacity * 2) * sizeof_Element < 2 ^ 64) : TypeOK (fresh d) := by
  have hcap := fresh_capacity d h
  refine ⟨?_, ?_, ?_⟩
  · rw [hcap]; have := h.cap_ge; omega
  · exact hc
  · intro b; show (0 : Nat) < 2 ^ 32; decide

theorem overwritten_dic (w : World) (idx value : Nat) :
    (overwritten w idx value).dic =
      { w.dic with
        elements := store w.dic.elements idx { w.dic.elements idx with value := value } } := by
  unfold overwritten
  simp only

theorem overwritten_failures (w : World) (idx value : Nat) :
    (overwritten w idx value).failures = w.failures := by
  unfold overwritten
  simp only
  split <;> rfl

theorem Basic_insert (w : World) (pos hashvalue value : Nat) (key : Key)
    (ht : TypeOK w.dic) (hr : Range w.dic) (hpos : pos < w.dic.capacity)
    (hn : (pos + w.dic.capacity - hashvalue % w.dic.capacity) % w.dic.capacity < HOP_RANGE) :
    Basic w (insert_element w pos hashvalue value key).2
        (insert_element w pos hashvalue value key).1 ∧
      (HashOK w.dic → hashvalue = murmur_hash key SEED →
        HashOK (insert_element w pos hashvalue value key).2.dic) := by
  rcases insert_element_spec w pos hashvalue value key hpos hn with
    ⟨h1, h2, _, h4⟩ | ⟨h1, h2, _, h4⟩
  · rw [h1]
    refine ⟨⟨by rw [h2]; exact ht, by rw [h2]; exact hr, by rw [h2], ⟨0, by rw [h2]; simp⟩,
      by omega, fun _ => by omega⟩, ?_⟩
    intro hh _; rw [h2]; exact hh
  · rw [h1]
    refine ⟨⟨?_, ?_, by rw [h2], ⟨0, by rw [h2]; simp⟩, by omega, fun h => by simp at h⟩, ?_⟩
    · rw [h2]
      refine TypeOK_of w.dic _ rfl ?_ ht
      intro b
      show update_bitmap w.dic.bitmap _ _ true b < 2 ^ 32
      exact update_bitmap_lt _ _ _ _ ht.bitmap_lt b
    · rw [h2]
      exact Range_store w.dic _ pos ⟨some key, value, hashvalue⟩ rfl rfl (fun _ => hn) hr
    · intro hh hm
      rw [h2]
      refine HashOK_store w.dic _ pos ⟨some key, value, hashvalue⟩ rfl rfl ?_ hh
      intro k hk
      simp only [Option.some.injEq] at hk
      subst hk
      exact hm

theorem Basic_trans {w w1 w2 : World} {b1 b2 : Bool} (h1 : Basic w w1 b1) (h2 : Basic w1 w2 b2)
    (hb : b2 = false → w.failures < w2.failures) : Basic w w2 b2 := by
  refine ⟨h2.typeok, h2.range, by rw [h2.destroy, h1.destroy], ?_, ?_, hb⟩
  · obtain ⟨j1, e1⟩ := h1.cap
    obtain ⟨j2, e2⟩ := h2.cap
    exact ⟨j1 + j2, by rw [e2, e1, Nat.pow_add, Nat.mul_assoc]⟩
  · have := h1.fail_le
    have := h2.fail_le
    omega

/-- What `rehash` keeps, given that the puts it makes keep it. -/
theorem rehash_basic_of (fuel : Nat)
    (ih : ∀ w key value h b w1, TypeOK w.dic → Range w.dic →
      dictionary_put_with_hashvalue fuel w key value h = some (b, w1) →
      Basic w w1 b ∧ (HashOK w.dic → h = murmur_hash key SEED → HashOK w1.dic)) :
    ∀ w b w1, TypeOK w.dic → Range w.dic →
      rehash (dictionary_put_with_hashvalue fuel) w = some (b, w1) →
      Basic w w1 b ∧ (HashOK w.dic → HashOK w1.dic) ∧
        (b = true → w.dic.capacity * 2 ≤ w1.dic.capacity) ∧
        (b = false → w1.dic.capacity = w.dic.capacity ∧ w1.dic.elements = w.dic.elements ∧
          w1.dic.bitmap = w.dic.bitmap) := by
  intro w b w1 ht hr hrh
  rcases rehash_cases _ _ _ _ hrh with ⟨hb, h2, h3, _⟩ | ⟨hc, wa, w3, ha1, ha2, _, hl⟩
  · subst hb
    refine ⟨⟨?_, ?_, by rw [h2], ⟨0, by rw [h2]; simp⟩, by omega, fun _ => by omega⟩, ?_,
      fun h => by simp at h, fun _ => by rw [h2]; exact ⟨rfl, rfl, rfl⟩⟩
    · rw [h2]; exact TypeOK_of w.dic _ rfl ht.bitmap_lt ht
    · rw [h2]; exact Range_congr w.dic _ rfl rfl hr
    · intro hh; rw [h2]; exact HashOK_congr w.dic _ rfl rfl hh
  · have hfr : TypeOK (fresh w.dic) := TypeOK_fresh w.dic ht hc
    have hind := rehash_loop_ind (dictionary_put_with_hashvalue fuel) w.dic.elements
      w.dic.capacity
      (fun _ x => TypeOK x.dic ∧ Range x.dic ∧ x.dic.destroy = w.dic.destroy ∧
        w.failures ≤ x.failures ∧ (∃ j, x.dic.capacity = w.dic.capacity * 2 * 2 ^ j) ∧
        (HashOK w.dic → HashOK x.dic))
      (fun x => x.dic.destroy = w.dic.destroy ∧ w.failures < x.failures)
      (fun i x _ hJ _ => hJ)
      (fun i x k x1 hi hJ hk hp1 => by
        have hB := ih x k _ _ true x1 hJ.1 hJ.2.1 hp1
        have := hB.1
        refine ⟨this.typeok, this.range, by rw [this.destroy]; exact hJ.2.2.1,
          Nat.le_trans hJ.2.2.2.1 this.fail_le, ?_, ?_⟩
        · obtain ⟨j1, e1⟩ := hJ.2.2.2.2.1
          obtain ⟨j2, e2⟩ := this.cap
          exact ⟨j1 + j2, by rw [e2, e1, Nat.pow_add, Nat.mul_assoc, Nat.mul_assoc]⟩
        · intro hh
          exact hB.2 (hJ.2.2.2.2.2 hh) (hh i k hi hk))
      (fun i x k x1 _ hJ _ hp1 => by
        have := (ih x k _ _ false x1 hJ.1 hJ.2.1 hp1).1
        exact ⟨by rw [this.destroy]; exact hJ.2.2.1,
          Nat.lt_of_le_of_lt hJ.2.2.2.1 (this.fail_lt rfl)⟩)
      w.dic.capacity 0 wa
    have hJ0 : TypeOK wa.dic ∧ Range wa.dic ∧ wa.dic.destroy = w.dic.destroy ∧
        w.failures ≤ wa.failures ∧ (∃ j, wa.dic.capacity = w.dic.capacity * 2 * 2 ^ j) ∧
        (HashOK w.dic → HashOK wa.dic) :=
      ⟨by rw [ha1]; exact hfr, by rw [ha1]; exact Range_fresh w.dic, by rw [ha1]; rfl,
        by rw [ha2], ⟨0, by rw [ha1, fresh_capacity w.dic ht]; simp⟩,
        fun _ => by rw [ha1]; exact HashOK_fresh w.dic⟩
    rcases hl with ⟨hb, hloop, hw1⟩ | ⟨hb, hloop⟩
    · subst hb
      have hF := (hind false w3 (by omega) hJ0 hloop).2 rfl
      subst hw1
      refine ⟨⟨?_, ?_, hF.1, ⟨0, by simp⟩, Nat.le_of_lt hF.2, fun _ => hF.2⟩, ?_,
        fun h => by simp at h, fun _ => ⟨rfl, rfl, rfl⟩⟩
      · exact TypeOK_of w.dic _ rfl ht.bitmap_lt ht
      · exact Range_congr w.dic _ rfl rfl hr
      · intro hh; exact HashOK_congr w.dic _ rfl rfl hh
    · subst hb
      have hJ := (hind true w1 (by omega) hJ0 hloop).1 rfl
      refine ⟨⟨hJ.1, hJ.2.1, hJ.2.2.1, ?_, hJ.2.2.2.1, fun h => by simp at h⟩, hJ.2.2.2.2.2,
        fun _ => ?_, fun h => by simp at h⟩
      · obtain ⟨j, e⟩ := hJ.2.2.2.2.1
        exact ⟨1 + j, by rw [e, Nat.pow_add, Nat.mul_assoc]⟩
      · obtain ⟨j, e⟩ := hJ.2.2.2.2.1
        rw [e]
        exact Nat.le_mul_of_pos_right _ (Nat.two_pow_pos j)

/-- Every call of `dictionary_put_with_hashvalue` on a well-typed table that
satisfies the range invariant returns such a table, of the same or a doubled
capacity, and returns `false` only after an allocation failure. -/
theorem put_basic : ∀ fuel w key value h b w1, TypeOK w.dic → Range w.dic →
    dictionary_put_with_hashvalue fuel w key value h = some (b, w1) →
    Basic w w1 b ∧ (HashOK w.dic → h = murmur_hash key SEED → HashOK w1.dic) := by
  intro fuel
  induction fuel with
  | zero => intro w key value h b w1 _ _ hput; simp [dictionary_put_with_hashvalue] at hput
  | succ fuel ih =>
    intro w key value h b w1 ht hr hput
    have hcpos := (TypeOK_pos ht)
    have hc32 := (TypeOK_ge ht)
    have hp : h % w.dic.capacity < w.dic.capacity := Nat.mod_lt _ hcpos
    rcases put_cases fuel w key value h b w1 hput with
      ⟨_, hb, hw⟩ | ⟨_, hfree, hins⟩ | ⟨_, _, r, d1, hdisp, hrest⟩
    · -- overwrite
      subst hb; subst hw
      have hd := overwritten_dic w (get_keys_matching_index_in_neighborhood w.dic key
        (h % w.dic.capacity)) value
      refine ⟨⟨?_, ?_, by rw [hd], ⟨0, by rw [hd]; simp⟩, by rw [overwritten_failures],
        fun h => by simp at h⟩, ?_⟩
      · rw [hd]; exact TypeOK_of w.dic _ rfl ht.bitmap_lt ht
      · rw [hd]
        refine Range_store w.dic _ _ _ rfl rfl ?_ hr
        intro hk
        by_cases hlt : get_keys_matching_index_in_neighborhood w.dic key (h % w.dic.capacity)
            < w.dic.capacity
        · exact hr _ hlt hk
        · exact absurd (lookup_lt w.dic key _ (ht.bitmap_lt _) hcpos (by assumption)) hlt
      · intro hh _
        rw [hd]
        refine HashOK_store w.dic _ _ _ rfl rfl ?_ hh
        intro k hk
        exact hh _ k (lookup_lt w.dic key _ (ht.bitmap_lt _) hcpos (by assumption)) hk
    · -- free slot of the neighbourhood
      rcases free_spec w.dic (h % w.dic.capacity) (ht.bitmap_lt _) with ⟨h1, _⟩ | ⟨h1, _, _⟩
      · exact absurd h1 hfree
      · have hoff := offset_of_slot (h % w.dic.capacity)
          (return_free_index_in_neighborhood w.dic (h % w.dic.capacity)) w.dic.capacity hp
          (by omega)
        have := Basic_insert w ((h % w.dic.capacity +
          return_free_index_in_neighborhood w.dic (h % w.dic.capacity)) % w.dic.capacity)
          h value key ht hr (Nat.mod_lt _ hcpos) (by rw [hoff]; exact h1)
        rw [← hins] at this
        exact this
    · obtain ⟨r2, d2, hd2, hD, hpost⟩ := displace_keys_spec w.dic (h % w.dic.capacity) hc32 hp
      rw [hdisp] at hd2
      simp only [Option.some.injEq, Prod.mk.injEq] at hd2
      obtain ⟨e1, e2⟩ := hd2
      subst e1; subst e2
      have ht1 : TypeOK d1 := TypeOK_of w.dic d1 hD.capacity (hD.bitmap_lt ht.bitmap_lt) ht
      have hr1 : Range d1 := hD.range hr
      have hB0 : Basic w { w with dic := d1 } true :=
        ⟨ht1, hr1, hD.destroy, ⟨0, by simp [hD.capacity]⟩, Nat.le_refl _, fun h => by simp at h⟩
      rcases hrest with ⟨hne, hins⟩ | ⟨hre, hgrow⟩
      · -- slot found by displacement
        rcases hpost with h1 | ⟨h1, h2, _⟩
        · rw [hD.capacity] at h1; exact absurd h1 hne
        · have := Basic_insert { w with dic := d1 } r h value key ht1 hr1 h1
            (by rw [hD.capacity] at h2 ⊢; exact h2)
          rw [← hins] at this
          simp only at this
          refine ⟨Basic_trans hB0 this.1 (fun hb => ?_), fun hh hm => this.2 (hD.hashok hh) hm⟩
          have := this.1.fail_lt hb
          exact this
      · -- growth
        rcases hgrow with ⟨hb, hrh⟩ | ⟨w2, hrh, hretry⟩
        · subst hb
          have hR := rehash_basic_of fuel ih { w with dic := d1 } false w1 ht1 hr1 hrh
          exact ⟨Basic_trans hB0 hR.1 (fun hb => hR.1.fail_lt hb), fun hh _ => hR.2.1 (hD.hashok hh)⟩
        · have hR := rehash_basic_of fuel ih { w with dic := d1 } true w2 ht1 hr1 hrh
          have hB := ih w2 key value h b w1 hR.1.typeok hR.1.range hretry
          have h02 := Basic_trans hB0 hR.1 (fun hb => by simp at hb)
          refine ⟨Basic_trans h02 hB.1 (fun hb => ?_), fun hh hm => hB.2 (hR.2.1 (hD.hashok hh)) hm⟩
          exact Nat.lt_of_le_of_lt h02.fail_le (hB.1.fail_lt hb)

theorem rehash_basic (fuel : Nat) (w : World) (b : Bool) (w1 : World) (ht : TypeOK w.dic)
    (hr : Range w.dic) (h : rehash (dictionary_put_with_hashvalue fuel) w = some (b, w1)) :
    Basic w w1 b ∧ (HashOK w.dic → HashOK w1.dic) ∧
      (b = true → w.dic.capacity * 2 ≤ w1.dic.capacity) ∧
      (b = false → w1.dic.capacity = w.dic.capacity ∧ w1.dic.elements = w.dic.elements ∧
        w1.dic.bitmap = w.dic.bitmap) :=
  rehash_basic_of fuel (put_basic fuel) w b w1 ht hr h

/-! ## Creation, removal and the reachable worlds -/

theorem create_spec (destroy : Bool) (allocs : List Bool) (w : World)
    (h : dictionary_create destroy allocs = some w) :
    w.dic = ⟨fun _ => Element.zero, 0, INITIAL_CAPACITY, destroy, fun _ => 0⟩ ∧
      w.failures = 0 ∧ w.destroyed = [] := by
  unfold dictionary_create at h
  simp only at h
  split at h
  · simp at h
  · rename_i w1 h1
    have m1 := malloc_spec
      { dic := ⟨fun _ => Element.zero, 0, INITIAL_CAPACITY, destroy, fun _ => 0⟩,
        allocs := allocs, failures := 0, destroyed := [] }
    rw [h1] at m1
    simp at m1
    split at h
    · simp at h
    · rename_i w2 h2
      have m2 := calloc_spec w1 INITIAL_CAPACITY sizeof_Element
      rw [h2] at m2
      simp at m2
      split at h
      · simp at h
      · rename_i w3 h3
        have m3 := calloc_spec w2 INITIAL_CAPACITY sizeof_uint32
        rw [h3] at m3
        simp at m3
        simp only [Option.some.injEq] at h
        subst h
        refine ⟨?_, ?_, ?_⟩
        · rw [m3.1, m2.1, m1.1]
        · rw [m3.2.2.1, m2.2.2.1, m1.2.2]
        · rw [m3.2.1, m2.2.1, m1.2.1]

theorem create_TypeOK (destroy : Bool) :
    TypeOK ⟨fun _ => Element.zero, 0, INITIAL_CAPACITY, destroy, fun _ => 0⟩ :=
  ⟨by show HOP_RANGE ≤ INITIAL_CAPACITY; decide,
   by show INITIAL_CAPACITY * sizeof_Element < 2 ^ 64; decide,
   fun _ => by show (0 : Nat) < 2 ^ 32; decide⟩

theorem create_Range (destroy : Bool) :
    Range ⟨fun _ => Element.zero, 0, INITIAL_CAPACITY, destroy, fun _ => 0⟩ := by
  intro i _ hk
  exact absurd rfl hk

theorem create_HashOK (destroy : Bool) :
    HashOK ⟨fun _ => Element.zero, 0, INITIAL_CAPACITY, destroy, fun _ => 0⟩ := by
  intro i k _ hk
  simp [Element.zero] at hk

theorem pop_spec (w : World) (key : Key) :
    (get_keys_matching_index_in_neighborhood w.dic key (murmur_hash key SEED % w.dic.capacity)
        = w.dic.capacity ∧ dictionary_pop w key = ((0, true), w)) ∨
    (get_keys_matching_index_in_neighborhood w.dic key (murmur_hash key SEED % w.dic.capacity)
        ≠ w.dic.capacity ∧
      dictionary_pop w key =
        (((w.dic.elements (get_keys_matching_index_in_neighborhood w.dic key
            (murmur_hash key SEED % w.dic.capacity))).value, false),
          { w with dic := (popped w.dic (murmur_hash key SEED % w.dic.capacity)
            (get_keys_matching_index_in_neighborhood w.dic key
              (murmur_hash key SEED % w.dic.capacity))) })) := by
  unfold dictionary_pop
  simp only
  by_cases h : get_keys_matching_index_in_neighborhood w.dic key
      (murmur_hash key SEED % w.dic.capacity) = w.dic.capacity
  · left; rw [if_pos h]; exact ⟨h, rfl⟩
  · right; rw [if_neg h]; exact ⟨h, rfl⟩

theorem popped_TypeOK (d : dictionary_t) (pos index : Nat) (h : TypeOK d) :
    TypeOK (popped d pos index) := by
  refine TypeOK_of d _ rfl ?_ h
  intro b
  show update_bitmap d.bitmap _ _ false b < 2 ^ 32
  exact update_bitmap_lt _ _ _ _ h.bitmap_lt b

theorem popped_Range (d : dictionary_t) (pos index : Nat) (h : Range d) :
    Range (popped d pos index) :=
  Range_store d _ index _ rfl rfl (fun hk => absurd rfl hk) h

theorem popped_HashOK (d : dictionary_t) (pos index : Nat) (h : HashOK d) :
    HashOK (popped d pos index) :=
  HashOK_store d _ index _ rfl rfl (fun k hk => by simp at hk) h

/-- What `dictionary_pop` keeps. -/
theorem pop_basic (w : World) (key : Key) (ht : TypeOK w.dic) (hr : Range w.dic) :
    TypeOK (dictionary_pop w key).2.dic ∧ Range (dictionary_pop w key).2.dic ∧
      (HashOK w.dic → HashOK (dictionary_pop w key).2.dic) ∧
      (dictionary_pop w key).2.dic.capacity = w.dic.capacity ∧
      (dictionary_pop w key).2.dic.destroy = w.dic.destroy ∧
      (dictionary_pop w key).2.failures = w.failures ∧
      (dictionary_pop w key).2.destroyed = w.destroyed := by
  rcases pop_spec w key with ⟨_, h⟩ | ⟨_, h⟩
  · rw [h]; exact ⟨ht, hr, fun h => h, rfl, rfl, rfl, rfl⟩
  · rw [h]
    exact ⟨popped_TypeOK _ _ _ ht, popped_Range _ _ _ hr, popped_HashOK _ _ _, rfl, rfl, rfl,
      rfl⟩

theorem delete_dic (w : World) (key : Key) :
    (dictionary_delete w key).2.dic = (dictionary_pop w key).2.dic ∧
      (dictionary_delete w key).2.failures = (dictionary_pop w key).2.failures := by
  unfold dictionary_delete
  rcases hp : dictionary_pop w key with ⟨⟨v, e⟩, w1⟩
  cases e
  · simp only
    split <;> exact ⟨rfl, rfl⟩
  · exact ⟨rfl, rfl⟩

/-- Every reachable world holds a well-typed table of capacity
`1024 * 2 ^ j` that satisfies the range invariant and caches the hash of
every key. -/
theorem reachable_inv (w : World) (h : Reachable w) :
    TypeOK w.dic ∧ Range w.dic ∧ HashOK w.dic ∧
      ∃ j, w.dic.capacity = INITIAL_CAPACITY * 2 ^ j := by
  induction h with
  | create destroy allocs w hc =>
    obtain ⟨h1, _, _⟩ := create_spec destroy allocs w hc
    rw [h1]
    exact ⟨create_TypeOK destroy, create_Range destroy, create_HashOK destroy, ⟨0, rfl⟩⟩
  | put w fuel key value b w1 _ hput ih =>
    obtain ⟨ht, hr, hh, j, hj⟩ := ih
    have hB := put_basic fuel w key value _ b w1 ht hr hput
    refine ⟨hB.1.typeok, hB.1.range, hB.2 hh rfl, ?_⟩
    obtain ⟨j2, e2⟩ := hB.1.cap
    exact ⟨j + j2, by rw [e2, hj, Nat.pow_add, Nat.mul_assoc]⟩
  | pop w key _ ih =>
    obtain ⟨ht, hr, hh, j, hj⟩ := ih
    have hP := pop_basic w key ht hr
    exact ⟨hP.1, hP.2.1, hP.2.2.1 hh, ⟨j, by rw [hP.2.2.2.1, hj]⟩⟩
  | delete w key _ ih =>
    obtain ⟨ht, hr, hh, j, hj⟩ := ih
    have hP := pop_basic w key ht hr
    rw [(delete_dic w key).1]
    exact ⟨hP.1, hP.2.1, hP.2.2.1 hh, ⟨j, by rw [hP.2.2.2.1, hj]⟩⟩
  | oracle w allocs _ ih => exact ih

/-! ## Runs -/

theorem world_of_eq (o : Option World) (h : o.isSome = true) : o = some (world_of o) := by
  cases o with
  | none => simp at h
  | some w => rfl

theorem step_reachable (fuel : Nat) (op : Op) (w w1 : World) (hw : Reachable w)
    (h : step fuel w op = some w1) : Reachable w1 := by
  cases op with
  | put k v =>
    simp only [step, Option.map_eq_some'] at h
    obtain ⟨⟨b, w2⟩, h1, h2⟩ := h
    simp only at h2
    subst h2
    exact Reachable.put w fuel k v b w2 hw h1
  | pop k =>
    simp only [step, Option.some.injEq] at h
    subst h
    exact Reachable.pop w k hw
  | delete k =>
    simp only [step, Option.some.injEq] at h
    subst h
    exact Reachable.delete w k hw

theorem run_reachable (fuel : Nat) : ∀ ops w w1, Reachable w → run fuel ops w = some w1 →
    Reachable w1 := by
  intro ops
  induction ops with
  | nil =>
    intro w w1 hw h
    simp only [run, Option.some.injEq] at h
    subst h; exact hw
  | cons op ops ih =>
    intro w w1 hw h
    simp only [run, Option.bind_eq_some] at h
    obtain ⟨w2, h1, h2⟩ := h
    exact ih w2 w1 (step_reachable fuel op w w2 hw h1) h2

theorem after_reachable (fuel : Nat) (ops : List Op) (h : (after fuel ops).isSome = true) :
    Reachable (world_of (after fuel ops)) := by
  have h1 := world_of_eq _ h
  generalize world_of (after fuel ops) = w1 at h1
  unfold after at h1
  simp only [Option.bind_eq_some] at h1
  obtain ⟨w0, h0, hrun⟩ := h1
  exact run_reachable fuel ops w0 w1 (Reachable.create true [] w0 h0) hrun

theorem demo_reachable : Reachable demo := after_reachable 1 _ (by decide)

/-! ## Lookups of absent keys and the removal frame -/

theorem lookup_lt_or (d : dictionary_t) (key : Key) (pos : Nat) (hcap : 0 < d.capacity) :
    get_keys_matching_index_in_neighborhood d key pos = d.capacity ∨
      get_keys_matching_index_in_neighborhood d key pos < d.capacity := by
  unfold get_keys_matching_index_in_neighborhood
  generalize d.bitmap pos = x
  generalize (32 : Nat) = fuel
  induction fuel generalizing x with
  | zero => left; rfl
  | succ fuel ih =>
    unfold get_keys_loop
    by_cases h0 : x = 0
    · simp [h0]
    · by_cases h1 : x &&& neg32 x = 0
      · simp [h0, h1]
      · by_cases h2 : (d.elements ((pos + clz32 (x &&& neg32 x)) % d.capacity)).key = some key
        · simp only [h0, h1, h2, if_false, if_true]
          right; exact Nat.mod_lt _ hcap
        · simp only [h0, h1, h2, if_false]
          exact ih _

/-- A key that no slot holds is not found. -/
theorem lookup_absent (d : dictionary_t) (key : Key) (pos : Nat) (hcap : 0 < d.capacity)
    (h : ∀ i, i < d.capacity → (d.elements i).key ≠ some key) :
    get_keys_matching_index_in_neighborhood d key pos = d.capacity := by
  by_contra hne
  rcases lookup_lt_or d key pos hcap with h1 | h1
  · exact hne h1
  · exact h _ h1 (lookup_key d key pos hne)

theorem get_eq (d : dictionary_t) (key : Key) :
    dictionary_get d key =
      if get_keys_matching_index_in_neighborhood d key (murmur_hash key SEED % d.capacity)
          = d.capacity then (0, true)
      else ((d.elements (get_keys_matching_index_in_neighborhood d key
        (murmur_hash key SEED % d.capacity))).value, false) := rfl

theorem contains_eq (d : dictionary_t) (key : Key) :
    dictionary_contains d key =
      if get_keys_matching_index_in_neighborhood d key (murmur_hash key SEED % d.capacity)
          = d.capacity then false else true := rfl

/-- Removing a key does not change the lookup of another key. -/
theorem lookup_popped (d : dictionary_t) (k k1 : Key) (pos1 : Nat) (ht : TypeOK d)
    (hne : k1 ≠ k) (hp1 : pos1 < d.capacity)
    (hfound : get_keys_matching_index_in_neighborhood d k (murmur_hash k SEED % d.capacity)
      ≠ d.capacity) :
    get_keys_matching_index_in_neighborhood
        (popped d (murmur_hash k SEED % d.capacity)
          (get_keys_matching_index_in_neighborhood d k (murmur_hash k SEED % d.capacity)))
        k1 pos1 =
      get_keys_matching_index_in_neighborhood d k1 pos1 := by
  have hcpos := (TypeOK_pos ht)
  have hc32 := (TypeOK_ge ht)
  obtain ⟨n0, hn0, hidx, _, hk0, _⟩ := lookup_some d k _ (ht.bitmap_lt _) hfound
  have hpos : murmur_hash k SEED % d.capacity < d.capacity := Nat.mod_lt _ hcpos
  generalize hposdef : murmur_hash k SEED % d.capacity = pos at *
  generalize hidxdef : get_keys_matching_index_in_neighborhood d k pos = idx at *
  have hoff : (idx + d.capacity - pos) % d.capacity = n0 := by
    rw [hidx]; exact offset_of_slot pos n0 d.capacity hpos (by omega)
  refine lookup_congr d (popped d pos idx) k1 pos1 (ht.bitmap_lt _)
    ((popped_TypeOK d pos idx ht).bitmap_lt _) rfl hcpos ?_
  intro n hn
  have hkey : key_at (popped d pos idx) pos1 n =
      if (pos1 + n) % d.capacity = idx then none else key_at d pos1 n := by
    unfold key_at popped
    simp only
    by_cases hs : (pos1 + n) % d.capacity = idx
    · rw [hs, store_same]; simp
    · rw [store_other _ _ _ _ hs]; simp [hs]
  by_cases hs : (pos1 + n) % d.capacity = idx
  · have hk : key_at d pos1 n = some k := by
      unfold key_at at hk0 ⊢; rw [hs, hidx]; exact hk0
    rw [hkey, if_pos hs, hk]
    constructor
    · rintro ⟨_, h⟩
      simp only [Option.some.injEq] at h
      exact absurd h.symm hne
    · rintro ⟨_, h⟩; simp at h
  · rw [hkey, if_neg hs]
    have hcl : claimed (popped d pos idx) pos1 n ↔ claimed d pos1 n := by
      unfold claimed popped
      simp only
      by_cases hpp : pos1 = pos
      · subst hpp
        rw [update_bitmap_clear_testBit _ _ _ _ (ht.bitmap_lt _), hoff]
        have hnn : n ≠ n0 := by
          intro h; subst h; exact hs hidx.symm
        have : 31 - n ≠ 31 - n0 := by omega
        simp [this]
      · rw [update_bitmap_other _ _ _ _ _ hpp]
    rw [hcl]

/-! ## Lookups, removal frame, free-slot scan, displacement and invariants -/

/-- C7: for every dictionary state and every key `k` that no occupied slot
holds, `dictionary_get` and `dictionary_pop` return `NULL` with `err = true`,
`dictionary_delete` returns `false`, `dictionary_contains` returns `false`,
and neither removal changes the world: slots, bitmap, size, capacity and the
log of destructor calls are the ones before the call. -/
theorem absent_key_not_found (w : World) (k : Key) (hcap : 0 < w.dic.capacity)
    (habs : ∀ i, i < w.dic.capacity → (w.dic.elements i).key ≠ some k) :
    dictionary_get w.dic k = (0, true) ∧
      dictionary_pop w k = ((0, true), w) ∧
      dictionary_delete w k = (false, w) ∧
      dictionary_contains w.dic k = false := by
  have h := lookup_absent w.dic k (murmur_hash k SEED % w.dic.capacity) hcap habs
  have hpop : dictionary_pop w k = ((0, true), w) := by
    rcases pop_spec w k with ⟨_, h1⟩ | ⟨h1, _⟩
    · exact h1
    · exact absurd h h1
  refine ⟨by rw [get_eq, if_pos h], hpop, ?_, by rw [contains_eq, if_pos h]⟩
  unfold dictionary_delete
  rw [hpop]

theorem absent_key_not_found_witness :
    0 < demo.dic.capacity ∧
      (∀ i, i < demo.dic.capacity → (demo.dic.elements i).key ≠ some [98]) ∧
      dictionary_get demo.dic [98] = (0, true) ∧
      dictionary_pop demo [98] = ((0, true), demo) ∧
      dictionary_delete demo [98] = (false, demo) ∧
      dictionary_contains demo.dic [98] = false :=
  ⟨by decide!, by decide!, absent_key_not_found demo [98] (by decide!) (by decide!)⟩

/-- C19: removal frame. For every well-typed dictionary state (the bitmap
need not match the slots) and all keys `k1 ≠ k`, `dictionary_get k1` and
`dictionary_contains k1` return the same after `dictionary_pop k` and after
`dictionary_delete k` as before, and the capacity is unchanged. -/
theorem removal_frame (w : World) (k k1 : Key) (ht : TypeOK w.dic) (hne : k1 ≠ k) :
    dictionary_get (dictionary_pop w k).2.dic k1 = dictionary_get w.dic k1 ∧
      dictionary_contains (dictionary_pop w k).2.dic k1 = dictionary_contains w.dic k1 ∧
      dictionary_get (dictionary_delete w k).2.dic k1 = dictionary_get w.dic k1 ∧
      dictionary_contains (dictionary_delete w k).2.dic k1 = dictionary_contains w.dic k1 ∧
      (dictionary_pop w k).2.dic.capacity = w.dic.capacity ∧
      (dictionary_delete w k).2.dic.capacity = w.dic.capacity := by
  rw [(delete_dic w k).1]
  suffices h : dictionary_get (dictionary_pop w k).2.dic k1 = dictionary_get w.dic k1 ∧
      dictionary_contains (dictionary_pop w k).2.dic k1 = dictionary_contains w.dic k1 ∧
      (dictionary_pop w k).2.dic.capacity = w.dic.capacity from
    ⟨h.1, h.2.1, h.1, h.2.1, h.2.2, h.2.2⟩
  rcases pop_spec w k with ⟨_, h1⟩ | ⟨hfound, h1⟩
  · rw [h1]; exact ⟨rfl, rfl, rfl⟩
  · rw [h1]
    simp only
    have hcpos := (TypeOK_pos ht)
    have hl := lookup_popped w.dic k k1 (murmur_hash k1 SEED % w.dic.capacity) ht hne
      (Nat.mod_lt _ hcpos) hfound
    have hcap : (popped w.dic (murmur_hash k SEED % w.dic.capacity)
        (get_keys_matching_index_in_neighborhood w.dic k
          (murmur_hash k SEED % w.dic.capacity))).capacity = w.dic.capacity := rfl
    refine ⟨?_, ?_, hcap⟩
    · rw [get_eq, get_eq, hcap, hl]
      by_cases hr : get_keys_matching_index_in_neighborhood w.dic k1
          (murmur_hash k1 SEED % w.dic.capacity) = w.dic.capacity
      · rw [if_pos hr, if_pos hr]
      · rw [if_neg hr, if_neg hr]
        have hk1 := lookup_key w.dic k1 _ hr
        have hk := lookup_key w.dic k _ hfound
        have hidx : get_keys_matching_index_in_neighborhood w.dic k1
            (murmur_hash k1 SEED % w.dic.capacity) ≠
            get_keys_matching_index_in_neighborhood w.dic k
              (murmur_hash k SEED % w.dic.capacity) := by
          intro h
          rw [h, hk] at hk1
          simp only [Option.some.injEq] at hk1
          exact hne hk1.symm
        unfold popped
        simp only
        rw [store_other _ _ _ _ hidx]
    · rw [contains_eq, contains_eq, hcap, hl]

theorem removal_frame_witness :
    TypeOK demo.dic ∧ ([98] : Key) ≠ [97] ∧
      dictionary_get (dictionary_pop demo [97]).2.dic [98] = dictionary_get demo.dic [98] ∧
      dictionary_contains (dictionary_pop demo [97]).2.dic [98]
        = dictionary_contains demo.dic [98] ∧
      dictionary_get (dictionary_delete demo [97]).2.dic [98] = dictionary_get demo.dic [98] ∧
      dictionary_contains (dictionary_delete demo [97]).2.dic [98]
        = dictionary_contains demo.dic [98] ∧
      (dictionary_pop demo [97]).2.dic.capacity = demo.dic.capacity ∧
      (dictionary_delete demo [97]).2.dic.capacity = demo.dic.capacity :=
  ⟨(reachable_inv demo demo_reachable).1, by decide,
    removal_frame demo [97] [98] (reachable_inv demo demo_reachable).1 (by decide)⟩

/-- C15 (as stated, refuted): on the table fresh from `dictionary_create`,
`return_free_index_in_neighborhood` for bucket `0` returns offset `31`
although offset `0` has a zero bit and an empty slot too: the offset returned
is not the smallest one. -/
theorem free_index_not_smallest :
    return_free_index_in_neighborhood (world_of (after 1 [])).dic 0 = 31 ∧
      free_at (world_of (after 1 [])).dic 0 0 := by
  constructor
  · decide
  · unfold free_at claimed; decide

/-- C15 (amended): for every well-typed dictionary state and bucket `pos`,
`return_free_index_in_neighborhood pos` returns the largest offset `k` in
`[0, 32)` such that bit `31 - k` of `bitmap[pos]` is zero and the slot at
`(pos + k) % capacity` is empty (the scan goes from the lowest set bit of the
complement up, that is from offset 31 down), and it returns the sentinel
`capacity` exactly when no such offset exists. -/
theorem free_index_largest (d : dictionary_t) (pos : Nat) (ht : TypeOK d) :
    (return_free_index_in_neighborhood d pos = d.capacity ↔
        ∀ n, n < 32 → ¬ free_at d pos n) ∧
      (return_free_index_in_neighborhood d pos ≠ d.capacity →
        return_free_index_in_neighborhood d pos < 32 ∧
        free_at d pos (return_free_index_in_neighborhood d pos) ∧
        ∀ m, return_free_index_in_neighborhood d pos < m → m < 32 → ¬ free_at d pos m) := by
  have hc := (TypeOK_ge ht)
  rcases free_spec d pos (ht.bitmap_lt _) with ⟨h1, h2⟩ | ⟨h1, h2, h3⟩
  · exact ⟨⟨fun _ => h2, fun _ => h1⟩, fun h => absurd h1 h⟩
  · refine ⟨⟨fun h => by omega, fun h => absurd h2 (h _ h1)⟩, fun _ => ⟨h1, h2, h3⟩⟩

theorem free_index_largest_witness :
    TypeOK demo.dic ∧
      (return_free_index_in_neighborhood demo.dic 265 = demo.dic.capacity ↔
        ∀ n, n < 32 → ¬ free_at demo.dic 265 n) ∧
      (return_free_index_in_neighborhood demo.dic 265 ≠ demo.dic.capacity →
        return_free_index_in_neighborhood demo.dic 265 < 32 ∧
        free_at demo.dic 265 (return_free_index_in_neighborhood demo.dic 265) ∧
        ∀ m, return_free_index_in_neighborhood demo.dic 265 < m → m < 32 →
          ¬ free_at demo.dic 265 m) :=
  ⟨(reachable_inv demo demo_reachable).1,
    free_index_largest demo.dic 265 (reachable_inv demo demo_reachable).1⟩

/-- C11: neighbourhood range invariant. In every world reachable from
`dictionary_create` by put / pop / delete calls (puts that displace keys,
rehash or fail included), every occupied slot at index `i` whose cached hash
gives home bucket `b = hashvalue % capacity` satisfies
`(i + capacity - b) % capacity < 32`. -/
theorem neighbourhood_range_invariant (w : World) (h : Reachable w) (i : Nat)
    (hi : i < w.dic.capacity) (hocc : (w.dic.elements i).key ≠ none) :
    (i + w.dic.capacity - (w.dic.elements i).hashvalue % w.dic.capacity) % w.dic.capacity
      < 32 :=
  (reachable_inv w h).2.1 i hi hocc

theorem neighbourhood_range_invariant_witness :
    Reachable demo ∧ 296 < demo.dic.capacity ∧ (demo.dic.elements 296).key ≠ none ∧
      (296 + demo.dic.capacity - (demo.dic.elements 296).hashvalue % demo.dic.capacity)
        % demo.dic.capacity < 32 :=
  ⟨demo_reachable, by decide!, by decide!,
    neighbourhood_range_invariant demo demo_reachable 296 (by decide!) (by decide!)⟩

/-- C12: in every world reachable from `dictionary_create` the capacity is
`1024 * 2 ^ j` for some `j`, and no call of `dictionary_put`,
`dictionary_pop`, `dictionary_delete` or `rehash`, successful or failed,
yields a capacity smaller than the one before the call. -/
theorem capacity_power_of_two (w : World) (h : Reachable w) :
    (∃ j, w.dic.capacity = 1024 * 2 ^ j) ∧
      (∀ fuel key value b w1, dictionary_put fuel w key value = some (b, w1) →
        w.dic.capacity ≤ w1.dic.capacity) ∧
      (∀ key, w.dic.capacity ≤ (dictionary_pop w key).2.dic.capacity) ∧
      (∀ key, w.dic.capacity ≤ (dictionary_delete w key).2.dic.capacity) ∧
      (∀ fuel b w1, rehash (dictionary_put_with_hashvalue fuel) w = some (b, w1) →
        w.dic.capacity ≤ w1.dic.capacity) := by
  obtain ⟨ht, hr, _, hj⟩ := reachable_inv w h
  refine ⟨hj, ?_, ?_, ?_, ?_⟩
  · intro fuel key value b w1 hput
    obtain ⟨j, e⟩ := (put_basic fuel w key value _ b w1 ht hr hput).1.cap
    rw [e]; exact Nat.le_mul_of_pos_right _ (Nat.two_pow_pos j)
  · intro key; rw [(pop_basic w key ht hr).2.2.2.1]
  · intro key; rw [(delete_dic w key).1, (pop_basic w key ht hr).2.2.2.1]
  · intro fuel b w1 hrh
    obtain ⟨j, e⟩ := (rehash_basic fuel w b w1 ht hr hrh).1.cap
    rw [e]; exact Nat.le_mul_of_pos_right _ (Nat.two_pow_pos j)

theorem capacity_power_of_two_witness :
    Reachable demo ∧ (∃ j, demo.dic.capacity = 1024 * 2 ^ j) ∧
      (∀ fuel key value b w1, dictionary_put fuel demo key value = some (b, w1) →
        demo.dic.capacity ≤ w1.dic.capacity) ∧
      (∀ key, demo.dic.capacity ≤ (dictionary_pop demo key).2.dic.capacity) ∧
      (∀ key, demo.dic.capacity ≤ (dictionary_delete demo key).2.dic.capacity) ∧
      (∀ fuel b w1, rehash (dictionary_put_with_hashvalue fuel) demo = some (b, w1) →
        demo.dic.capacity ≤ w1.dic.capacity) :=
  ⟨demo_reachable, capacity_power_of_two demo demo_reachable⟩

/-- C8: `dictionary_put` fails only on allocation failure. For every
reachable world and every key, a `dictionary_put` that returns without any
allocation having failed during the call returns `true`; in particular the
two positions it can pass to `insert_element` (the free slot of the
neighbourhood and the slot `displace_keys` returns) are below `capacity` and
at an offset below 32 from the home bucket, so the two rejection branches of
`insert_element` are not taken. -/
theorem put_fails_only_on_allocation_failure (w : World) (h : Reachable w) (fuel : Nat)
    (key : Key) (value : Nat) (b : Bool) (w1 : World)
    (hput : dictionary_put fuel w key value = some (b, w1))
    (hno : w1.failures = w.failures) :
    b = true ∧
      (return_free_index_in_neighborhood w.dic (murmur_hash key SEED % w.dic.capacity)
          ≠ w.dic.capacity →
        (murmur_hash key SEED % w.dic.capacity +
            return_free_index_in_neighborhood w.dic (murmur_hash key SEED % w.dic.capacity))
          % w.dic.capacity < w.dic.capacity ∧
        ((murmur_hash key SEED % w.dic.capacity +
            return_free_index_in_neighborhood w.dic (murmur_hash key SEED % w.dic.capacity))
          % w.dic.capacity + w.dic.capacity - murmur_hash key SEED % w.dic.capacity)
          % w.dic.capacity < HOP_RANGE) ∧
      (∀ r d1, displace_keys w.dic (murmur_hash key SEED % w.dic.capacity) = some (r, d1) →
        r ≠ d1.capacity →
        r < d1.capacity ∧
          (r + d1.capacity - murmur_hash key SEED % d1.capacity) % d1.capacity
            < HOP_RANGE) := by
  obtain ⟨ht, hr, _, _⟩ := reachable_inv w h
  have hcpos := (TypeOK_pos ht)
  have hc32 := (TypeOK_ge ht)
  have hp : murmur_hash key SEED % w.dic.capacity < w.dic.capacity := Nat.mod_lt _ hcpos
  refine ⟨?_, ?_, ?_⟩
  · have hB := (put_basic fuel w key value _ b w1 ht hr hput).1
    cases b with
    | true => rfl
    | false => have := hB.fail_lt rfl; omega
  · intro hne
    rcases free_spec w.dic (murmur_hash key SEED % w.dic.capacity) (ht.bitmap_lt _) with
      ⟨h1, _⟩ | ⟨h1, _, _⟩
    · exact absurd h1 hne
    · refine ⟨Nat.mod_lt _ hcpos, ?_⟩
      rw [offset_of_slot _ _ _ hp (by omega)]
      exact h1
  · intro r d1 hd hne
    obtain ⟨r2, d2, hd2, hD, hpost⟩ := displace_keys_spec w.dic _ hc32 hp
    rw [hd] at hd2
    simp only [Option.some.injEq, Prod.mk.injEq] at hd2
    obtain ⟨e1, e2⟩ := hd2
    subst e1; subst e2
    rcases hpost with h1 | ⟨h1, h2, _⟩
    · exact absurd h1 hne
    · rw [hD.capacity] at h2 ⊢
      rw [hD.capacity] at h1
      exact ⟨h1, h2⟩

theorem put_fails_only_on_allocation_failure_witness :
    Reachable demo ∧
      ∃ b w1, dictionary_put 1 demo [98] 7 = some (b, w1) ∧ w1.failures = demo.failures ∧
        b = true := by
  refine ⟨demo_reachable, ?_⟩
  have h1 : (dictionary_put 1 demo [98] 7).map (fun r => r.2.failures)
      = some demo.failures := by decide!
  obtain ⟨⟨b, w1⟩, hput, hf⟩ := Option.map_eq_some'.mp h1
  exact ⟨b, w1, hput, hf,
    (put_fails_only_on_allocation_failure demo demo_reachable 1 [98] 7 b w1 hput hf).1⟩

/-! ## What a successful put achieves -/

theorem holds_iff_entries (d : dictionary_t) (k : Key) :
    holds d k ↔ ∃ t, t ∈ entries d ∧ t.1 = k := by
  unfold holds entries
  constructor
  · rintro ⟨i, hi, hk⟩
    exact ⟨(k, (d.elements i).value, (d.elements i).hashvalue),
      (mem_entries_below _ _ _).mpr ⟨i, hi, hk, rfl, rfl⟩, rfl⟩
  · rintro ⟨t, ht, hk⟩
    obtain ⟨i, hi, h1, _, _⟩ := (mem_entries_below _ _ _).mp ht
    exact ⟨i, hi, by rw [h1, hk]⟩

theorem insert_element_true (w : World) (pos hashvalue value : Nat) (key : Key) (w1 : World)
    (hpos : pos < w.dic.capacity)
    (hn : (pos + w.dic.capacity - hashvalue % w.dic.capacity) % w.dic.capacity < HOP_RANGE)
    (h : (true, w1) = insert_element w pos hashvalue value key) :
    w1.dic = inserted w.dic pos hashvalue value key ∧ w1.destroyed = w.destroyed ∧
      w1.failures = w.failures := by
  rcases insert_element_spec w pos hashvalue value key hpos hn with
    ⟨h1, _⟩ | ⟨_, h2, h3, h4⟩
  · rw [← h] at h1; simp at h1
  · rw [← h] at h2 h3 h4
    exact ⟨h2, h3, h4⟩

theorem inserted_entries (d : dictionary_t) (s hashvalue value : Nat) (key : Key)
    (hs : s < d.capacity) (hempty : (d.elements s).key = none) :
    entries (inserted d s hashvalue value key) = entries d + {(key, value, hashvalue)} := by
  unfold entries inserted
  simp only
  have := entries_below_store d.elements s ⟨some key, value, hashvalue⟩ d.capacity hs
  rw [Element.entry_none _ hempty, add_zero] at this
  rw [this]
  rfl

theorem count_le_capacity (d : dictionary_t) : count_occupied d ≤ d.capacity :=
  count_below_le _ _

theorem inserted_SizeOK (d : dictionary_t) (s hashvalue value : Nat) (key : Key)
    (ht : TypeOK d) (hs : s < d.capacity) (hempty : (d.elements s).key = none)
    (h : SizeOK d) : SizeOK (inserted d s hashvalue value key) := by
  unfold SizeOK at h ⊢
  have he := inserted_entries d s hashvalue value key hs hempty
  have hc : count_occupied (inserted d s hashvalue value key) = count_occupied d + 1 := by
    rw [count_occupied_eq_card, count_occupied_eq_card, he]
    simp
  have hle := count_le_capacity (inserted d s hashvalue value key)
  have hcap := ht.cap_lt
  unfold sizeof_Element at hcap
  have hcc : (inserted d s hashvalue value key).capacity = d.capacity := rfl
  rw [hc]
  show u64 (d.size + 1) = count_occupied d + 1
  unfold u64
  rw [h, Nat.mod_eq_of_lt (by omega)]

theorem inserted_holds (d : dictionary_t) (s hashvalue value : Nat) (key : Key)
    (hs : s < d.capacity) (hempty : (d.elements s).key = none) (k : Key) :
    holds (inserted d s hashvalue value key) k ↔ (holds d k ∨ k = key) := by
  rw [holds_iff_entries, holds_iff_entries, inserted_entries d s hashvalue value key hs hempty]
  constructor
  · rintro ⟨t, ht, hk⟩
    rw [Multiset.mem_add] at ht
    rcases ht with ht | ht
    · left; exact ⟨t, ht, hk⟩
    · right
      simp only [Multiset.mem_singleton] at ht
      rw [← hk, ht]
  · rintro (⟨t, ht, hk⟩ | hk)
    · exact ⟨t, Multiset.mem_add.mpr (Or.inl ht), hk⟩
    · exact ⟨(key, value, hashvalue), Multiset.mem_add.mpr (Or.inr (by simp)), hk.symm⟩

/-- After an insertion at offset `n` of the home bucket, into an empty slot
and with no claimed slot of the bucket holding the key, the lookup of the key
returns the slot written. -/
theorem inserted_found (d : dictionary_t) (home n value h : Nat) (key : Key) (ht : TypeOK d)
    (hh : h % d.capacity = home) (hn : n < 32)
    (hnone : ∀ m, m < 32 → claimed d home m → key_at d home m ≠ some key) :
    get_keys_matching_index_in_neighborhood
        (inserted d ((home + n) % d.capacity) h value key) key home
      = (home + n) % d.capacity := by
  have hcpos := TypeOK_pos ht
  have hc32 := TypeOK_ge ht
  have hhome : home < d.capacity := by rw [← hh]; exact Nat.mod_lt _ hcpos
  have hoff : ((home + n) % d.capacity + d.capacity - home) % d.capacity = n :=
    offset_of_slot home n d.capacity hhome (by omega)
  have hcap : (inserted d ((home + n) % d.capacity) h value key).capacity = d.capacity := rfl
  have hbm : ∀ b, (inserted d ((home + n) % d.capacity) h value key).bitmap b < 2 ^ 32 := by
    intro b
    show update_bitmap d.bitmap _ _ true b < 2 ^ 32
    exact update_bitmap_lt _ _ _ _ ht.bitmap_lt b
  have hcl : ∀ m, m < 32 →
      (claimed (inserted d ((home + n) % d.capacity) h value key) home m ↔
        (claimed d home m ∨ m = n)) := by
    intro m hm
    unfold claimed inserted
    simp only
    rw [hh, hoff, update_bitmap_set_testBit]
    by_cases hmn : m = n
    · subst hmn; simp
    · have : ¬ 31 - m = 31 - n := by omega
      simp [hmn, this]
  have hka : ∀ m, m < 32 →
      key_at (inserted d ((home + n) % d.capacity) h value key) home m =
        if m = n then some key else key_at d home m := by
    intro m hm
    unfold key_at inserted
    simp only
    by_cases hmn : m = n
    · subst hmn; rw [store_same]; simp
    · have : (home + m) % d.capacity ≠ (home + n) % d.capacity := by
        intro h1
        exact hmn (slot_inj home m n d.capacity hhome (by omega) (by omega) h1)
      rw [store_other _ _ _ _ this]; simp [hmn]
  rcases lookup_spec (inserted d ((home + n) % d.capacity) h value key) key home (hbm _) with
    ⟨_, h2⟩ | ⟨m, hm, h1, h2, h3, _⟩
  · exact absurd (by rw [hka n hn]; simp) (h2 n hn ((hcl n hn).mpr (Or.inr rfl)))
  · rw [h1, hcap]
    by_cases hmn : m = n
    · rw [hmn]
    · rw [hka m hm, if_neg hmn] at h3
      rcases (hcl m hm).mp h2 with hc | hc
      · exact absurd h3 (hnone m hm hc)
      · exact absurd hc hmn

theorem inserted_value (d : dictionary_t) (s value h : Nat) (key : Key) :
    ((inserted d s h value key).elements s).value = value := by
  unfold inserted
  simp only
  rw [store_same]

/-- The entries of a fresh table: none. -/
theorem entries_below_zero (n : Nat) : entries_below (fun _ => Element.zero) n = 0 := by
  induction n with
  | zero => rfl
  | succ n ih => simp only [entries_below, ih]; rfl

theorem SizeOK_fresh (d : dictionary_t) : SizeOK (fresh d) := by
  unfold SizeOK
  rw [count_occupied_eq_card]
  unfold entries fresh
  simp only
  rw [entries_below_zero]
  rfl

theorem overwritten_entries_keys (d : dictionary_t) (idx value : Nat) (hi : idx < d.capacity) :
    (entries { d with
        elements := store d.elements idx { d.elements idx with value := value } }).map
          (fun t => t.1)
      = (entries d).map (fun t => t.1) := by
  unfold entries
  simp only
  have := entries_below_store d.elements idx { d.elements idx with value := value }
    d.capacity hi
  have h2 := congrArg (Multiset.map (fun t : Key × Nat × Nat => t.1)) this
  rw [Multiset.map_add, Multiset.map_add] at h2
  have h3 : Multiset.map (fun t : Key × Nat × Nat => t.1)
      ({ d.elements idx with value := value } : Element).entry =
      Multiset.map (fun t : Key × Nat × Nat => t.1) (d.elements idx).entry := by
    unfold Element.entry
    cases hk : (d.elements idx).key <;> simp
  rw [h3] at h2
  exact add_right_cancel h2

theorem holds_iff_keys (d : dictionary_t) (k : Key) :
    holds d k ↔ k ∈ (entries d).map (fun t => t.1) := by
  rw [holds_iff_entries, Multiset.mem_map]

theorem count_eq_card_keys (d : dictionary_t) :
    count_occupied d = Multiset.card ((entries d).map (fun t => t.1)) := by
  rw [count_occupied_eq_card, Multiset.card_map]

theorem success_overwrite (w : World) (key : Key) (value pos : Nat) (ht : TypeOK w.dic)
    (hf : get_keys_matching_index_in_neighborhood w.dic key pos ≠ w.dic.capacity) :
    Success w (overwritten w (get_keys_matching_index_in_neighborhood w.dic key pos) value)
      key value pos := by
  have hcpos := TypeOK_pos ht
  have hlt := lookup_lt w.dic key pos (ht.bitmap_lt _) hcpos hf
  generalize hidx : get_keys_matching_index_in_neighborhood w.dic key pos = idx at *
  have hd := overwritten_dic w idx value
  have hl : get_keys_matching_index_in_neighborhood (overwritten w idx value).dic key pos
      = idx := by
    have hc := lookup_congr w.dic (overwritten w idx value).dic key pos (ht.bitmap_lt _)
      (by rw [hd]; exact ht.bitmap_lt _) (by rw [hd]) hcpos (by
        intro n _
        have : key_at (overwritten w idx value).dic pos n = key_at w.dic pos n := by
          unfold key_at
          rw [hd]
          simp only
          by_cases hs : (pos + n) % w.dic.capacity = idx
          · rw [hs, store_same]
          · rw [store_other _ _ _ _ hs]
        rw [this]
        have hcl : claimed (overwritten w idx value).dic pos n ↔ claimed w.dic pos n := by
          unfold claimed; rw [hd]
        rw [hcl])
    rw [hc]; exact hidx
  have hkeys := overwritten_entries_keys w.dic idx value hlt
  refine ⟨?_, ?_, ?_, ?_⟩
  · rw [hl, hd]; exact hf
  · rw [hl, hd]; simp only; rw [store_same]
  · intro k hk
    rw [holds_iff_keys] at hk ⊢
    rw [hd, hkeys]; exact hk
  · intro hs
    unfold SizeOK at hs ⊢
    rw [count_eq_card_keys] at hs ⊢
    rw [hd, hkeys]
    exact hs

theorem success_insert (w wd w1 : World) (key : Key) (value h n : Nat) (ht : TypeOK wd.dic)
    (hn : n < 32) (hempty : key_at wd.dic (h % wd.dic.capacity) n = none)
    (hnone : ∀ m, m < 32 → claimed wd.dic (h % wd.dic.capacity) m →
      key_at wd.dic (h % wd.dic.capacity) m ≠ some key)
    (hkeep : ∀ k, holds w.dic k → holds wd.dic k) (hsize : SizeOK w.dic → SizeOK wd.dic)
    (hins : (true, w1) = insert_element wd
      ((h % wd.dic.capacity + n) % wd.dic.capacity) h value key) :
    Success w w1 key value (h % wd.dic.capacity) := by
  have hcpos := TypeOK_pos ht
  have hc32 := TypeOK_ge ht
  have hp : h % wd.dic.capacity < wd.dic.capacity := Nat.mod_lt _ hcpos
  have hslot : (h % wd.dic.capacity + n) % wd.dic.capacity < wd.dic.capacity :=
    Nat.mod_lt _ hcpos
  have hoff := offset_of_slot (h % wd.dic.capacity) n wd.dic.capacity hp (by omega)
  obtain ⟨hd, _, _⟩ := insert_element_true wd _ h value key w1 hslot
    (by rw [hoff]; exact hn) hins
  have hfound := inserted_found wd.dic (h % wd.dic.capacity) n value h key ht rfl hn hnone
  unfold key_at at hempty
  refine ⟨?_, ?_, ?_, ?_⟩
  · rw [hd, hfound]
    show (h % wd.dic.capacity + n) % wd.dic.capacity ≠ wd.dic.capacity
    omega
  · rw [hd, hfound]; exact inserted_value _ _ _ _ _
  · intro k hk
    rw [hd, inserted_holds _ _ _ _ _ hslot hempty]
    exact Or.inl (hkeep k hk)
  · intro hs
    rw [hd]
    exact inserted_SizeOK _ _ _ _ _ ht hslot hempty (hsize hs)

theorem Success_holds {w w1 : World} {key : Key} {value pos1 : Nat} (ht : TypeOK w1.dic)
    (h : Success w w1 key value pos1) : holds w1.dic key :=
  ⟨_, lookup_lt w1.dic key pos1 (ht.bitmap_lt _) (TypeOK_pos ht) h.found,
    lookup_key w1.dic key pos1 h.found⟩

/-- What a successful `rehash` guarantees, given what the puts it makes
guarantee. -/
theorem rehash_success_of (fuel : Nat)
    (ih : ∀ w key value h w1, TypeOK w.dic → Range w.dic → HashOK w.dic →
      h = murmur_hash key SEED →
      dictionary_put_with_hashvalue fuel w key value h = some (true, w1) →
      Success w w1 key value (h % w1.dic.capacity)) :
    ∀ w w1, TypeOK w.dic → Range w.dic → HashOK w.dic →
      rehash (dictionary_put_with_hashvalue fuel) w = some (true, w1) →
      (∀ k, holds w.dic k → holds w1.dic k) ∧ SizeOK w1.dic := by
  intro w w1 ht hr hh hrh
  rcases rehash_cases _ _ _ _ hrh with ⟨hb, _⟩ | ⟨hc, wa, w3, ha1, _, _, hl⟩
  · simp at hb
  · rcases hl with ⟨hb, _⟩ | ⟨_, hloop⟩
    · simp at hb
    · have hind := rehash_loop_ind (dictionary_put_with_hashvalue fuel) w.dic.elements
        w.dic.capacity
        (fun i x => TypeOK x.dic ∧ Range x.dic ∧ HashOK x.dic ∧ SizeOK x.dic ∧
          ∀ j k, j < i → (w.dic.elements j).key = some k → holds x.dic k)
        (fun _ => True)
        (fun i x _ hJ hk => by
          refine ⟨hJ.1, hJ.2.1, hJ.2.2.1, hJ.2.2.2.1, ?_⟩
          intro j k hj hjk
          by_cases hji : j = i
          · subst hji; rw [hk] at hjk; simp at hjk
          · exact hJ.2.2.2.2 j k (by omega) hjk)
        (fun i x k x1 hi hJ hk hp1 => by
          have hm := hh i k hi hk
          have hB := put_basic fuel x k _ _ true x1 hJ.1 hJ.2.1 hp1
          have hS := ih x k _ _ x1 hJ.1 hJ.2.1 hJ.2.2.1 hm hp1
          refine ⟨hB.1.typeok, hB.1.range, hB.2 hJ.2.2.1 hm, hS.size hJ.2.2.2.1, ?_⟩
          intro j k1 hj hjk
          by_cases hji : j = i
          · subst hji
            rw [hk] at hjk
            simp only [Option.some.injEq] at hjk
            subst hjk
            exact Success_holds hB.1.typeok hS
          · exact hS.keeps k1 (hJ.2.2.2.2 j k1 (by omega) hjk))
        (fun _ _ _ _ _ _ _ _ => trivial)
        w.dic.capacity 0 wa true w1 (by omega)
        ⟨by rw [ha1]; exact TypeOK_fresh w.dic ht hc, by rw [ha1]; exact Range_fresh w.dic,
          by rw [ha1]; exact HashOK_fresh w.dic, by rw [ha1]; exact SizeOK_fresh w.dic,
          fun j k hj _ => by omega⟩ hloop
      have hJ := hind.1 rfl
      refine ⟨?_, hJ.2.2.2.1⟩
      rintro k ⟨j, hj, hjk⟩
      exact hJ.2.2.2.2 j k (by omega) hjk

/-- A put that returns `true` leaves the key found with the value put, loses
no key and keeps the size equal to the number of occupied slots. -/
theorem put_success : ∀ fuel w key value h w1, TypeOK w.dic → Range w.dic → HashOK w.dic →
    h = murmur_hash key SEED →
    dictionary_put_with_hashvalue fuel w key value h = some (true, w1) →
    Success w w1 key value (h % w1.dic.capacity) := by
  intro fuel
  induction fuel with
  | zero => intro w key value h w1 _ _ _ _ hput; simp [dictionary_put_with_hashvalue] at hput
  | succ fuel ih =>
    intro w key value h w1 ht hr hh hmur hput
    have hcpos := TypeOK_pos ht
    have hc32 := TypeOK_ge ht
    have hp : h % w.dic.capacity < w.dic.capacity := Nat.mod_lt _ hcpos
    have hB := (put_basic (fuel + 1) w key value h true w1 ht hr hput).1
    rcases put_cases fuel w key value h true w1 hput with
      ⟨hf, _, hw⟩ | ⟨hnf, hfree, hins⟩ | ⟨hnf, _, r, d1, hdisp, hrest⟩
    · -- overwrite
      have := success_overwrite w key value (h % w.dic.capacity) ht hf
      rw [← hw] at this
      have hcap : w1.dic.capacity = w.dic.capacity := by
        rw [hw, overwritten_dic]
      rw [hcap]; exact this
    · -- free slot of the neighbourhood
      rcases free_spec w.dic (h % w.dic.capacity) (ht.bitmap_lt _) with ⟨h1, _⟩ | ⟨h1, h2, _⟩
      · exact absurd h1 hfree
      · have := success_insert w w w1 key value h _ ht h1 h2.2
          (lookup_none w.dic key _ (ht.bitmap_lt _) hcpos hnf) (fun _ hk => hk) (fun hs => hs)
          hins
        have hcap : w1.dic.capacity = w.dic.capacity := by
          have hoff := offset_of_slot (h % w.dic.capacity)
            (return_free_index_in_neighborhood w.dic (h % w.dic.capacity)) w.dic.capacity hp
            (by omega)
          rw [(insert_element_true w _ h value key w1 (Nat.mod_lt _ hcpos)
            (by rw [hoff]; exact h1) hins).1]
          rfl
        rw [hcap]; exact this
    · obtain ⟨r2, d2, hd2, hD, hpost⟩ := displace_keys_spec w.dic (h % w.dic.capacity) hc32 hp
      rw [hdisp] at hd2
      simp only [Option.some.injEq, Prod.mk.injEq] at hd2
      obtain ⟨e1, e2⟩ := hd2
      subst e1; subst e2
      have ht1 : TypeOK d1 := TypeOK_of w.dic d1 hD.capacity (hD.bitmap_lt ht.bitmap_lt) ht
      have hr1 : Range d1 := hD.range hr
      have hh1 : HashOK d1 := hD.hashok hh
      have hkeep1 : ∀ k, holds w.dic k → holds d1 k := by
        intro k hk
        rw [holds_iff_entries] at hk ⊢
        rw [hD.entries]; exact hk
      have hsize1 : SizeOK w.dic → SizeOK d1 := by
        intro hs
        unfold SizeOK at hs ⊢
        rw [count_occupied_eq_card] at hs ⊢
        rw [hD.size, hD.entries]; exact hs
      rcases hrest with ⟨hne, hins⟩ | ⟨_, hgrow⟩
      · -- slot found by displacement
        rcases hpost with h1 | ⟨h1, h2, h3⟩
        · rw [hD.capacity] at h1; exact absurd h1 hne
        · have hslot := slot_of_offset r (h % w.dic.capacity) w.dic.capacity
            (by rw [← hD.capacity]; exact h1) hp
          have hnone : ∀ m, m < 32 → claimed d1 (h % d1.capacity) m →
              key_at d1 (h % d1.capacity) m ≠ some key := by
            intro m hm hc hk
            rw [hD.capacity] at hc hk
            have hsl : (h % w.dic.capacity + m) % w.dic.capacity < w.dic.capacity :=
              Nat.mod_lt _ hcpos
            unfold key_at at hk
            rw [hD.capacity] at hk
            have hhash := hh1 _ key (by rw [hD.capacity]; exact hsl) hk
            have hsame := hD.home _ hsl (by rw [hk]; simp) (by rw [hhash, ← hmur])
            have hc0 : claimed w.dic (h % w.dic.capacity) m := by
              unfold claimed at hc ⊢
              rw [← hD.bitmap_pos]; exact hc
            refine lookup_none w.dic key _ (ht.bitmap_lt _) hcpos hnf m hm hc0 ?_
            unfold key_at
            rw [← hsame]; exact hk
          have hins' : (true, w1) = insert_element { w with dic := d1 }
              ((h % d1.capacity + (r + w.dic.capacity - h % w.dic.capacity) % w.dic.capacity)
                % d1.capacity) h value key := by
            rw [hD.capacity, hslot]; exact hins
          have := success_insert w { w with dic := d1 } w1 key value h
            ((r + w.dic.capacity - h % w.dic.capacity) % w.dic.capacity) ht1
            (by rw [hD.capacity] at h2; exact h2)
            (by
              unfold key_at
              show (d1.elements ((h % d1.capacity + _) % d1.capacity)).key = none
              rw [hD.capacity, hslot]; exact h3)
            hnone hkeep1 hsize1 hins'
          have hcap : w1.dic.capacity = d1.capacity := by
            rw [(insert_element_true { w with dic := d1 } r h value key w1 h1
              (by rw [hD.capacity] at h2 ⊢; exact h2) hins).1]
            rfl
          rw [hcap]; exact this
      · -- growth
        rcases hgrow with ⟨hb, _⟩ | ⟨w2, hrh, hretry⟩
        · simp at hb
        · have hR := rehash_basic fuel { w with dic := d1 } true w2 ht1 hr1 hrh
          have hS := rehash_success_of fuel ih { w with dic := d1 } w2 ht1 hr1 hh1 hrh
          have hX := ih w2 key value h w1 hR.1.typeok hR.1.range (hR.2.1 hh1) hmur hretry
          exact ⟨hX.found, hX.value, fun k hk => hX.keeps k (hS.1 k (hkeep1 k hk)),
            fun _ => hX.size hS.2⟩

/-! ## Round trip, overwrite and the size field -/

theorem put_overwrite (fuel : Nat) (w : World) (key : Key) (value h : Nat)
    (hf : get_keys_matching_index_in_neighborhood w.dic key (h % w.dic.capacity)
      ≠ w.dic.capacity) :
    dictionary_put_with_hashvalue (fuel + 1) w key value h =
      some (true, overwritten w
        (get_keys_matching_index_in_neighborhood w.dic key (h % w.dic.capacity)) value) := by
  unfold dictionary_put_with_hashvalue
  simp only
  rw [if_pos hf]
  rfl

theorem get_of_success {w w1 : World} {key : Key} {value : Nat}
    (h : Success w w1 key value (murmur_hash key SEED % w1.dic.capacity)) :
    dictionary_get w1.dic key = (value, false) ∧ dictionary_contains w1.dic key = true := by
  rw [get_eq, contains_eq, if_neg h.found, if_neg h.found, h.value]
  exact ⟨rfl, rfl⟩

/-- C3: put/get round trip. For every world reachable from
`dictionary_create` by put / pop / delete calls, every key `k` and value `v`,
if `dictionary_put k v` returns `true` then `dictionary_get k` on the
resulting dictionary returns `v` with `err = false` and
`dictionary_contains k` is `true`, whichever path the put took. -/
theorem put_get_round_trip (w : World) (h : Reachable w) (fuel : Nat) (key : Key)
    (value : Nat) (w1 : World) (hput : dictionary_put fuel w key value = some (true, w1)) :
    dictionary_get w1.dic key = (value, false) ∧ dictionary_contains w1.dic key = true := by
  obtain ⟨ht, hr, hh, _⟩ := reachable_inv w h
  exact get_of_success (put_success fuel w key value _ w1 ht hr hh rfl hput)

theorem put_get_round_trip_witness :
    Reachable demo ∧
      ∃ w1, dictionary_put 1 demo [98] 7 = some (true, w1) ∧
        dictionary_get w1.dic [98] = (7, false) ∧ dictionary_contains w1.dic [98] = true := by
  refine ⟨demo_reachable, ?_⟩
  have h1 : (dictionary_put 1 demo [98] 7).map (fun r => r.1) = some true := by decide!
  obtain ⟨⟨b, w1⟩, hput, hb⟩ := Option.map_eq_some'.mp h1
  simp only at hb
  subst hb
  exact ⟨w1, hput, put_get_round_trip demo demo_reachable 1 [98] 7 w1 hput⟩

/-- C4: overwrite. For every reachable world with a destructor configured,
every key `k` and non-null values `v1`, `v2`, if `dictionary_put k v1`
returns `true` and is immediately followed by `dictionary_put k v2`, the
second put returns `true`, calls the destructor exactly once, with argument
`v1`, leaves `dictionary_size` as it was after the first put, and
`dictionary_get k` then returns `v2`. -/
theorem overwrite_destroys_old_value (w : World) (h : Reachable w)
    (hdestroy : w.dic.destroy = true) (fuel fuel2 : Nat) (key : Key) (v1 v2 : Nat)
    (w1 : World) (hv1 : v1 ≠ 0) (hput : dictionary_put fuel w key v1 = some (true, w1)) :
    ∃ w2, dictionary_put (fuel2 + 1) w1 key v2 = some (true, w2) ∧
      w2.destroyed = v1 :: w1.destroyed ∧
      dictionary_size w2.dic = dictionary_size w1.dic ∧
      dictionary_get w2.dic key = (v2, false) := by
  obtain ⟨ht, hr, hh, _⟩ := reachable_inv w h
  have hS := put_success fuel w key v1 _ w1 ht hr hh rfl hput
  have hB := (put_basic fuel w key v1 _ true w1 ht hr hput).1
  have hO := success_overwrite w1 key v2 (murmur_hash key SEED % w1.dic.capacity) hB.typeok
    hS.found
  refine ⟨_, put_overwrite fuel2 w1 key v2 _ hS.found, ?_, ?_, ?_⟩
  · unfold overwritten
    simp only
    rw [hS.value, if_pos ⟨by rw [hB.destroy]; exact hdestroy, hv1⟩]
  · unfold dictionary_size
    rw [overwritten_dic]
  · have hcap : (overwritten w1 (get_keys_matching_index_in_neighborhood w1.dic key
        (murmur_hash key SEED % w1.dic.capacity)) v2).dic.capacity = w1.dic.capacity := by
      rw [overwritten_dic]
    have := hO
    rw [← hcap] at this
    exact (get_of_success this).1

theorem overwrite_destroys_old_value_witness :
    Reachable demo ∧ demo.dic.destroy = true ∧ (7 : Nat) ≠ 0 ∧
      ∃ w1, dictionary_put 1 demo [98] 7 = some (true, w1) ∧
        ∃ w2, dictionary_put (0 + 1) w1 [98] 8 = some (true, w2) ∧
          w2.destroyed = 7 :: w1.destroyed ∧
          dictionary_size w2.dic = dictionary_size w1.dic ∧
          dictionary_get w2.dic [98] = (8, false) := by
  refine ⟨demo_reachable, by decide!, by decide, ?_⟩
  have h1 : (dictionary_put 1 demo [98] 7).map (fun r => r.1) = some true := by decide!
  obtain ⟨⟨b, w1⟩, hput, hb⟩ := Option.map_eq_some'.mp h1
  simp only at hb
  subst hb
  exact ⟨w1, hput, overwrite_destroys_old_value demo demo_reachable (by decide!) 1 0 [98] 7 8
    w1 (by decide) hput⟩

theorem popped_SizeOK (d : dictionary_t) (pos idx : Nat) (ht : TypeOK d)
    (hi : idx < d.capacity) (hocc : (d.elements idx).key ≠ none) (h : SizeOK d) :
    SizeOK (popped d pos idx) := by
  unfold SizeOK at h ⊢
  have he := entries_below_store d.elements idx
    { d.elements idx with key := none, value := 0 } d.capacity hi
  rw [Element.entry_none { d.elements idx with key := none, value := 0 } rfl, add_zero] at he
  have hc : count_occupied (popped d pos idx) + 1 = count_occupied d := by
    rw [count_occupied_eq_card, count_occupied_eq_card]
    have := congrArg Multiset.card he
    rw [Multiset.card_add, Element.card_entry, if_neg hocc] at this
    exact this
  have hle := count_le_capacity d
  have hcap := ht.cap_lt
  unfold sizeof_Element at hcap
  show u64 (d.size + 2 ^ 64 - 1) = count_occupied (popped d pos idx)
  unfold u64
  rw [h]
  have : count_occupied d + 2 ^ 64 - 1 = count_occupied (popped d pos idx) + 2 ^ 64 := by omega
  rw [this, Nat.add_mod_right, Nat.mod_eq_of_lt (by omega)]

theorem pop_SizeOK (w : World) (key : Key) (ht : TypeOK w.dic) (h : SizeOK w.dic) :
    SizeOK (dictionary_pop w key).2.dic := by
  rcases pop_spec w key with ⟨_, h1⟩ | ⟨hf, h1⟩
  · rw [h1]; exact h
  · rw [h1]
    refine popped_SizeOK _ _ _ ht (lookup_lt _ _ _ (ht.bitmap_lt _) (TypeOK_pos ht) hf) ?_ h
    rw [lookup_key _ _ _ hf]; simp

theorem reachable_size (w : World) (h : Reachable w) : w.failures = 0 → SizeOK w.dic := by
  induction h with
  | create destroy allocs w hc =>
    intro _
    obtain ⟨h1, _, _⟩ := create_spec destroy allocs w hc
    rw [h1]
    unfold SizeOK
    rw [count_occupied_eq_card]
    unfold entries
    simp only
    rw [entries_below_zero]
    rfl
  | put w fuel key value b w1 hw hput ih =>
    intro hf
    obtain ⟨ht, hr, hh, _⟩ := reachable_inv w hw
    have hB := (put_basic fuel w key value _ b w1 ht hr hput).1
    have hle := hB.fail_le
    cases b with
    | false => have := hB.fail_lt rfl; omega
    | true => exact (put_success fuel w key value _ w1 ht hr hh rfl hput).size (ih (by omega))
  | pop w key hw ih =>
    intro hf
    obtain ⟨ht, hr, _, _⟩ := reachable_inv w hw
    have hP := pop_basic w key ht hr
    exact pop_SizeOK w key ht (ih (by rw [← hP.2.2.2.2.2.1]; exact hf))
  | delete w key hw ih =>
    intro hf
    obtain ⟨ht, hr, _, _⟩ := reachable_inv w hw
    have hP := pop_basic w key ht hr
    rw [(delete_dic w key).1]
    exact pop_SizeOK w key ht (ih (by rw [← hP.2.2.2.2.2.1, ← (delete_dic w key).2]; exact hf))
  | oracle w allocs _ ih => exact ih

/-- C14: in every world reachable from `dictionary_create` by put / pop /
delete calls in which no allocation failed, the size field equals the number
of slots whose key is non-empty, and is therefore at most the capacity. -/
theorem size_counts_occupied_slots (w : World) (h : Reachable w) (hno : w.failures = 0) :
    w.dic.size = count_occupied w.dic ∧ w.dic.size ≤ w.dic.capacity := by
  have hs := reachable_size w h hno
  unfold SizeOK at hs
  exact ⟨hs, by rw [hs]; exact count_le_capacity w.dic⟩

theorem size_counts_occupied_slots_witness :
    Reachable demo ∧ demo.failures = 0 ∧
      demo.dic.size = count_occupied demo.dic ∧ demo.dic.size ≤ demo.dic.capacity :=
  ⟨demo_reachable, by decide!,
    size_counts_occupied_slots demo demo_reachable (by decide!)⟩

/-! ## Tables built by puts alone -/

theorem Compact_congr (d d1 : dictionary_t) (hcap : d1.capacity = d.capacity)
    (hel : d1.elements = d.elements) (hbm : d1.bitmap = d.bitmap) (h : Compact d) :
    Compact d1 := by
  refine ⟨TypeOK_of d d1 hcap (by rw [hbm]; exact h.typeok.bitmap_lt) h.typeok,
    by rw [hcap]; exact h.cap64, Range_congr d d1 hcap hel h.range,
    HashOK_congr d d1 hcap hel h.hashok, ?_, ?_, ?_⟩
  · intro b n hb hn
    unfold claimed key_at
    rw [hcap] at hb ⊢
    rw [hel, hbm]
    exact h.bits b n hb hn
  · intro i hi hk m hm hm32
    unfold key_at
    rw [hcap] at hi hm ⊢
    rw [hel] at hk hm ⊢
    exact h.packed i hi hk m hm hm32
  · intro i j hi hj hk he
    rw [hcap] at hi hj
    rw [hel] at hk he
    exact h.unique i j hi hj hk he

/-- A table whose keys and cached hashes are those of a compact table is
compact. -/
theorem Compact_same_keys (d d1 : dictionary_t) (hcap : d1.capacity = d.capacity)
    (hbm : d1.bitmap = d.bitmap)
    (hel : ∀ i, (d1.elements i).key = (d.elements i).key ∧
      (d1.elements i).hashvalue = (d.elements i).hashvalue)
    (h : Compact d) : Compact d1 := by
  refine ⟨TypeOK_of d d1 hcap (by rw [hbm]; exact h.typeok.bitmap_lt) h.typeok,
    by rw [hcap]; exact h.cap64, ?_, ?_, ?_, ?_, ?_⟩
  · intro i hi hk
    rw [hcap] at hi ⊢
    rw [(hel i).1] at hk
    rw [(hel i).2]
    exact h.range i hi hk
  · intro i k hi hk
    rw [hcap] at hi
    rw [(hel i).1] at hk
    rw [(hel i).2]
    exact h.hashok i k hi hk
  · intro b n hb hn
    unfold claimed key_at
    rw [hcap] at hb ⊢
    rw [hbm, (hel _).1, (hel _).2]
    exact h.bits b n hb hn
  · intro i hi hk m hm hm32
    unfold key_at
    rw [hcap] at hi hm ⊢
    rw [(hel i).1] at hk
    rw [(hel i).2] at hm ⊢
    rw [(hel _).1]
    exact h.packed i hi hk m hm hm32
  · intro i j hi hj hk he
    rw [hcap] at hi hj
    rw [(hel i).1] at hk he
    rw [(hel j).1] at he
    exact h.unique i j hi hj hk he

theorem Compact_fresh (d : dictionary_t) (h : TypeOK d)
    (hc : u64 (d.capacity * 2) * sizeof_Element < 2 ^ 64) : Compact (fresh d) := by
  have hcap := fresh_capacity d h
  have h32 := TypeOK_ge h
  refine ⟨TypeOK_fresh d h hc, by rw [hcap]; omega, Range_fresh d, HashOK_fresh d, ?_, ?_, ?_⟩
  · intro b n _ _
    unfold claimed key_at fresh
    simp [Element.zero]
  · intro i _ hk
    exact absurd rfl hk
  · intro i j _ _ hk
    exact absurd rfl hk

/-- In a compact table a slot that holds a key is claimed by the home bucket
of the key, at the offset of the slot. -/
theorem Compact_slot (d : dictionary_t) (h : Compact d) (i : Nat) (k : Key)
    (hi : i < d.capacity) (hk : (d.elements i).key = some k) :
    ∃ n, n < 32 ∧ (murmur_hash k SEED % d.capacity + n) % d.capacity = i ∧
      claimed d (murmur_hash k SEED % d.capacity) n ∧
      key_at d (murmur_hash k SEED % d.capacity) n = some k := by
  have hcpos := TypeOK_pos h.typeok
  have hhash := h.hashok i k hi hk
  have hp : murmur_hash k SEED % d.capacity < d.capacity := Nat.mod_lt _ hcpos
  have hr := h.range i hi (by rw [hk]; simp)
  rw [hhash] at hr
  have hslot := slot_of_offset i (murmur_hash k SEED % d.capacity) d.capacity hi hp
  refine ⟨_, hr, hslot, ?_, ?_⟩
  · rw [h.bits _ _ hp hr]
    unfold key_at
    rw [hslot, hk, hhash]
    exact ⟨by simp, rfl⟩
  · unfold key_at
    rw [hslot]; exact hk

theorem Compact_not_holds (d : dictionary_t) (h : Compact d) (key : Key)
    (hl : get_keys_matching_index_in_neighborhood d key (murmur_hash key SEED % d.capacity)
      = d.capacity) : ¬ holds d key := by
  rintro ⟨i, hi, hk⟩
  obtain ⟨n, hn, _, hc, hka⟩ := Compact_slot d h i key hi hk
  exact lookup_none d key _ (h.typeok.bitmap_lt _) (TypeOK_pos h.typeok) hl n hn hc hka

/-- In a compact table `dictionary_get` returns the value stored with the
key. -/
theorem Compact_get (d : dictionary_t) (h : Compact d) (k : Key) (v hv : Nat)
    (hm : (k, v, hv) ∈ entries d) : dictionary_get d k = (v, false) := by
  obtain ⟨i, hi, hk, hvv, _⟩ := (mem_entries_below _ _ _).mp hm
  simp only at hk hvv
  obtain ⟨n, hn, _, hc, hka⟩ := Compact_slot d h i k hi hk
  have hcpos := TypeOK_pos h.typeok
  have hf := lookup_found d k _ (h.typeok.bitmap_lt _) hcpos n hn hc hka
  have hlt := lookup_lt d k _ (h.typeok.bitmap_lt _) hcpos hf
  have hkey := lookup_key d k _ hf
  have := h.unique i _ hi hlt (by rw [hk]; simp) (by rw [hk, hkey])
  rw [get_eq, if_neg hf, ← this, hvv]

theorem find_first_free_loop_far (d : dictionary_t) (pos : Nat) (hc : 0 < d.capacity) :
    ∀ n i, find_first_free_loop d pos n i = d.capacity ∨
      ∃ j, i ≤ j ∧ j < i + n ∧ find_first_free_loop d pos n i = (pos + j) % d.capacity ∧
        (d.elements ((pos + j) % d.capacity)).key = none := by
  intro n
  induction n with
  | zero => intro i; left; rfl
  | succ n ih =>
    intro i
    unfold find_first_free_loop
    simp only
    by_cases hk : (d.elements ((pos + i) % d.capacity)).key = none
    · rw [if_pos hk]
      right
      exact ⟨i, Nat.le_refl _, by omega, rfl, hk⟩
    · rw [if_neg hk]
      rcases ih (i + 1) with h | ⟨j, h1, h2, h3, h4⟩
      · left; exact h
      · right; exact ⟨j, by omega, by omega, h3, h4⟩

/-- Index arithmetic of the displacement window: an occupant `j` slots
before the free slot, at offset `o` of its bucket, would land at offset
`o + j`. -/
theorem window_offset (c cf bucket j : Nat) (hc : 64 ≤ c) (hcf : cf < c) (hb : bucket < c)
    (hj : j < 32) (ho : ((cf + c - j) % c + c - bucket) % c < 32)
    (he : (cf + c - bucket) % c < 32) :
    (cf + c - bucket) % c = ((cf + c - j) % c + c - bucket) % c + j := by
  rw [mod_lt2 (cf + c - bucket) c (by omega)] at he ⊢
  rw [mod_lt2 (cf + c - j) c (by omega)] at ho ⊢
  by_cases h1 : cf + c - j < c
  · simp only [h1, if_true] at ho ⊢
    rw [mod_lt2 _ c (by omega)] at ho ⊢
    by_cases h2 : cf + c - bucket < c
    · simp only [h2, if_true] at he ⊢
      by_cases h3 : cf + c - j + c - bucket < c
      · simp only [h3, if_true] at ho ⊢; omega
      · simp only [h3, if_false] at ho ⊢; omega
    · simp only [h2, if_false] at he ⊢
      by_cases h3 : cf + c - j + c - bucket < c
      · simp only [h3, if_true] at ho ⊢; omega
      · simp only [h3, if_false] at ho ⊢; omega
  · simp only [h1, if_false] at ho ⊢
    rw [mod_lt2 _ c (by omega)] at ho ⊢
    by_cases h2 : cf + c - bucket < c
    · simp only [h2, if_true] at he ⊢
      by_cases h3 : cf + c - j - c + c - bucket < c
      · simp only [h3, if_true] at ho ⊢; omega
      · simp only [h3, if_false] at ho ⊢; omega
    · simp only [h2, if_false] at he ⊢
      by_cases h3 : cf + c - j - c + c - bucket < c
      · simp only [h3, if_true] at ho ⊢; omega
      · simp only [h3, if_false] at ho ⊢; omega

/-- On a compact table `displace_keys` moves nothing and returns the
sentinel. -/
theorem Compact_displace (d : dictionary_t) (h : Compact d) (pos : Nat)
    (hp : pos < d.capacity) : displace_keys d pos = some (d.capacity, d) := by
  have hcpos := TypeOK_pos h.typeok
  have hc64 := h.cap64
  unfold displace_keys
  simp only
  by_cases hcf : d.capacity ≤ find_first_free_element d pos
  · rw [if_pos hcf]
  · rw [if_neg hcf]
    unfold find_first_free_element at hcf ⊢
    rcases find_first_free_loop_far d pos hcpos (d.capacity - HOP_RANGE) HOP_RANGE with
      h1 | ⟨j, hj1, hj2, hj3, hj4⟩
    · omega
    · rw [hj3]
      unfold HOP_RANGE at hj1 hj2
      have hjc : j < d.capacity := by omega
      have hdist : ((pos + j) % d.capacity + d.capacity - pos) % d.capacity = j :=
        offset_of_slot pos j d.capacity hp hjc
      have hcflt : (pos + j) % d.capacity < d.capacity := Nat.mod_lt _ hcpos
      generalize (pos + j) % d.capacity = cf at *
      show displace_loop pos (d.capacity + 1) d cf = some (d.capacity, d)
      unfold displace_loop
      rw [if_pos (by rw [hdist]; exact hj1)]
      have hscan : displace_scan d cf HOP_RANGE = none := by
        apply displace_scan_none
        intro i hi hocc helig
        unfold HOP_RANGE at hi helig
        have hidx : (cf + d.capacity - i) % d.capacity < d.capacity := Nat.mod_lt _ hcpos
        have hb : (d.elements ((cf + d.capacity - i) % d.capacity)).hashvalue % d.capacity
            < d.capacity := Nat.mod_lt _ hcpos
        have ho := h.range _ hidx hocc
        unfold HOP_RANGE at ho
        have hw := window_offset d.capacity cf _ i hc64 hcflt hb hi ho helig
        by_cases hi0 : i = 0
        · subst hi0
          have : (cf + d.capacity - 0) % d.capacity = cf := by
            rw [Nat.sub_zero, Nat.add_mod_right, Nat.mod_eq_of_lt hcflt]
          rw [this] at hocc
          exact hocc hj4
        · have hpk := h.packed _ hidx hocc ((cf + d.capacity -
            (d.elements ((cf + d.capacity - i) % d.capacity)).hashvalue % d.capacity)
              % d.capacity) (by omega) helig
          unfold key_at at hpk
          rw [slot_of_offset cf _ d.capacity hcflt hb] at hpk
          exact hpk hj4
      rw [hscan]

/-! ## Puts keep a table compact -/

/-- Storing a new key at the largest free offset of its home bucket keeps
the table compact. -/
theorem Compact_insert (d d1 : dictionary_t) (key : Key) (value h n : Nat)
    (hc : Compact d) (hmur : h = murmur_hash key SEED) (hn : n < 32)
    (hfree : free_at d (h % d.capacity) n)
    (hmax : ∀ m, n < m → m < 32 → ¬ free_at d (h % d.capacity) m)
    (hnh : ¬ holds d key)
    (hcap : d1.capacity = d.capacity)
    (hel : d1.elements
      = store d.elements ((h % d.capacity + n) % d.capacity) ⟨some key, value, h⟩)
    (hbm : d1.bitmap = update_bitmap d.bitmap (h % d.capacity) n true) :
    Compact d1 := by
  have hcpos := TypeOK_pos hc.typeok
  have hc64 := hc.cap64
  have hp : h % d.capacity < d.capacity := Nat.mod_lt _ hcpos
  have hoff := offset_of_slot (h % d.capacity) n d.capacity hp (by omega)
  have hempty : (d.elements ((h % d.capacity + n) % d.capacity)).key = none := hfree.2
  obtain ⟨s, hsdef⟩ : ∃ s, s = (h % d.capacity + n) % d.capacity := ⟨_, rfl⟩
  rw [← hsdef] at hel hoff hempty
  have e_same : d1.elements s = ⟨some key, value, h⟩ := by rw [hel]; exact store_same _ _ _
  have e_other : ∀ j, j ≠ s → d1.elements j = d.elements j := by
    intro j hj; rw [hel]; exact store_other _ _ _ _ hj
  have occ : ∀ j, (d.elements j).key ≠ none → (d1.elements j).key ≠ none := by
    intro j hj
    by_cases hjs : j = s
    · rw [hjs, e_same]; simp
    · rw [e_other j hjs]; exact hj
  have hrange : Range d1 := by
    apply Range_store d d1 s _ hcap hel _ hc.range
    intro _
    show (s + d.capacity - h % d.capacity) % d.capacity < HOP_RANGE
    rw [hoff]; exact hn
  refine ⟨TypeOK_of d d1 hcap
      (by rw [hbm]; exact update_bitmap_lt _ _ _ _ hc.typeok.bitmap_lt) hc.typeok,
    by omega, hrange,
    HashOK_store d d1 s _ hcap hel (by
      intro k hk
      simp only [Option.some.injEq] at hk
      subst hk; exact hmur) hc.hashok, ?_, ?_, ?_⟩
  · intro b m hb hm
    rw [hcap] at hb
    unfold claimed key_at
    rw [hcap, hbm]
    by_cases hbp : b = h % d.capacity
    · rw [hbp, update_bitmap_set_testBit]
      by_cases hmn : m = n
      · rw [hmn, ← hsdef, e_same]
        simp
      · have hne : (h % d.capacity + m) % d.capacity ≠ s := by
          intro he
          rw [hsdef] at he
          exact hmn (slot_inj _ _ _ _ hp (by omega) (by omega) he)
        rw [e_other _ hne]
        have hdec : decide (31 - m = 31 - n) = false := by
          simp only [decide_eq_false_iff_not]; omega
        rw [hdec, Bool.or_false]
        exact hc.bits _ m hp hm
    · rw [update_bitmap_other _ _ _ _ _ hbp]
      by_cases hts : (b + m) % d.capacity = s
      · rw [hts, e_same]
        have hold := hc.bits b m hb hm
        unfold claimed key_at at hold
        rw [hts, hempty] at hold
        constructor
        · intro hcl; exact absurd rfl (hold.mp hcl).1
        · rintro ⟨_, h2⟩; exact absurd h2.symm hbp
      · rw [e_other _ hts]; exact hc.bits b m hb hm
  · intro i hi hk m hm hm32
    rw [hcap] at hi hm
    unfold key_at
    rw [hcap]
    by_cases his : i = s
    · rw [his, e_same] at hm ⊢
      simp only at hm ⊢
      rw [hoff] at hm
      have hnf := hmax m hm hm32
      apply occ
      intro hnone
      apply hnf
      refine ⟨?_, hnone⟩
      intro hcl
      exact ((hc.bits _ m hp hm32).mp hcl).1 hnone
    · rw [e_other i his] at hk hm ⊢
      exact occ _ (hc.packed i hi hk m hm hm32)
  · intro i j hi hj hk he
    rw [hcap] at hi hj
    by_cases his : i = s
    · by_cases hjs : j = s
      · rw [his, hjs]
      · exfalso
        rw [his, e_same, e_other j hjs] at he
        exact hnh ⟨j, hj, he.symm⟩
    · by_cases hjs : j = s
      · exfalso
        rw [hjs, e_same, e_other i his] at he
        exact hnh ⟨i, hi, he⟩
      · rw [e_other i his] at hk he
        rw [e_other j hjs] at he
        exact hc.unique i j hi hj hk he

theorem entries_fresh (d : dictionary_t) : entries (fresh d) = 0 := by
  unfold entries fresh
  exact entries_below_zero _

theorem Compact_overwritten (w : World) (idx value : Nat) (hc : Compact w.dic) :
    Compact (overwritten w idx value).dic := by
  rw [overwritten_dic]
  refine Compact_same_keys w.dic _ rfl rfl ?_ hc
  intro i
  show ((store w.dic.elements idx _ i).key = _ ∧ (store w.dic.elements idx _ i).hashvalue = _)
  by_cases hi : i = idx
  · rw [hi, store_same]; exact ⟨rfl, rfl⟩
  · rw [store_other _ _ _ _ hi]; exact ⟨rfl, rfl⟩

theorem rehash_compact_of (fuel : Nat)
    (ih : ∀ w key value h b w1, Compact w.dic → h = murmur_hash key SEED →
      dictionary_put_with_hashvalue fuel w key value h = some (b, w1) →
      CompactPut w w1 key value h b) :
    ∀ w b w1, Compact w.dic →
      rehash (dictionary_put_with_hashvalue fuel) w = some (b, w1) →
      Compact w1.dic ∧ (b = true → entries w1.dic = entries w.dic) := by
  intro w b w1 hc hrh
  rcases rehash_cases _ _ _ _ hrh with ⟨hb, hd, _⟩ | ⟨hcl, wa, w3, ha1, _, _, hl⟩
  · refine ⟨?_, fun h => by rw [hb] at h; simp at h⟩
    rw [hd]
    exact Compact_congr w.dic _ rfl rfl rfl hc
  · have hind := rehash_loop_ind (dictionary_put_with_hashvalue fuel) w.dic.elements
      w.dic.capacity
      (fun i x => Compact x.dic ∧ entries x.dic = entries_below w.dic.elements i)
      (fun _ => True)
      (fun i x _ hJ hk => by
        refine ⟨hJ.1, ?_⟩
        rw [hJ.2]
        show _ = entries_below w.dic.elements i + (w.dic.elements i).entry
        rw [Element.entry_none _ hk, add_zero])
      (fun i x k x1 hi hJ hk hp1 => by
        have hm := hc.hashok i k hi hk
        have hX := ih x k _ _ true x1 hJ.1 hm hp1
        refine ⟨hX.1, ?_⟩
        have hnh : ¬ holds x.dic k := by
          rw [holds_iff_entries]
          rintro ⟨t, ht, htk⟩
          rw [hJ.2] at ht
          obtain ⟨j, hj, hjk, _⟩ := (mem_entries_below _ _ _).mp ht
          rw [htk] at hjk
          have := hc.unique i j hi (by omega) (by rw [hk]; simp) (by rw [hk, hjk])
          omega
        rw [hX.2 rfl hnh, hJ.2]
        show _ = entries_below w.dic.elements i + (w.dic.elements i).entry
        rw [Element.entry_some _ k hk])
      (fun _ _ _ _ _ _ _ _ => trivial)
      w.dic.capacity 0 wa
    rcases hl with ⟨hb, hloop, hw1⟩ | ⟨hb, hloop⟩
    · refine ⟨?_, fun h => by rw [hb] at h; simp at h⟩
      rw [hw1]
      exact Compact_congr w.dic _ rfl rfl rfl hc
    · have hJ := (hind true w1 (by omega)
        ⟨by rw [ha1]; exact Compact_fresh w.dic hc.typeok hcl, by rw [ha1]; exact entries_fresh w.dic⟩ hloop).1 rfl
      rw [Nat.zero_add] at hJ
      exact ⟨hJ.1, fun _ => hJ.2⟩

/-- A put into a compact table leaves a compact table, and a put of a new
key that returns `true` adds exactly its triple to the stored triples. -/
theorem put_compact : ∀ fuel w key value h b w1, Compact w.dic → h = murmur_hash key SEED →
    dictionary_put_with_hashvalue fuel w key value h = some (b, w1) →
    CompactPut w w1 key value h b := by
  intro fuel
  induction fuel with
  | zero => intro w key value h b w1 _ _ hput; simp [dictionary_put_with_hashvalue] at hput
  | succ fuel ih =>
    intro w key value h b w1 hc hmur hput
    have ht := hc.typeok
    have hcpos := TypeOK_pos ht
    have hc32 := TypeOK_ge ht
    have hp : h % w.dic.capacity < w.dic.capacity := Nat.mod_lt _ hcpos
    rcases put_cases fuel w key value h b w1 hput with
      ⟨hf, _, hw⟩ | ⟨hnf, hfree, hins⟩ | ⟨hnf, _, r, d1, hdisp, hrest⟩
    · refine ⟨by rw [hw]; exact Compact_overwritten w _ value hc, ?_⟩
      intro _ hnh
      exact absurd ⟨_, lookup_lt w.dic key _ (ht.bitmap_lt _) hcpos hf, lookup_key w.dic key _ hf⟩
        hnh
    · have hnh : ¬ holds w.dic key := by
        apply Compact_not_holds w.dic hc key
        rw [← hmur]; exact hnf
      rcases free_spec w.dic (h % w.dic.capacity) (ht.bitmap_lt _) with ⟨h1, _⟩ | ⟨h1, h2, h3⟩
      · exact absurd h1 hfree
      · have hoff := offset_of_slot (h % w.dic.capacity)
          (return_free_index_in_neighborhood w.dic (h % w.dic.capacity)) w.dic.capacity hp
          (by omega)
        have hslt : (h % w.dic.capacity
            + return_free_index_in_neighborhood w.dic (h % w.dic.capacity)) % w.dic.capacity
            < w.dic.capacity := Nat.mod_lt _ hcpos
        rcases insert_element_spec w _ h value key hslt (by rw [hoff]; exact h1) with
          ⟨e1, e2, _⟩ | ⟨e1, e2, _⟩
        · rw [← hins] at e1 e2
          simp only at e1 e2
          refine ⟨by rw [e2]; exact hc, fun hb => by rw [e1] at hb; simp at hb⟩
        · rw [← hins] at e1 e2
          simp only at e1 e2
          refine ⟨?_, fun _ _ => ?_⟩
          · apply Compact_insert w.dic w1.dic key value h _ hc hmur h1 h2 h3 hnh
            · rw [e2]
            · rw [e2]
            · rw [e2]
              simp only
              rw [hoff]
          · rw [e2]
            exact inserted_entries w.dic _ h value key hslt h2.2
    · have hdc := Compact_displace w.dic hc (h % w.dic.capacity) hp
      rw [hdisp] at hdc
      simp only [Option.some.injEq, Prod.mk.injEq] at hdc
      obtain ⟨e1, e2⟩ := hdc
      subst e1; subst e2
      rcases hrest with ⟨hne, _⟩ | ⟨_, hgrow⟩
      · exact absurd rfl hne
      · rcases hgrow with ⟨hb, hrh⟩ | ⟨w2, hrh, hretry⟩
        · have hR := rehash_compact_of fuel ih { w with dic := w.dic } false w1 hc hrh
          exact ⟨hR.1, fun h => by rw [hb] at h; simp at h⟩
        · have hR := rehash_compact_of fuel ih { w with dic := w.dic } true w2 hc hrh
          have hX := ih w2 key value h b w1 hR.1 hmur hretry
          refine ⟨hX.1, fun hb hnh => ?_⟩
          have hnh2 : ¬ holds w2.dic key := by
            rw [holds_iff_entries, hR.2 rfl, ← holds_iff_entries]
            exact hnh
          rw [hX.2 hb hnh2, hR.2 rfl]

/-! ## Histories of puts -/

theorem create_Compact (destroy : Bool) :
    Compact ⟨fun _ => Element.zero, 0, INITIAL_CAPACITY, destroy, fun _ => 0⟩ := by
  refine ⟨create_TypeOK destroy, by show 64 ≤ INITIAL_CAPACITY; decide, create_Range destroy,
    create_HashOK destroy, ?_, ?_, ?_⟩
  · intro b n _ _
    unfold claimed key_at
    simp [Element.zero]
  · intro i _ hk
    exact absurd rfl hk
  · intro i j _ _ hk
    exact absurd rfl hk

theorem put_reachable_compact (w : World) (h : PutReachable w) : Compact w.dic := by
  induction h with
  | create destroy allocs w hc =>
    rw [(create_spec destroy allocs w hc).1]
    exact create_Compact destroy
  | put w fuel key value b w1 _ hput ih =>
    exact (put_compact fuel w key value _ b w1 ih rfl hput).1
  | grow w w2 _ hc hd ih =>
    rw [hd]
    exact Compact_fresh w.dic ih.typeok hc
  | oracle w allocs _ ih => exact ih

theorem entries_create (destroy : Bool) :
    entries ⟨fun _ => Element.zero, 0, INITIAL_CAPACITY, destroy, fun _ => 0⟩ = 0 := by
  unfold entries
  exact entries_below_zero _

theorem SizeOK_create (destroy : Bool) :
    SizeOK ⟨fun _ => Element.zero, 0, INITIAL_CAPACITY, destroy, fun _ => 0⟩ := by
  unfold SizeOK
  rw [count_occupied_eq_card, entries_create]
  rfl

/-- The puts of pairwise distinct new keys into a compact table add exactly
their triples to the stored triples. -/
theorem put_all_spec (fuel : Nat) : ∀ (kvs : List (Key × Nat)) (w w1 : World),
    Compact w.dic → SizeOK w.dic → (∀ kv, kv ∈ kvs → ¬ holds w.dic kv.1) →
    (kvs.map Prod.fst).Nodup → put_all fuel kvs w = some w1 →
    Compact w1.dic ∧ SizeOK w1.dic ∧
      entries w1.dic = entries w.dic
        + Multiset.ofList (kvs.map (fun kv => (kv.1, kv.2, murmur_hash kv.1 SEED))) := by
  intro kvs
  induction kvs with
  | nil =>
    intro w w1 hc hs _ _ hp
    simp only [put_all, Option.some.injEq] at hp
    subst hp
    exact ⟨hc, hs, by simp⟩
  | cons kv kvs ih =>
    intro w w1 hc hs hnew hnd hp
    unfold put_all at hp
    split at hp
    · rename_i w2 hput
      have hnh := hnew kv (List.mem_cons_self _ _)
      have hX := put_compact fuel w kv.1 kv.2 _ true w2 hc rfl hput
      have hS := put_success fuel w kv.1 kv.2 _ w2 hc.typeok hc.range hc.hashok rfl hput
      have he := hX.2 rfl hnh
      rw [List.map_cons, List.nodup_cons] at hnd
      have hnew2 : ∀ kv1, kv1 ∈ kvs → ¬ holds w2.dic kv1.1 := by
        intro kv1 hmem hh
        rw [holds_iff_entries] at hh
        obtain ⟨t, ht, htk⟩ := hh
        rw [he, Multiset.mem_add] at ht
        rcases ht with ht | ht
        · exact hnew kv1 (List.mem_cons_of_mem _ hmem) ((holds_iff_entries _ _).mpr ⟨t, ht, htk⟩)
        · rw [Multiset.mem_singleton] at ht
          rw [ht] at htk
          simp only at htk
          apply hnd.1
          rw [htk]
          exact List.mem_map_of_mem Prod.fst hmem
      obtain ⟨h1, h2, h3⟩ := ih w2 w1 hX.1 (hS.size hs) hnew2 hnd.2 hp
      refine ⟨h1, h2, ?_⟩
      rw [h3, he, List.map_cons, ← Multiset.cons_coe, ← Multiset.singleton_add, add_assoc]
    · simp at hp

theorem step_put_reachable (fuel : Nat) (k : Key) (v : Nat) (w w1 : World)
    (hw : PutReachable w) (h : step fuel w (Op.put k v) = some w1) : PutReachable w1 := by
  simp only [step, Option.map_eq_some'] at h
  obtain ⟨⟨b, w2⟩, h1, h2⟩ := h
  simp only at h2
  subst h2
  exact PutReachable.put w fuel k v b w2 hw h1

theorem run_put_reachable (fuel : Nat) : ∀ ops w w1, (∀ op, op ∈ ops → ∃ k v, op = Op.put k v) →
    PutReachable w → run fuel ops w = some w1 → PutReachable w1 := by
  intro ops
  induction ops with
  | nil =>
    intro w w1 _ hw h
    simp only [run, Option.some.injEq] at h
    subst h; exact hw
  | cons op ops ih =>
    intro w w1 hall hw h
    simp only [run, Option.bind_eq_some] at h
    obtain ⟨w2, h1, h2⟩ := h
    obtain ⟨k, v, hop⟩ := hall op (List.mem_cons_self _ _)
    subst hop
    exact ih w2 w1 (fun o ho => hall o (List.mem_cons_of_mem _ ho))
      (step_put_reachable fuel k v w w2 hw h1) h2

/-- A history of puts of the keys of a list, run from `dictionary_create`,
ends in a world that puts alone reach. -/
theorem after_put_reachable (fuel : Nat) (keys : List Key) (v : Nat)
    (h : (after fuel (keys.map (fun k => Op.put k v))).isSome = true) :
    PutReachable (world_of (after fuel (keys.map (fun k => Op.put k v)))) := by
  have h1 := world_of_eq _ h
  generalize world_of (after fuel (keys.map (fun k => Op.put k v))) = w1 at h1
  unfold after at h1
  simp only [Option.bind_eq_some] at h1
  obtain ⟨w0, h0, hrun⟩ := h1
  refine run_put_reachable fuel _ w0 w1 ?_ (PutReachable.create true [] w0 h0) hrun
  intro op hop
  obtain ⟨k, _, hk⟩ := List.mem_map.mp hop
  exact ⟨k, v, hk.symm⟩

/-! ## Termination of put -/

theorem rehash_loop_returns (put : World → Key → Nat → Nat → Option (Bool × World))
    (old : Nat → Element) (J : World → Prop)
    (hput : ∀ w k v h, J w → ∃ b w1, put w k v h = some (b, w1) ∧ (b = true → J w1)) :
    ∀ n i w, J w → ∃ b w1, rehash_loop put old n i w = some (b, w1) := by
  intro n
  induction n with
  | zero => intro i w _; exact ⟨true, w, rfl⟩
  | succ n ih =>
    intro i w hJ
    unfold rehash_loop
    cases hk : (old i).key with
    | none => exact ih (i + 1) w hJ
    | some k =>
      simp only
      obtain ⟨b, w1, hp, hJ1⟩ := hput w k (old i).value (old i).hashvalue hJ
      rw [hp]
      cases b
      · exact ⟨false, w1, rfl⟩
      · exact ih (i + 1) w1 (hJ1 rfl)

theorem rehash_returns (put : World → Key → Nat → Nat → Option (Bool × World)) (w : World)
    (J : World → Prop)
    (hJ : ∀ wa, wa.dic = fresh w.dic → u64 (w.dic.capacity * 2) * sizeof_Element < 2 ^ 64 → J wa)
    (hput : ∀ w k v h, J w → ∃ b w1, put w k v h = some (b, w1) ∧ (b = true → J w1)) :
    ∃ b w1, rehash put w = some (b, w1) := by
  unfold rehash
  simp only
  have c1 := calloc_spec w (u64 (w.dic.capacity * 2)) sizeof_Element
  cases hc1 : w.calloc (u64 (w.dic.capacity * 2)) sizeof_Element with
  | mk b1 wa =>
    rw [hc1] at c1
    cases b1
    · exact ⟨_, _, rfl⟩
    · simp only
      simp at c1
      cases hc2 : wa.calloc (u64 (w.dic.capacity * 2)) sizeof_uint32 with
      | mk b2 wb =>
        cases b2
        · exact ⟨_, _, rfl⟩
        · simp only
          obtain ⟨b, w3, hl⟩ := rehash_loop_returns put w.dic.elements J hput w.dic.capacity 0
            { wb with dic := fresh w.dic } (hJ _ rfl c1.2.2.2)
          have hl2 : rehash_loop put w.dic.elements w.dic.capacity 0
              { wb with dic :=
                { w.dic with capacity := u64 (w.dic.capacity * 2), size := 0,
                             elements := fun _ => Element.zero, bitmap := fun _ => 0 } }
              = some (b, w3) := hl
          rw [hl2]
          cases b
          · exact ⟨_, _, rfl⟩
          · exact ⟨_, _, rfl⟩

/-- A put returns when the fuel exceeds the number of doublings after which
`calloc` refuses the slot array. -/
theorem put_returns_of : ∀ n fuel w key value h, n < fuel → TypeOK w.dic → Range w.dic →
    2 ^ 64 ≤ w.dic.capacity * sizeof_Element * 2 ^ n →
    ∃ b w1, dictionary_put_with_hashvalue fuel w key value h = some (b, w1) := by
  intro n
  induction n with
  | zero =>
    intro fuel w key value h _ ht _ hcap
    have := ht.cap_lt
    omega
  | succ n ih =>
    intro fuel w key value h hf ht hr hcap
    obtain ⟨f, rfl⟩ : ∃ f, fuel = f + 1 := ⟨fuel - 1, by omega⟩
    have hcpos := TypeOK_pos ht
    have hc32 := TypeOK_ge ht
    have hp : h % w.dic.capacity < w.dic.capacity := Nat.mod_lt _ hcpos
    unfold dictionary_put_with_hashvalue
    simp only
    by_cases h1 : get_keys_matching_index_in_neighborhood w.dic key (h % w.dic.capacity)
        ≠ w.dic.capacity
    · rw [if_pos h1]; exact ⟨_, _, rfl⟩
    · rw [if_neg h1]
      by_cases h2 : return_free_index_in_neighborhood w.dic (h % w.dic.capacity)
          ≠ w.dic.capacity
      · rw [if_pos h2]; exact ⟨_, _, rfl⟩
      · rw [if_neg h2]
        obtain ⟨r, d1, hd, hD, _⟩ := displace_keys_spec w.dic (h % w.dic.capacity) hc32 hp
        rw [hd]
        simp only
        by_cases h3 : r ≠ w.dic.capacity
        · rw [if_pos h3]; exact ⟨_, _, rfl⟩
        · rw [if_neg h3]
          have ht1 : TypeOK d1 := TypeOK_of w.dic d1 hD.capacity (hD.bitmap_lt ht.bitmap_lt) ht
          have hr1 : Range d1 := hD.range hr
          have hput : ∀ x k v hv, (TypeOK x.dic ∧ Range x.dic ∧ w.dic.capacity * 2 ≤ x.dic.capacity) →
              ∃ b x1, dictionary_put_with_hashvalue f x k v hv = some (b, x1) ∧
                (b = true → TypeOK x1.dic ∧ Range x1.dic ∧
                  w.dic.capacity * 2 ≤ x1.dic.capacity) := by
            intro x k v hv hJ
            obtain ⟨b, x1, hx⟩ := ih f x k v hv (by omega) hJ.1 hJ.2.1 (by
              have h2 : w.dic.capacity * sizeof_Element * 2 ^ (n + 1)
                  = w.dic.capacity * 2 * sizeof_Element * 2 ^ n := by
                rw [pow_succ]; ring
              rw [h2] at hcap
              exact Nat.le_trans hcap (Nat.mul_le_mul_right _ (Nat.mul_le_mul_right _ hJ.2.2)))
            refine ⟨b, x1, hx, fun _ => ?_⟩
            have hB := (put_basic f x k v hv b x1 hJ.1 hJ.2.1 hx).1
            obtain ⟨j, hj⟩ := hB.cap
            refine ⟨hB.typeok, hB.range, ?_⟩
            rw [hj]
            exact Nat.le_trans hJ.2.2 (Nat.le_mul_of_pos_right _ (Nat.two_pow_pos j))
          obtain ⟨b, w2, hrh⟩ := rehash_returns (dictionary_put_with_hashvalue f)
            { w with dic := d1 }
            (fun x => TypeOK x.dic ∧ Range x.dic ∧ w.dic.capacity * 2 ≤ x.dic.capacity)
            (fun wa hwa hc => by
              refine ⟨by rw [hwa]; exact TypeOK_fresh d1 ht1 hc, by rw [hwa]; exact Range_fresh d1,
                ?_⟩
              rw [hwa, fresh_capacity d1 ht1]
              show w.dic.capacity * 2 ≤ d1.capacity * 2
              rw [hD.capacity])
            hput
          rw [hrh]
          cases b
          · exact ⟨_, _, rfl⟩
          · simp only
            have hR := rehash_basic f { w with dic := d1 } true w2 ht1 hr1 hrh
            have hge : w.dic.capacity * 2 ≤ w2.dic.capacity := by
              have := hR.2.2.1 rfl
              rw [← hD.capacity]; exact this
            obtain ⟨b, x1, hx, _⟩ := hput w2 key value h ⟨hR.1.typeok, hR.1.range, hge⟩
            exact ⟨b, x1, hx⟩

/-- A table cannot hold more than 32 distinct keys of the same hash: they
all lie in the 32 slots of one neighbourhood. -/
theorem equal_hash_keys_le (d : dictionary_t) (ht : TypeOK d) (hr : Range d) (hh : HashOK d)
    (ks : List Key) (H : Nat) (hn : ks.Nodup) (hH : ∀ k, k ∈ ks → murmur_hash k SEED = H)
    (hold : ∀ k, k ∈ ks → holds d k) : ks.length ≤ 32 := by
  classical
  by_contra hlen
  have hcpos := TypeOK_pos ht
  have hb : H % d.capacity < d.capacity := Nat.mod_lt _ hcpos
  have hex : ∀ k, k ∈ ks → ∃ o, o < 32 ∧ (d.elements ((H % d.capacity + o) % d.capacity)).key
      = some k := by
    intro k hk
    obtain ⟨i, hi, hkey⟩ := hold k hk
    have := hr i hi (by rw [hkey]; simp)
    rw [hh i k hi hkey, hH k hk] at this
    refine ⟨_, this, ?_⟩
    rw [slot_of_offset i _ d.capacity hi hb]
    exact hkey
  let f : Key → Nat := fun k => if h : k ∈ ks then Classical.choose (hex k h) else 0
  have hmaps : ∀ k, k ∈ ks.toFinset → f k ∈ Finset.range 32 := by
    intro k hk
    rw [List.mem_toFinset] at hk
    simp only [f, dif_pos hk, Finset.mem_range]
    exact (Classical.choose_spec (hex k hk)).1
  have hcard : (Finset.range 32).card < ks.toFinset.card := by
    rw [Finset.card_range, List.toFinset_card_of_nodup hn]; omega
  obtain ⟨x, hx, y, hy, hxy, hf⟩ := Finset.exists_ne_map_eq_of_card_lt_of_maps_to hcard hmaps
  rw [List.mem_toFinset] at hx hy
  simp only [f, dif_pos hx, dif_pos hy] at hf
  have e1 := (Classical.choose_spec (hex x hx)).2
  have e2 := (Classical.choose_spec (hex y hy)).2
  rw [hf, e2] at e1
  exact hxy (Option.some.inj e1).symm

/-! ## Evaluated histories -/

theorem map_decide_some {α : Type} (o : Option α) (P : α → Prop) [DecidablePred P]
    (h : o.map (fun w => decide (P w)) = some true) : ∃ w, o = some w ∧ P w := by
  obtain ⟨w, hw, hP⟩ := Option.map_eq_some'.mp h
  exact ⟨w, hw, of_decide_eq_true hP⟩

theorem run_append (fuel : Nat) : ∀ (a b : List Op) (w : World),
    run fuel (a ++ b) w = (run fuel a w).bind (run fuel b) := by
  intro a
  induction a with
  | nil => intro b w; rfl
  | cons op a ih =>
    intro b w
    show (step fuel w op).bind (run fuel (a ++ b)) = ((step fuel w op).bind (run fuel a)).bind _
    cases step fuel w op with
    | none => rfl
    | some w1 => exact ih b w1

theorem after_append (fuel : Nat) (a b : List Op) :
    after fuel (a ++ b) = (after fuel a).bind (run fuel b) := by
  unfold after
  cases dictionary_create true [] with
  | none => rfl
  | some w => exact run_append fuel a b w

theorem after_allocs_append (allocs : List Bool) (fuel : Nat) (a b : List Op) :
    after_allocs allocs fuel (a ++ b) = (after_allocs allocs fuel a).bind (run fuel b) := by
  unfold after_allocs
  cases dictionary_create true allocs with
  | none => rfl
  | some w => exact run_append fuel a b w

theorem after_some_reachable (fuel : Nat) (ops : List Op) (w : World)
    (h : after fuel ops = some w) : Reachable w := by
  unfold after at h
  simp only [Option.bind_eq_some] at h
  obtain ⟨w0, h0, hrun⟩ := h
  exact run_reachable fuel ops w0 w (Reachable.create true [] w0 h0) hrun

theorem after_some_put_reachable (fuel : Nat) (keys : List Key) (v : Nat) (w : World)
    (h : after fuel (keys.map (fun k => Op.put k v)) = some w) : PutReachable w := by
  unfold after at h
  simp only [Option.bind_eq_some] at h
  obtain ⟨w0, h0, hrun⟩ := h
  refine run_put_reachable fuel _ w0 w ?_ (PutReachable.create true [] w0 h0) hrun
  intro op hop
  obtain ⟨k, _, hk⟩ := List.mem_map.mp hop
  exact ⟨k, v, hk.symm⟩

theorem holds_of_contains (d : dictionary_t) (ht : TypeOK d) (k : Key)
    (h : dictionary_contains d k = true) : holds d k := by
  unfold dictionary_contains at h
  simp only at h
  by_cases hi : get_keys_matching_index_in_neighborhood d k (murmur_hash k SEED % d.capacity)
      = d.capacity
  · rw [if_pos hi] at h; simp at h
  · exact ⟨_, lookup_lt d k _ (ht.bitmap_lt _) (TypeOK_pos ht) hi, lookup_key d k _ hi⟩

set_option maxRecDepth 100000 in
/-- The history `scen_before_displace`, evaluated: what `displace_keys` for
bucket 0 does in the world it ends in (it returns slot 31 after moving `1n`
from slot 31 to slot 32), and the worlds after the further calls of
`scen_displace` and `scen_duplicate`. -/
theorem scen_before_displace_facts :
    ∃ w0, after 1 scen_before_displace = some w0 ∧
      (w0.dic.capacity = 1024 ∧ (w0.dic.elements 31).key = some [49, 110] ∧
        (displace_keys w0.dic 0).map (fun r =>
            (r.1, (r.2.elements 31).key, (r.2.elements 32).key))
          = some (31, none, some [49, 110]) ∧
        (run 1 [Op.put [54, 105, 110] 99] w0).map (fun w => decide
          (w.failures = 0 ∧ (w.dic.elements 32).key = some [49, 110] ∧
            (w.dic.elements 32).hashvalue % w.dic.capacity = 1 ∧
            (w.dic.bitmap 1).testBit 0 = false ∧ w.dic.bitmap 1 = 2 ^ 31 + 2 ∧
            (w.dic.elements 1).hashvalue % w.dic.capacity = 0 ∧
            dictionary_get w.dic [49, 110] = (0, true) ∧
            dictionary_size w.dic = 33 ∧ (contained_keys w.dic).length = 32 ∧
            (run 1 [Op.delete [120, 107, 54], Op.put [49, 110] 3] w).map (fun w2 =>
                (w2.failures, (w2.dic.elements 5).key, (w2.dic.elements 32).key))
              = some (0, some [49, 110], some [49, 110]))) = some true) := by
  apply map_decide_some
  decide!

/-- The history `scen_displace`, evaluated: the world it ends in, and the
world after the two further calls of `scen_duplicate`. -/
theorem scen_displace_facts :
    ∃ w, after 1 scen_displace = some w ∧
      (w.failures = 0 ∧ (w.dic.elements 32).key = some [49, 110] ∧
        (w.dic.elements 32).hashvalue % w.dic.capacity = 1 ∧
        (w.dic.bitmap 1).testBit 0 = false ∧ w.dic.bitmap 1 = 2 ^ 31 + 2 ∧
        (w.dic.elements 1).hashvalue % w.dic.capacity = 0 ∧
        dictionary_get w.dic [49, 110] = (0, true) ∧
        dictionary_size w.dic = 33 ∧ (contained_keys w.dic).length = 32 ∧
        (run 1 [Op.delete [120, 107, 54], Op.put [49, 110] 3] w).map (fun w2 =>
            (w2.failures, (w2.dic.elements 5).key, (w2.dic.elements 32).key))
          = some (0, some [49, 110], some [49, 110])) := by
  obtain ⟨w0, hw0, _, _, _, hrun⟩ := scen_before_displace_facts
  obtain ⟨w, hw, hP⟩ := map_decide_some _ _ hrun
  refine ⟨w, ?_, hP⟩
  have he : after 1 scen_displace
      = (after 1 scen_before_displace).bind (run 1 [Op.put [54, 105, 110] 99]) :=
    after_append 1 scen_before_displace _
  rw [he, hw0, Option.some_bind]
  exact hw

theorem before_displace_spec :
    after 1 scen_before_displace = some before_displace ∧
      before_displace.dic.capacity = 1024 ∧
      (before_displace.dic.elements 31).key = some [49, 110] ∧
      (displace_keys before_displace.dic 0).map (fun r =>
          (r.1, (r.2.elements 31).key, (r.2.elements 32).key))
        = some (31, none, some [49, 110]) := by
  obtain ⟨w, hw, h1, h2, h3, _⟩ := scen_before_displace_facts
  have he : before_displace = w := by
    unfold before_displace
    rw [hw]
    rfl
  rw [he]
  exact ⟨hw, h1, h2, h3⟩

set_option maxRecDepth 100000 in
/-- The history `scen_fill` followed by the put of `6pm`, evaluated with the
36th allocation failing. -/
theorem scen_fill_facts :
    ∃ w, after_allocs (List.replicate 35 true ++ [false]) 1 scen_fill = some w ∧
      (w.dic.size = 32 ∧
        (dictionary_put 1 w [54, 112, 109] 5).map (fun r => (r.1, r.2.dic.size))
          = some (false, 0) ∧
        (dictionary_put 1 w [54, 112, 109] 5).map (fun r => (r.2.dic.capacity, r.2.failures))
          = some (1024, 1) ∧
        (rehash (dictionary_put_with_hashvalue 0) w).map (fun r => (r.1, r.2.dic.size))
          = some (false, 0) ∧
        (run 1 [Op.put [54, 112, 109] 5] w).map (fun w2 =>
            (w2.dic.size, dictionary_get w2.dic [97, 51], (dictionary_pop w2 [97, 51]).1,
              (dictionary_pop w2 [97, 51]).2.dic.size))
          = some (0, (7, false), (7, false), 2 ^ 64 - 1)) := by
  apply map_decide_some
  decide!

set_option maxRecDepth 100000 in
theorem crowded_facts :
    ∃ w, after 1 (keys_collide.map (fun k => Op.put k 7)) = some w ∧
      (w.failures = 0 ∧ w.dic.capacity = 1024 ∧
        (List.range 32).map (fun i => (w.dic.elements (823 - i)).key)
          = keys_collide.map some) := by
  apply map_decide_some
  decide!

theorem crowded_spec :
    after 1 (keys_collide.map (fun k => Op.put k 7)) = some crowded ∧
      crowded.failures = 0 ∧ crowded.dic.capacity = 1024 ∧
        ∀ k, k ∈ keys_collide → holds crowded.dic k := by
  obtain ⟨w, hw, hf, hc, hk⟩ := crowded_facts
  have he : crowded = w := by
    unfold crowded
    rw [hw]
    rfl
  rw [he]
  refine ⟨hw, hf, hc, ?_⟩
  intro k hmem
  have h1 : some k ∈ keys_collide.map some := List.mem_map_of_mem some hmem
  rw [← hk] at h1
  obtain ⟨i, _, hi⟩ := List.mem_map.mp h1
  exact ⟨823 - i, by rw [hc]; omega, hi⟩

theorem crowded_reachable : Reachable crowded :=
  after_some_reachable 1 _ crowded crowded_spec.1

set_option maxRecDepth 100000 in
theorem keys_collide_hash : ∀ k, k ∈ [104, 111, 112, 115, 99, 111, 116, 99] :: keys_collide →
    murmur_hash k SEED = 1816094488 := by
  decide!

set_option maxRecDepth 100000 in
theorem keys_collide_nodup : ([104, 111, 112, 115, 99, 111, 116, 99] :: keys_collide).Nodup := by
  decide!

/-- A table that holds 32 keys of one hash cannot take a 33rd: its put
returns only after an allocation failed, and then returns `false`. -/
theorem equal_hash_put_fails (w : World) (ht : TypeOK w.dic) (hr : Range w.dic)
    (hh : HashOK w.dic) (ks : List Key) (key : Key) (H : Nat) (hn : (key :: ks).Nodup)
    (hH : ∀ k, k ∈ key :: ks → murmur_hash k SEED = H) (hlen : 32 ≤ ks.length)
    (hold : ∀ k, k ∈ ks → holds w.dic k) (fuel : Nat) (allocs : List Bool) (value : Nat)
    (b : Bool) (w1 : World)
    (hput : dictionary_put fuel { w with allocs := allocs } key value = some (b, w1)) :
    b = false ∧ w.failures < w1.failures := by
  have hB := put_basic fuel { w with allocs := allocs } key value _ b w1 ht hr hput
  cases b
  · exact ⟨rfl, hB.1.fail_lt rfl⟩
  · exfalso
    have hS := put_success fuel { w with allocs := allocs } key value _ w1 ht hr hh rfl hput
    have hle := equal_hash_keys_le w1.dic hB.1.typeok hB.1.range (hB.2 hh rfl) (key :: ks) H
      hn hH (by
        intro k hk
        rcases List.mem_cons.mp hk with hk | hk
        · rw [hk]; exact Success_holds hB.1.typeok hS
        · exact hS.keeps k (hold k hk))
    rw [List.length_cons] at hle
    omega

/-! ## Histories on which the code departs from the specification -/

/-- C13 (failing input): after the history `scen_displace`, in which no
allocation fails, slot 32 holds the key `1n` whose home bucket is 1, at
offset 31, but bit `31 - 31 = 0` of `bitmap[1]` is clear; bit 31 of
`bitmap[1]` is set although slot 1 holds a key of home bucket 0. The word is
`2 ^ 31 + 2`: the relocation set bit `new_offset = 31` and left bit
`31 - old_offset = 1` set. -/
theorem bitmap_after_displacement :
    (after 1 scen_displace).map (fun w =>
      (w.failures, (w.dic.elements 32).key, (w.dic.elements 32).hashvalue % w.dic.capacity,
        (w.dic.bitmap 1).testBit 0, w.dic.bitmap 1,
        (w.dic.elements 1).hashvalue % w.dic.capacity))
      = some (0, some [49, 110], 1, false, 2 ^ 31 + 2, 0) := by
  obtain ⟨w, hw, h1, h2, h3, h4, h5, h6, _⟩ := scen_displace_facts
  rw [hw, Option.map_some', h1, h2, h3, h4, h5, h6]

set_option maxRecDepth 100000 in
/-- C1 (failing input): in the history `scen_displace` the put of `1n` with
value 2 returns `true` and no later call names `1n`, yet after the history
`dictionary_get` of `1n` returns `NULL` with `err = true`. No allocation
fails. -/
theorem get_after_displacement :
    ((after 1 [Op.put [121, 49] 1]).bind (fun w =>
        (dictionary_put 1 w [49, 110] 2).map (fun r => r.1))) = some true ∧
      (after 1 scen_displace).map (fun w => (w.failures, dictionary_get w.dic [49, 110]))
        = some (0, (0, true)) := by
  refine ⟨by decide!, ?_⟩
  obtain ⟨w, hw, h1, _, _, _, _, _, h7, _⟩ := scen_displace_facts
  rw [hw, Option.map_some', h1, h7]

/-- C10 (failing input): after the history `scen_displace`, in which no
allocation fails, `dictionary_size` is 33 but only 32 distinct keys are
contained. -/
theorem size_after_displacement :
    (after 1 scen_displace).map (fun w =>
      (w.failures, dictionary_size w.dic, (contained_keys w.dic).length))
      = some (0, 33, 32) := by
  obtain ⟨w, hw, h1, _, _, _, _, _, _, h8, h9, _⟩ := scen_displace_facts
  rw [hw, Option.map_some', h1, h8, h9]

/-- C18 (failing input): after the history `scen_duplicate`, in which no
allocation fails, the distinct slots 5 and 32 both hold the key `1n`. -/
theorem duplicate_key_after_displacement :
    (after 1 scen_duplicate).map (fun w =>
      (w.failures, (w.dic.elements 5).key, (w.dic.elements 32).key))
      = some (0, some [49, 110], some [49, 110]) := by
  obtain ⟨w, hw, _, _, _, _, _, _, _, _, _, h10⟩ := scen_displace_facts
  have he : after 1 scen_duplicate
      = (after 1 scen_displace).bind (run 1 [Op.delete [120, 107, 54], Op.put [49, 110] 3]) :=
    after_append 1 scen_displace _
  rw [he, hw, Option.some_bind]
  exact h10

set_option maxRecDepth 100000 in
/-- C5 (failing input): after the history `scen_two_copies`, in which no
allocation fails, `dictionary_contains` of `b2f` is `true`;
`dictionary_delete` of `b2f` returns `true`, calls the destructor once (on
the value 3 of the older copy) and decreases the size from 63 to 62, but
`dictionary_contains` of `b2f` is still `true` afterwards. -/
theorem delete_leaves_a_copy :
    (after 1 scen_two_copies).map (fun w => decide
      (w.failures = 0 ∧ dictionary_contains w.dic [98, 50, 102] = true ∧ w.dic.size = 63 ∧
        (dictionary_delete w [98, 50, 102]).1 = true ∧
        (dictionary_delete w [98, 50, 102]).2.dic.size = 62 ∧
        (dictionary_delete w [98, 50, 102]).2.destroyed = 3 :: w.destroyed ∧
        dictionary_contains (dictionary_delete w [98, 50, 102]).2.dic [98, 50, 102] = true))
      = some true := by
  decide!

/-- C9 (failing input): the 32 puts of `scen_fill` succeed and leave size 32;
the next put, of `6pm` (home bucket 0), calls `rehash`, whose first `calloc`
fails; the put returns `false` and leaves the slots, the bitmap and the
capacity as they were but the size 0. -/
theorem size_after_failed_rehash :
    ∃ w, after_allocs (List.replicate 35 true ++ [false]) 1 scen_fill = some w ∧
      w.dic.size = 32 ∧
      (dictionary_put 1 w [54, 112, 109] 5).map (fun r => (r.1, r.2.dic.size))
        = some (false, 0) ∧
      (dictionary_put 1 w [54, 112, 109] 5).map (fun r => (r.2.dic.capacity, r.2.failures))
        = some (1024, 1) ∧
      (rehash (dictionary_put_with_hashvalue 0) w).map (fun r => (r.1, r.2.dic.size))
        = some (false, 0) := by
  obtain ⟨w, hw, h1, h2, h3, h4, _⟩ := scen_fill_facts
  exact ⟨w, hw, h1, h2, h3, h4⟩

/-- C6 (failing input): after the 32 puts of `scen_fill` and the put of `6pm`
whose `rehash` fails on its first `calloc`, the size is 0 and
`dictionary_get` of `a3` returns 7 with `err = false`; `dictionary_pop` of
`a3` returns 7 with `err = false` and leaves the size `2 ^ 64 - 1`. -/
theorem pop_after_failed_rehash :
    (after_allocs (List.replicate 35 true ++ [false]) 1
        (scen_fill ++ [Op.put [54, 112, 109] 5])).map (fun w =>
      (w.dic.size, dictionary_get w.dic [97, 51], (dictionary_pop w [97, 51]).1,
        (dictionary_pop w [97, 51]).2.dic.size))
      = some (0, (7, false), (7, false), 2 ^ 64 - 1) := by
  obtain ⟨w, hw, _, _, _, _, h5⟩ := scen_fill_facts
  rw [after_allocs_append, hw, Option.some_bind]
  exact h5

/-! ## Displacement -/

/-- C16: displacement postcondition. For every dictionary state with
`capacity ≥ 64` that satisfies the neighbourhood range invariant and every
bucket `pos < capacity`, `displace_keys pos` terminates, and if it returns
`r ≠ capacity` then `(r + capacity - pos) % capacity < 32`, the slot at `r`
is empty, the multiset of `(key, value, hashvalue)` triples held in occupied
slots is the one before the call, and every occupied slot still lies within
32 of its own home bucket. -/
theorem displacement_postcondition (d : dictionary_t) (pos : Nat) (hcap : 64 ≤ d.capacity)
    (hr : Range d) (hpos : pos < d.capacity) :
    ∃ r d1, displace_keys d pos = some (r, d1) ∧ d1.capacity = d.capacity ∧
      (r ≠ d.capacity →
        (r + d.capacity - pos) % d.capacity < 32 ∧ (d1.elements r).key = none ∧
        entries d1 = entries d ∧ Range d1) := by
  obtain ⟨r, d1, h1, hD, hpost⟩ := displace_keys_spec d pos (by omega) hpos
  refine ⟨r, d1, h1, hD.capacity, ?_⟩
  intro hne
  rcases hpost with h | ⟨_, h2, h3⟩
  · rw [hD.capacity] at h; exact absurd h hne
  · rw [hD.capacity] at h2
    exact ⟨h2, h3, hD.entries, hD.range hr⟩

theorem displacement_postcondition_witness :
    64 ≤ before_displace.dic.capacity ∧ Range before_displace.dic ∧
      0 < before_displace.dic.capacity ∧
      (before_displace.dic.elements 31).key = some [49, 110] ∧
      ∃ d1, displace_keys before_displace.dic 0 = some (31, d1) ∧
        31 ≠ before_displace.dic.capacity ∧ d1.capacity = before_displace.dic.capacity ∧
        (d1.elements 32).key = some [49, 110] ∧
        (31 + before_displace.dic.capacity - 0) % before_displace.dic.capacity < 32 ∧
        (d1.elements 31).key = none ∧ entries d1 = entries before_displace.dic ∧
        Range d1 := by
  obtain ⟨hw, hc, hk, hd⟩ := before_displace_spec
  have hr : Range before_displace.dic :=
    (reachable_inv _ (after_some_reachable 1 _ _ hw)).2.1
  have h64 : 64 ≤ before_displace.dic.capacity := by rw [hc]; decide
  have hp : 0 < before_displace.dic.capacity := by rw [hc]; decide
  obtain ⟨r, d1, h1, h2, hpost⟩ := displacement_postcondition before_displace.dic 0 h64 hr hp
  rw [h1] at hd
  simp only [Option.map_some', Option.some.injEq, Prod.mk.injEq] at hd
  obtain ⟨hr31, _, h32⟩ := hd
  subst hr31
  have hne : 31 ≠ before_displace.dic.capacity := by rw [hc]; decide
  obtain ⟨p1, p2, p3, p4⟩ := hpost hne
  exact ⟨h64, hr, hp, hk, d1, h1, hne, h2, h32, p1, p2, p3, p4⟩

/-! ## Histories without removals -/

/-- C20: in a history of puts alone the displacement engine never relocates
anything. For every world met in a history of `dictionary_put` calls on a
dictionary from `dictionary_create` (the worlds between the calls, and the
tables that `rehash` builds inside a call, whatever allocations fail) and
every bucket `pos`, `displace_keys` returns the sentinel `capacity` and
leaves every slot and every bitmap word as it was; a put that finds the
neighbourhood full therefore goes on to `rehash`. -/
theorem displacement_never_relocates (w : World) (h : PutReachable w) (pos : Nat)
    (hpos : pos < w.dic.capacity) :
    displace_keys w.dic pos = some (w.dic.capacity, w.dic) :=
  Compact_displace w.dic (put_reachable_compact w h) pos hpos

theorem displacement_never_relocates_witness :
    PutReachable crowded ∧ 792 < crowded.dic.capacity ∧
      displace_keys crowded.dic 792 = some (crowded.dic.capacity, crowded.dic) := by
  have hr : PutReachable crowded := after_some_put_reachable 1 keys_collide 7 _ crowded_spec.1
  have hp : 792 < crowded.dic.capacity := by rw [crowded_spec.2.2.1]; decide
  exact ⟨hr, hp, displacement_never_relocates crowded hr 792 hp⟩

/-- C2: round trip of distinct keys. If the keys of a list of pairs are
pairwise distinct and each pair is put, in order and with every put
returning `true`, into a dictionary fresh from `dictionary_create`, then
afterwards `dictionary_size` is the length `N` of the list, `N` is at most
the capacity, so that `N > 1024` implies a capacity above 1024 (the table
grew), and `dictionary_get` of each key returns the value it was put with
and `err = false`. -/
theorem distinct_keys_round_trip (destroy : Bool) (allocs : List Bool) (w0 : World)
    (fuel : Nat) (kvs : List (Key × Nat)) (w : World)
    (hcreate : dictionary_create destroy allocs = some w0)
    (hdistinct : (kvs.map Prod.fst).Nodup)
    (hputs : put_all fuel kvs w0 = some w) :
    dictionary_size w.dic = kvs.length ∧ kvs.length ≤ w.dic.capacity ∧
      (INITIAL_CAPACITY < kvs.length → INITIAL_CAPACITY < w.dic.capacity) ∧
      ∀ kv, kv ∈ kvs → dictionary_get w.dic kv.1 = (kv.2, false) := by
  have hc := (create_spec destroy allocs w0 hcreate).1
  have hcomp : Compact w0.dic := by rw [hc]; exact create_Compact destroy
  have hsize : SizeOK w0.dic := by rw [hc]; exact SizeOK_create destroy
  have hent : entries w0.dic = 0 := by rw [hc]; exact entries_create destroy
  have hnew : ∀ kv, kv ∈ kvs → ¬ holds w0.dic kv.1 := by
    intro kv _ hh
    rw [holds_iff_entries, hent] at hh
    obtain ⟨t, ht, _⟩ := hh
    simp at ht
  obtain ⟨h1, h2, h3⟩ := put_all_spec fuel kvs w0 w hcomp hsize hnew hdistinct hputs
  rw [hent, zero_add] at h3
  have hlen : dictionary_size w.dic = kvs.length := by
    show w.dic.size = kvs.length
    rw [h2, count_occupied_eq_card, h3]
    simp
  have hle : kvs.length ≤ w.dic.capacity := by
    rw [← hlen]
    show w.dic.size ≤ _
    rw [h2]
    exact count_le_capacity w.dic
  refine ⟨hlen, hle, fun h => Nat.lt_of_lt_of_le h hle, ?_⟩
  intro kv hkv
  apply Compact_get w.dic h1 kv.1 kv.2 (murmur_hash kv.1 SEED)
  rw [h3, Multiset.mem_coe]
  exact List.mem_map_of_mem (fun kv => (kv.1, kv.2, murmur_hash kv.1 SEED)) hkv

set_option maxRecDepth 100000 in
theorem distinct_keys_round_trip_witness :
    (pairs_grow.map Prod.fst).Nodup ∧
      dictionary_size
          (world_of (put_all 2 pairs_grow (world_of (dictionary_create true [])))).dic
        = pairs_grow.length ∧
      pairs_grow.length
        ≤ (world_of (put_all 2 pairs_grow (world_of (dictionary_create true [])))).dic.capacity ∧
      (INITIAL_CAPACITY < pairs_grow.length → INITIAL_CAPACITY <
        (world_of (put_all 2 pairs_grow (world_of (dictionary_create true [])))).dic.capacity) ∧
      ∀ kv, kv ∈ pairs_grow →
        dictionary_get
          (world_of (put_all 2 pairs_grow (world_of (dictionary_create true [])))).dic kv.1
          = (kv.2, false) := by
  have hd : (pairs_grow.map Prod.fst).Nodup := by decide!
  exact ⟨hd, distinct_keys_round_trip true [] _ 2 pairs_grow _
    (world_of_eq _ (by decide)) hd (world_of_eq _ (by decide!))⟩

/-! ## Termination of put -/

/-- The world `crowded` is reachable without any allocation failing and
holds 32 keys whose hash equals that of `hopscotc`. Whatever the recursion
depth allowed and whatever the outcomes of the allocations, a
`dictionary_put` of `hopscotc` that returns has returned `false` after an
allocation failed: 33 keys of one hash never fit one neighbourhood, so this
put grows the table until an allocation is refused. -/
theorem put_of_equal_hash_key_needs_failure :
    Reachable crowded ∧ crowded.failures = 0 ∧
      ∀ fuel allocs b w1,
        dictionary_put fuel { crowded with allocs := allocs }
            [104, 111, 112, 115, 99, 111, 116, 99] 1 = some (b, w1) →
          b = false ∧ crowded.failures < w1.failures := by
  refine ⟨crowded_reachable, crowded_spec.2.1, ?_⟩
  intro fuel allocs b w1 hput
  obtain ⟨ht, hr, hh, _⟩ := reachable_inv crowded crowded_reachable
  exact equal_hash_put_fails crowded ht hr hh keys_collide _ 1816094488 keys_collide_nodup
    keys_collide_hash (by decide) crowded_spec.2.2.2 fuel allocs 1 b w1 hput

/-- C17: termination of put. For every world reachable from
`dictionary_create` by put / pop / delete calls, every key and every value,
`dictionary_put` returns, whether or not its allocations succeed, as soon as
its recursion may go 51 levels deep: the rehash-and-retry recursion of
`dictionary_put_with_hashvalue` is bounded for every input, because each
level follows a doubling of the capacity and a table of 1024 slots or more
can be doubled fewer than 50 times before `calloc` refuses the slot array. A
put that returns `false` has had an allocation fail, so a put all of whose
allocations succeed returns `true`. -/
theorem put_returns (w : World) (h : Reachable w) (fuel : Nat) (hfuel : 50 < fuel) (key : Key)
    (value : Nat) :
    ∃ b w1, dictionary_put fuel w key value = some (b, w1) ∧
      (b = false → w.failures < w1.failures) := by
  obtain ⟨ht, hr, _, j, hj⟩ := reachable_inv w h
  have hcap : 2 ^ 64 ≤ w.dic.capacity * sizeof_Element * 2 ^ 50 := by
    rw [hj]
    have : 1 ≤ 2 ^ j := Nat.two_pow_pos j
    have h1 : INITIAL_CAPACITY * 1 * sizeof_Element * 2 ^ 50
        ≤ INITIAL_CAPACITY * 2 ^ j * sizeof_Element * 2 ^ 50 :=
      Nat.mul_le_mul_right _ (Nat.mul_le_mul_right _ (Nat.mul_le_mul_left _ this))
    exact Nat.le_trans (by decide) h1
  obtain ⟨b, w1, hput⟩ := put_returns_of 50 fuel w key value (murmur_hash key SEED) hfuel ht hr
    hcap
  exact ⟨b, w1, hput, (put_basic fuel w key value _ b w1 ht hr hput).1.fail_lt⟩

theorem put_returns_witness :
    Reachable crowded ∧ 50 < 51 ∧
      ∃ b w1, dictionary_put 51 crowded [104, 111, 112, 115, 99, 111, 116, 99] 1
          = some (b, w1) ∧ (b = false → crowded.failures < w1.failures) :=
  ⟨crowded_reachable, by decide,
    put_returns crowded crowded_reachable 51 (by decide)
      [104, 111, 112, 115, 99, 111, 116, 99] 1⟩

end Hopscotch
